import Mathlib

/-!
Shallow embedding of the traffic-simulation / pathfinding component
(src: LiveTrafficVisualizer).  Grids are total functions from (row, column)
integer coordinates to cells; the JavaScript arrays are only ever read through
bounds-checked accesses, which the embedding reproduces literally.  JavaScript
string-keyed Sets and Maps keyed by "x,y" are modelled by lists of points and
association lists keyed by points (the key string determines the point and
vice versa).  The sub-cell car coordinates (JS floating-point numbers, used
here only through +, *, floor, abs and <) are modelled by rationals.  The
search loops, which in the source run until their frontier empties, take an
explicit fuel argument and return none on fuel exhaustion; the fuel supplied
by the top-level entry points is proved sufficient below (claim C8), so the
entry points never return none.
-/

/-- Grid dimensions, from the source constants. -/
def GRID_ROWS : Nat := 60

/-- Grid dimensions, from the source constants. -/
def GRID_COLS : Nat := 120

/-- One cell of the city grid (fields of the object literal built by
initializeCityGrid). -/
structure Cell where
  isWall : Bool
  isRoad : Bool
  isVisited : Bool
  isPath : Bool
  hasCar : Bool
  carId : Option Nat
deriving DecidableEq, Repr

/-- The grid: row-major total function; grid y x is the source's grid[y][x]. -/
abbrev Grid := Int → Int → Cell

/-- An integer grid coordinate pair, the source's \x7bx, y\x7d point objects. -/
structure Point where
  x : Int
  y : Int
deriving DecidableEq, Repr

/-- The cell state every cell starts with in initializeCityGrid. -/
def baseCell : Cell :=
  { isWall := true, isRoad := false, isVisited := false, isPath := false,
    hasCar := false, carId := none }

/-- Carve one cell into a road (the two mutations newGrid[y][x].isWall = false;
newGrid[y][x].isRoad = true). -/
def setRoad (g : Grid) (y x : Int) : Grid :=
  fun y' x' =>
    if y' = y ∧ x' = x then { g y' x' with isWall := false, isRoad := true }
    else g y' x'

/-- Index values taken by a JS loop for (i = start; i < stop; i += step),
as the ascending list of such indices. -/
def stepRange (start stop step : Nat) : List Nat :=
  (List.range stop).filter (fun i => decide (start ≤ i ∧ (i - start) % step = 0))

/-- Cells (y, x) carved by the horizontal main-road loop
(for y from 8 step 12; all x; roadY in 0..1 guarded by y + roadY < GRID_ROWS). -/
def hRoadPts : List (Int × Int) :=
  (stepRange 8 GRID_ROWS 12).flatMap fun y =>
    (List.range GRID_COLS).flatMap fun x =>
      ((List.range 2).filter fun roadY => decide (y + roadY < GRID_ROWS)).map
        fun roadY => (((y + roadY : Nat) : Int), ((x : Nat) : Int))

/-- Cells (y, x) carved by the vertical main-road loop
(for x from 8 step 16; all y; roadX in 0..1 guarded by x + roadX < GRID_COLS). -/
def vRoadPts : List (Int × Int) :=
  (stepRange 8 GRID_COLS 16).flatMap fun x =>
    (List.range GRID_ROWS).flatMap fun y =>
      ((List.range 2).filter fun roadX => decide (x + roadX < GRID_COLS)).map
        fun roadX => (((y : Nat) : Int), ((x + roadX : Nat) : Int))

/-- Cells carved by the additional connecting horizontal roads
(for y from 4 step 24; all x). -/
def hConnPts : List (Int × Int) :=
  (stepRange 4 GRID_ROWS 24).flatMap fun y =>
    (List.range GRID_COLS).map fun x => (((y : Nat) : Int), ((x : Nat) : Int))

/-- Cells carved by the additional connecting vertical roads
(for x from 4 step 32; all y). -/
def vConnPts : List (Int × Int) :=
  (stepRange 4 GRID_COLS 32).flatMap fun x =>
    (List.range GRID_ROWS).map fun y => (((y : Nat) : Int), ((x : Nat) : Int))

/-- Run a list of road carvings left to right (the successive loop passes). -/
def carve (g : Grid) (pts : List (Int × Int)) : Grid :=
  pts.foldl (fun g p => setRoad g p.1 p.2) g

/-- initializeCityGrid from the source: every cell starts as a wall, then the
four carving passes run in order.  The source contains no randomness, so the
generated grid is a constant: determinism (claim C4) is inherent in the
translation. -/
def initializeCityGrid : Grid :=
  carve (carve (carve (carve (fun _ _ => baseCell) hRoadPts) vRoadPts) hConnPts) vConnPts

/-- getNeighbors from the source.  The direction list is
[[0, 1], [1, 0], [0, -1], [-1, 0]] destructured as [dx, dy], so the
candidate order is (x, y+1), (x+1, y), (x, y-1), (x-1, y). -/
def getNeighbors (node : Point) (currentGrid : Grid) : List Point :=
  [((0 : Int), (1 : Int)), (1, 0), (0, -1), (-1, 0)].foldl
    (fun neighbors d =>
      let newX := node.x + d.1
      let newY := node.y + d.2
      if 0 ≤ newX ∧ newX < (GRID_COLS : Int) ∧ 0 ≤ newY ∧ newY < (GRID_ROWS : Int) ∧
          (currentGrid newY newX).isWall = false ∧ (currentGrid newY newX).hasCar = false
      then neighbors ++ [⟨newX, newY⟩]
      else neighbors)
    []

/-- Manhattan-distance heuristic for A*. -/
def heuristic (node goal : Point) : Nat :=
  (node.x - goal.x).natAbs + (node.y - goal.y).natAbs

/-- Result of one pathfinding run: \x7bpath, exploredCount\x7d. -/
structure PathResult where
  path : List Point
  exploredCount : Nat
deriving DecidableEq, Repr

/-- Lookup in an association list modelling a JS Map keyed by "x,y" strings
(set is modelled by cons, so the most recent binding shadows older ones,
exactly like Map.prototype.set overwriting). -/
def mapGet : List (Point × Point) → Point → Option Point
  | [], _ => none
  | (k, v) :: rest, q => if q = k then some v else mapGet rest q

/-- Path reconstruction: while (curr) do path.unshift(curr); curr = parent.get(curr).
Fuel-bounded; the callers pass fuel parent.length + 1, proved sufficient. -/
def reconstructPath (parent : List (Point × Point)) : Nat → Point → Option (List Point)
  | 0, _ => none
  | fuel + 1, curr =>
    match mapGet parent curr with
    | none => some [curr]
    | some p => (reconstructPath parent fuel p).map (fun l => l ++ [curr])

/-- Fuel passed to the BFS and DFS loops; proved sufficient in the
termination development below. -/
def searchFuel : Nat := GRID_ROWS * GRID_COLS + 2

/-- Main loop of runBFS: FIFO queue, visited set of already-enqueued cells,
parent map, exploredCount incremented per dequeue. -/
def bfsLoop (g : Grid) (endP : Point) :
    Nat → List Point → List Point → List (Point × Point) → Nat → Option PathResult
  | 0, _, _, _, _ => none
  | fuel + 1, queue, visited, parent, exploredCount =>
    match queue with
    | [] => some ⟨[], exploredCount⟩
    | current :: rest =>
      let exploredCount' := exploredCount + 1
      if current = endP then
        (reconstructPath parent (parent.length + 1) current).map
          (fun p => ⟨p, exploredCount'⟩)
      else
        let st := (getNeighbors current g).foldl
          (fun (st : List Point × List Point × List (Point × Point)) neighbor =>
            if neighbor ∈ st.2.1 then st
            else (st.1 ++ [neighbor], neighbor :: st.2.1, (neighbor, current) :: st.2.2))
          (rest, visited, parent)
        bfsLoop g endP fuel st.1 st.2.1 st.2.2 exploredCount'

/-- runBFS from the source (the setTimeout pacing await is presentation only
and is dropped). -/
def runBFS (currentGrid : Grid) (start endP : Point) : Option PathResult :=
  bfsLoop currentGrid endP searchFuel [start] [start] [] 0

/-- Main loop of runDFS.  The JS array used as a stack (push/pop at the back)
is modelled with the list head as the stack top, so pushing the neighbors in
generation order is folding them onto the head. -/
def dfsLoop (g : Grid) (endP : Point) :
    Nat → List Point → List Point → List (Point × Point) → Nat → Option PathResult
  | 0, _, _, _, _ => none
  | fuel + 1, stack, visited, parent, exploredCount =>
    match stack with
    | [] => some ⟨[], exploredCount⟩
    | current :: rest =>
      let exploredCount' := exploredCount + 1
      if current = endP then
        (reconstructPath parent (parent.length + 1) current).map
          (fun p => ⟨p, exploredCount'⟩)
      else
        let st := (getNeighbors current g).foldl
          (fun (st : List Point × List Point × List (Point × Point)) neighbor =>
            if neighbor ∈ st.2.1 then st
            else (neighbor :: st.1, neighbor :: st.2.1, (neighbor, current) :: st.2.2))
          (rest, visited, parent)
        dfsLoop g endP fuel st.1 st.2.1 st.2.2 exploredCount'

/-- runDFS from the source. -/
def runDFS (currentGrid : Grid) (start endP : Point) : Option PathResult :=
  dfsLoop currentGrid endP searchFuel [start] [start] [] 0

/-- The Dijkstra distances array: none models the Infinity fill. -/
abbrev DistArr := Int → Int → Option Nat

/-- Write one entry of the distances array (distances[y][x] = v). -/
def setDist (d : DistArr) (y x : Int) (v : Nat) : DistArr :=
  fun y' x' => if y' = y ∧ x' = x then some v else d y' x'

/-- JS comparison newDist < distances[...] where absent distances are
Infinity. -/
def distLtInf (a : Nat) : Option Nat → Bool
  | none => true
  | some b => a < b

/-- Fuel passed to the Dijkstra loop; proved sufficient below. -/
def dijkstraFuel : Nat := 5 * (GRID_ROWS * GRID_COLS + 1) + 2

/-- Main loop of runDijkstra: the priority queue is re-sorted (stably, like
ES2019 Array.prototype.sort) by dist before every shift; already-finalized
nodes popped again are skipped; relaxation re-pushes improved entries. -/
def dijkstraLoop (g : Grid) (endP : Point) :
    Nat → List (Point × Nat) → DistArr → List Point → List (Point × Point) → Nat →
    Option PathResult
  | 0, _, _, _, _, _ => none
  | fuel + 1, priorityQueue, distances, visited, parent, exploredCount =>
    match priorityQueue.mergeSort (fun a b => a.2 ≤ b.2) with
    | [] => some ⟨[], exploredCount⟩
    | current :: rest =>
      if current.1 ∈ visited then
        dijkstraLoop g endP fuel rest distances visited parent exploredCount
      else
        let visited' := current.1 :: visited
        let exploredCount' := exploredCount + 1
        if current.1 = endP then
          (reconstructPath parent (parent.length + 1) endP).map
            (fun p => ⟨p, exploredCount'⟩)
        else
          let st := (getNeighbors current.1 g).foldl
            (fun (st : List (Point × Nat) × DistArr × List (Point × Point)) neighbor =>
              if neighbor ∈ visited' then st
              else
                match st.2.1 current.1.y current.1.x with
                | none => st
                | some d =>
                  if distLtInf (d + 1) (st.2.1 neighbor.y neighbor.x) then
                    (st.1 ++ [(neighbor, d + 1)],
                     setDist st.2.1 neighbor.y neighbor.x (d + 1),
                     (neighbor, current.1) :: st.2.2)
                  else st)
            (rest, distances, parent)
          dijkstraLoop g endP fuel st.1 st.2.1 visited' st.2.2 exploredCount'

/-- runDijkstra from the source: distances filled with Infinity except the
start at 0; initial queue holds the start with dist 0. -/
def runDijkstra (currentGrid : Grid) (start endP : Point) : Option PathResult :=
  dijkstraLoop currentGrid endP dijkstraFuel [(start, 0)]
    (setDist (fun _ _ => none) start.y start.x 0) [] [] 0

/-- An open-set entry of runAStar: \x7bx, y, f, g, h\x7d. -/
structure ANode where
  x : Int
  y : Int
  f : Nat
  g : Nat
  h : Nat
deriving DecidableEq, Repr

/-- Position of an open-set entry. -/
def ANode.pos (n : ANode) : Point := ⟨n.x, n.y⟩

/-- Update the first list entry satisfying the predicate (the in-place
mutation of the object returned by Array.prototype.find). -/
def updateFirst : List ANode → (ANode → Bool) → (ANode → ANode) → List ANode
  | [], _, _ => []
  | a :: rest, p, f => if p a then f a :: rest else a :: updateFirst rest p f

/-- Fuel passed to the A* loop; proved sufficient below. -/
def aStarFuel : Nat := GRID_ROWS * GRID_COLS + 3

/-- Main loop of runAStar.  The open set is stably sorted by f before each
shift; the goal test precedes adding the popped node to the closed set, so
exploredCount counts only closed (finalized) nodes. -/
def aStarLoop (grid : Grid) (endP : Point) :
    Nat → List ANode → List Point → List (Point × Point) → Nat → Option PathResult
  | 0, _, _, _, _ => none
  | fuel + 1, openSet, closedSet, cameFrom, exploredCount =>
    match openSet.mergeSort (fun a b => a.f ≤ b.f) with
    | [] => some ⟨[], exploredCount⟩
    | current :: rest =>
      if current.pos = endP then
        (reconstructPath cameFrom (cameFrom.length + 1) current.pos).map
          (fun p => ⟨p, exploredCount⟩)
      else
        let closedSet' := current.pos :: closedSet
        let exploredCount' := exploredCount + 1
        let st := (getNeighbors current.pos grid).foldl
          (fun (st : List ANode × List (Point × Point)) neighbor =>
            if neighbor ∈ closedSet' then st
            else
              let tentativeG := current.g + 1
              match st.1.find? (fun n => n.x == neighbor.x && n.y == neighbor.y) with
              | none =>
                let h := heuristic neighbor endP
                (st.1 ++ [⟨neighbor.x, neighbor.y, tentativeG + h, tentativeG, h⟩],
                 (neighbor, current.pos) :: st.2)
              | some existing =>
                if tentativeG < existing.g then
                  let h := heuristic neighbor endP
                  (updateFirst st.1 (fun n => n.x == neighbor.x && n.y == neighbor.y)
                     (fun n => { n with g := tentativeG, f := tentativeG + h }),
                   (neighbor, current.pos) :: st.2)
                else st)
          (rest, cameFrom)
        aStarLoop grid endP fuel st.1 closedSet' st.2 exploredCount'

/-- runAStar from the source.  Note the initial open-set entry carries f = 0
(not g + h), exactly as in the source. -/
def runAStar (currentGrid : Grid) (start endP : Point) : Option PathResult :=
  aStarLoop currentGrid endP aStarFuel
    [⟨start.x, start.y, 0, 0, heuristic start endP⟩] [] [] 0

/-- Consecutive-step validity of a node list: every node is a getNeighbors
neighbor of its predecessor in the snapshot grid. -/
def chainOk (g : Grid) : List Point → Prop
  | [] => True
  | [_] => True
  | a :: b :: rest => b ∈ getNeighbors a g ∧ chainOk g (b :: rest)

/-- A traversable route from s to e in the snapshot grid: a nonempty list
starting at s, ending at e, each step moving to a traversable neighbor. -/
def validPath (g : Grid) (s e : Point) (l : List Point) : Prop :=
  l ≠ [] ∧ l.head? = some s ∧ l.getLast? = some e ∧ chainOk g l

/-- A traversable route exists from s to e. -/
def reach (g : Grid) (s e : Point) : Prop :=
  ∃ l, validPath g s e l

/-- A car record; color is presentation-only.  Positions are sub-cell
rationals, direction indexes the E, S, W, N vector table. -/
structure Car where
  id : Nat
  x : ℚ
  y : ℚ
  direction : Fin 4
  speed : ℚ
  color : String
  stuckTime : Nat
deriving DecidableEq, Repr

/-- Direction unit vectors of moveCars: right, down, left, up. -/
def dirVec : Fin 4 → Int × Int
  | 0 => (1, 0)
  | 1 => (0, 1)
  | 2 => (-1, 0)
  | 3 => (0, -1)

/-- The random draws one car's tick update may consume, injected from the
environment: the new direction on hitting a wall or boundary, the 0 or 1
escalation offset, whether the 0.001 perturbation fires, and the perturbed
direction. -/
structure CarRand where
  wallDir : Fin 4
  escRand : Fin 2
  perturbHit : Bool
  perturbDir : Fin 4

/-- One car's update inside moveCars.  prevCars is the whole previous-tick
car list (the collision scan reads it, so the update is simultaneous). -/
def moveCar (grid : Grid) (prevCars : List Car) (r : CarRand) (car : Car) : Car :=
  let d := dirVec car.direction
  let newX : ℚ := car.x + (d.1 : ℚ) * car.speed
  let newY : ℚ := car.y + (d.2 : ℚ) * car.speed
  let nextCellX : Int := Rat.floor newX
  let nextCellY : Int := Rat.floor newY
  if nextCellX < 0 ∨ (GRID_COLS : Int) ≤ nextCellX ∨ nextCellY < 0 ∨
      (GRID_ROWS : Int) ≤ nextCellY ∨ (grid nextCellY nextCellX).isWall = true then
    { car with direction := r.wallDir, stuckTime := 0 }
  else if prevCars.any (fun otherCar =>
      decide (otherCar.id ≠ car.id ∧
        |otherCar.x - newX| < (0.8 : ℚ) ∧ |otherCar.y - newY| < (0.8 : ℚ))) then
    if car.stuckTime > 20 then
      { car with
          direction := ⟨(car.direction.val + 1 + r.escRand.val) % 4, Nat.mod_lt _ (by decide)⟩,
          stuckTime := 0 }
    else { car with stuckTime := car.stuckTime + 1 }
  else if r.perturbHit then
    { car with direction := r.perturbDir, x := newX, y := newY, stuckTime := 0 }
  else { car with x := newX, y := newY, stuckTime := 0 }

/-- Map with the element index, for feeding each car its own random draws. -/
def mapWithIndex (f : Nat → Car → Car) : Nat → List Car → List Car
  | _, [] => []
  | i, c :: rest => f i c :: mapWithIndex f (i + 1) rest

/-- moveCars from the source: prevCars.map over the previous tick's car list;
rnd i supplies the i-th car's random draws.  The grid is read-only here: the
function returns only the new car list. -/
def moveCars (grid : Grid) (prevCars : List Car) (rnd : Nat → CarRand) : List Car :=
  mapWithIndex (fun i car => moveCar grid prevCars (rnd i) car) 0 prevCars

/-- The selection state handleCanvasClick reads and writes. -/
structure SelectionState where
  startPoint : Option Point
  endPoint : Option Point
  currentPath : List Point
deriving DecidableEq, Repr

/-- handleCanvasClick from the source, after the pixel-to-cell conversion
(excluded as UI): bounds check, then the road-and-unoccupied guard, then the
three-click cycle. -/
def handleCanvasClick (grid : Grid) (cars : List Car) (x y : Int)
    (st : SelectionState) : SelectionState :=
  if x < 0 ∨ (GRID_COLS : Int) ≤ x ∨ y < 0 ∨ (GRID_ROWS : Int) ≤ y then st
  else if (grid y x).isWall = false ∧
      ¬ cars.any (fun car => decide (Rat.floor car.x = x ∧ Rat.floor car.y = y)) then
    match st.startPoint with
    | none => { st with startPoint := some ⟨x, y⟩ }
    | some _ =>
      match st.endPoint with
      | none => { st with endPoint := some ⟨x, y⟩ }
      | some _ => { startPoint := some ⟨x, y⟩, endPoint := none, currentPath := [] }
  else st

/-- Parent-chain relation: l is the exact node list the source's
reconstruction loop produces when started at the given point, listed from the
chain's root to that point. -/
inductive ChainTo (parent : List (Point × Point)) : Point → List Point → Prop
  | base : ∀ q, mapGet parent q = none → ChainTo parent q [q]
  | step : ∀ q p l, mapGet parent q = some p → ChainTo parent p l → ChainTo parent q (l ++ [q])

/-- Modelled from the spec (claim C4's reading of the carving rules): a cell
(x, y) is covered by a carving rule iff it lies in a two-cell-wide horizontal
band starting at rows 8, 20, 32, 44, 56, or a two-cell-wide vertical band
starting at columns 8, 24, ..., 104, or a single-cell horizontal connector at
rows 4, 28, 52, or a single-cell vertical connector at columns 4, 36, 68, 100. -/
def specRoadRule (x y : Int) : Prop :=
  (∃ y0 ∈ ([8, 20, 32, 44, 56] : List Int), y = y0 ∨ y = y0 + 1) ∨
  (∃ x0 ∈ ([8, 24, 40, 56, 72, 88, 104] : List Int), x = x0 ∨ x = x0 + 1) ∨
  y ∈ ([4, 28, 52] : List Int) ∨ x ∈ ([4, 36, 68, 100] : List Int)

instance (x y : Int) : Decidable (specRoadRule x y) := by
  unfold specRoadRule; infer_instance

/-! ## Basic facts about the snapshot grid and neighbor generation -/

/-- The bounds check of getNeighbors. -/
def inBounds (p : Point) : Prop :=
  0 ≤ p.x ∧ p.x < (GRID_COLS : Int) ∧ 0 ≤ p.y ∧ p.y < (GRID_ROWS : Int)

instance (p : Point) : Decidable (inBounds p) := by unfold inBounds; infer_instance

/-- A cell is traversable iff it is in bounds, not a wall and carries no car. -/
def traversable (g : Grid) (p : Point) : Prop :=
  inBounds p ∧ (g p.y p.x).isWall = false ∧ (g p.y p.x).hasCar = false

instance (g : Grid) (p : Point) : Decidable (traversable g p) := by
  unfold traversable; infer_instance

/-- An all-road, car-free snapshot grid (test fixture for the witnesses). -/
def openGrid : Grid := fun _ _ => { baseCell with isWall := false, isRoad := true }

/-- An all-wall snapshot grid (test fixture for the witnesses). -/
def wallGrid : Grid := fun _ _ => baseCell

/-- The four candidate neighbors in the order the source's direction list
visits them: down, right, up, left. -/
def candidateNeighbors (node : Point) : List Point :=
  [⟨node.x, node.y + 1⟩, ⟨node.x + 1, node.y⟩, ⟨node.x, node.y - 1⟩, ⟨node.x - 1, node.y⟩]

/-- A car's floored position is inside the grid and on a non-wall cell. -/
def carOnRoad (g : Grid) (car : Car) : Prop :=
  0 ≤ Rat.floor car.x ∧ Rat.floor car.x < (GRID_COLS : Int) ∧
  0 ≤ Rat.floor car.y ∧ Rat.floor car.y < (GRID_ROWS : Int) ∧
  (g (Rat.floor car.y) (Rat.floor car.x)).isWall = false

instance (g : Grid) (car : Car) : Decidable (carOnRoad g car) := by
  unfold carOnRoad; infer_instance

/-- The candidate position moveCars computes for a car: current position plus
direction unit vector times speed, as an (x, y) pair. -/
def candidatePos (car : Car) : ℚ × ℚ :=
  (car.x + (((dirVec car.direction).1 : Int) : ℚ) * car.speed,
   car.y + (((dirVec car.direction).2 : Int) : ℚ) * car.speed)

/-- The wall-or-boundary test moveCars applies to the candidate cell. -/
def candidateBlockedByWall (g : Grid) (newX newY : ℚ) : Prop :=
  Rat.floor newX < 0 ∨ (GRID_COLS : Int) ≤ Rat.floor newX ∨ Rat.floor newY < 0 ∨
    (GRID_ROWS : Int) ≤ Rat.floor newY ∨ (g (Rat.floor newY) (Rat.floor newX)).isWall = true

instance (g : Grid) (newX newY : ℚ) : Decidable (candidateBlockedByWall g newX newY) := by
  unfold candidateBlockedByWall; infer_instance

/-- The collision test moveCars applies: some other car of the previous tick
sits within 0.8 of the candidate position on both axes independently. -/
def carBlocked (prevCars : List Car) (car : Car) (newX newY : ℚ) : Prop :=
  ∃ otherCar ∈ prevCars, otherCar.id ≠ car.id ∧
    |otherCar.x - newX| < (0.8 : ℚ) ∧ |otherCar.y - newY| < (0.8 : ℚ)

instance (prevCars : List Car) (car : Car) (newX newY : ℚ) :
    Decidable (carBlocked prevCars car newX newY) := by
  unfold carBlocked; infer_instance

/-- Loop invariant of bfsLoop, relative to the searched grid, the start and
goal points, and the loop state.  The queue holds discovered-but-unprocessed
cells; every visited cell carries a parent chain that is a valid path from
the start whose length is minimal once the cell is processed; the queue
spans at most two consecutive depth levels, lower level in front. -/
structure BFSInv (g : Grid) (start goal : Point) (queue visited : List Point)
    (parent : List (Point × Point)) : Prop where
  vnd : visited.Nodup
  qnd : queue.Nodup
  qsub : ∀ p ∈ queue, p ∈ visited
  vsub : ∀ p ∈ visited, inBounds p ∨ p = start
  sv : start ∈ visited
  snq : start ∉ queue
  chains : ∀ v ∈ visited, ∃ l, ChainTo parent v l ∧ validPath g start v l ∧
    l.length ≤ parent.length + 1 ∧ ∀ u ∈ l, u ∈ visited
  procClosed : ∀ u ∈ visited, u ∉ queue → ∀ w ∈ getNeighbors u g, w ∈ visited
  procEdge : ∀ u ∈ visited, u ∉ queue → ∀ w ∈ getNeighbors u g,
    ∀ lu lw, ChainTo parent u lu → ChainTo parent w lw → lw.length ≤ lu.length + 1
  procMin : ∀ u ∈ visited, u ∉ queue → ∀ lu, ChainTo parent u lu →
    ∀ l2, validPath g start u l2 → lu.length ≤ l2.length
  level : ∃ a Q1 Q2, queue = Q1 ++ Q2 ∧
    (∀ q ∈ Q1, ∀ lq, ChainTo parent q lq → lq.length = a + 1) ∧
    (∀ q ∈ Q2, ∀ lq, ChainTo parent q lq → lq.length = a + 2) ∧
    (∀ u ∈ visited, u ∉ queue → ∀ lu, ChainTo parent u lu → lu.length ≤ a + 1)
  goalq : goal ∈ visited → goal ∈ queue

/-- Loop invariant of dfsLoop: discovered cells carry valid parent chains
from the start, processed cells have all neighbors discovered, and the goal
is never processed without the loop returning. -/
structure DFSInv (g : Grid) (start goal : Point) (stack visited : List Point)
    (parent : List (Point × Point)) : Prop where
  vnd : visited.Nodup
  qsub : ∀ p ∈ stack, p ∈ visited
  vsub : ∀ p ∈ visited, inBounds p ∨ p = start
  sv : start ∈ visited
  chains : ∀ v ∈ visited, ∃ l, ChainTo parent v l ∧ validPath g start v l ∧
    l.length ≤ parent.length + 1 ∧ ∀ u ∈ l, u ∈ visited
  procClosed : ∀ u ∈ visited, u ∉ stack → ∀ w ∈ getNeighbors u g, w ∈ visited
  goalq : goal ∈ visited → goal ∈ stack

/-- Pointwise refinement of distance arrays: the first is everywhere defined
wherever the second is, with a value no larger. -/
def dstLe (d1 d2 : DistArr) : Prop :=
  ∀ y x k, d2 y x = some k → ∃ k2 ≤ k, d1 y x = some k2

/-- Relaxed-closure of the Dijkstra distance array over a set of finalized
cells: every neighbor of a finalized cell has a recorded distance at most one
more than the finalized cell's distance. -/
def dijkClosure (g : Grid) (dst : DistArr) (V : List Point) : Prop :=
  ∀ u ∈ V, ∀ w ∈ getNeighbors u g, ∀ du, dst u.y u.x = some du →
    ∃ dw ≤ du + 1, dst w.y w.x = some dw

/-- Core loop invariant of dijkstraLoop (the relaxed-closure part is carried
separately so the relaxation fold can re-establish it).  Recorded distances
are witnessed by parent chains that are valid paths of exactly that length;
finalized cells have minimal recorded distance; unfinalized recorded cells
keep a live queue entry; queue entries never undercut their recorded
distance; finalized distances never exceed any queue entry. -/
structure DijkCore (g : Grid) (start goal : Point) (pq : List (Point × Nat))
    (dst : DistArr) (V : List Point) (parent : List (Point × Point)) : Prop where
  vnd : V.Nodup
  vsub : ∀ p ∈ V, inBounds p ∨ p = start
  dstv : ∀ w d, dst w.y w.x = some d → ∃ l, ChainTo parent w l ∧ validPath g start w l ∧
    l.length = d + 1 ∧ l.length ≤ parent.length + 1 ∧ ∀ u ∈ l.dropLast, u ∈ V
  vdst : ∀ v ∈ V, ∃ d, dst v.y v.x = some d
  vmin : ∀ v ∈ V, ∀ d, dst v.y v.x = some d → ∀ l2, validPath g start v l2 → d + 1 ≤ l2.length
  open_entry : ∀ w d, w ∉ V → dst w.y w.x = some d → (w, d) ∈ pq
  pq_dst : ∀ e ∈ pq, ∃ d ≤ e.2, dst e.1.y e.1.x = some d
  vbound : ∀ u ∈ V, ∀ du, dst u.y u.x = some du → ∀ e ∈ pq, du ≤ e.2
  pq0 : ∀ e ∈ pq, e.2 = 0 → e.1 = start
  start_dst : dst start.y start.x = some 0
  goalv : goal ∉ V

/-- The relaxation step of dijkstraLoop's neighbor fold, with the finalized
node v and the updated visited set V' abstracted (definitionally equal to the
fold body of dijkstraLoop at v = current.1, V' = current.1 :: visited). -/
def dijkRelax (g : Grid) (v : Point) (V' : List Point) :
    (List (Point × Nat) × DistArr × List (Point × Point)) → Point →
    (List (Point × Nat) × DistArr × List (Point × Point)) :=
  fun st neighbor =>
    if neighbor ∈ V' then st
    else
      match st.2.1 v.y v.x with
      | none => st
      | some d =>
        if distLtInf (d + 1) (st.2.1 neighbor.y neighbor.x) then
          (st.1 ++ [(neighbor, d + 1)],
           setDist st.2.1 neighbor.y neighbor.x (d + 1),
           (neighbor, v) :: st.2.2)
        else st

/-- The relaxation step of aStarLoop's neighbor fold, with the popped node's
g-value cg, its position cpos and the updated closed set C' abstracted
(definitionally equal to the fold body of aStarLoop at cg = current.g,
cpos = current.pos, C' = current.pos :: closedSet). -/
def aStarRelax (endP : Point) (cg : Nat) (cpos : Point) (C' : List Point) :
    (List ANode × List (Point × Point)) → Point → (List ANode × List (Point × Point)) :=
  fun st neighbor =>
    if neighbor ∈ C' then st
    else
      let tentativeG := cg + 1
      match st.1.find? (fun n => n.x == neighbor.x && n.y == neighbor.y) with
      | none =>
        let h := heuristic neighbor endP
        (st.1 ++ [⟨neighbor.x, neighbor.y, tentativeG + h, tentativeG, h⟩],
         (neighbor, cpos) :: st.2)
      | some existing =>
        if tentativeG < existing.g then
          let h := heuristic neighbor endP
          (updateFirst st.1 (fun n => n.x == neighbor.x && n.y == neighbor.y)
             (fun n => { n with g := tentativeG, f := tentativeG + h }),
           (neighbor, cpos) :: st.2)
        else st

/-- Core loop invariant of aStarLoop (the closure part is carried separately
so the relaxation fold can re-establish it).  Open entries have pairwise
distinct positions outside the closed set, carry f = g + h with the exact
goal heuristic, and back their g-value with a parent chain that is a valid
path of exactly that length; closed cells carry minimal-length chains. -/
structure AStarCore (g : Grid) (start goal : Point) (os : List ANode)
    (closed : List Point) (cameFrom : List (Point × Point)) : Prop where
  cnd : closed.Nodup
  csub : ∀ p ∈ closed, inBounds p ∨ p = start
  sclosed : start ∈ closed
  opos : (os.map ANode.pos).Nodup
  odisj : ∀ n ∈ os, n.pos ∉ closed
  ofgh : ∀ n ∈ os, n.f = n.g + n.h ∧ n.h = heuristic n.pos goal
  ochain : ∀ n ∈ os, ∃ l, ChainTo cameFrom n.pos l ∧ validPath g start n.pos l ∧
    l.length = n.g + 1 ∧ l.length ≤ cameFrom.length + 1 ∧ ∀ u ∈ l.dropLast, u ∈ closed
  cchain : ∀ p ∈ closed, ∃ l, ChainTo cameFrom p l ∧ validPath g start p l ∧
    l.length ≤ cameFrom.length + 1 ∧ (∀ u ∈ l.dropLast, u ∈ closed) ∧
    ∀ l2, validPath g start p l2 → l.length ≤ l2.length
  goalc : goal ∉ closed

/-- Relaxed-closure of the A* open set over a set U of closed cells: every
neighbor of a cell of U is closed or has an open entry whose g-value is at
most one more than the cell's chain length minus one. -/
def aStarClosure (g : Grid) (os : List ANode) (U closed : List Point)
    (cameFrom : List (Point × Point)) : Prop :=
  ∀ u ∈ U, ∀ w ∈ getNeighbors u g, ∀ lu, ChainTo cameFrom u lu →
    w ∈ closed ∨ ∃ n ∈ os, n.pos = w ∧ n.g ≤ lu.length

/-- Test fixture: a car heading east at (5, 5) with speed 1/2, stuck for 7
ticks. -/
def carA : Car := ⟨0, 5, 5, 0, 1/2, "a", 7⟩

/-- Test fixture: a car sitting at (6, 5), blocking carA's candidate cell. -/
def carB : Car := ⟨1, 6, 5, 1, 1/2, "b", 0⟩

/-- Test fixture: a fixed bundle of random draws. -/
def rand0 : CarRand := ⟨0, 0, false, 0⟩

/-- getNeighbors is exactly the candidate list in source order filtered by
traversability. -/
theorem getNeighbors_eq (node : Point) (g : Grid) :
    getNeighbors node g = (candidateNeighbors node).filter (fun p => decide (traversable g p)) := by
  unfold getNeighbors
  simp only [List.foldl_cons, List.foldl_nil, add_zero, ← sub_eq_add_neg]
  have hS : (0 ≤ node.x ∧ node.x < (GRID_COLS : Int) ∧ 0 ≤ node.y + 1 ∧ node.y + 1 < (GRID_ROWS : Int) ∧
      (g (node.y + 1) node.x).isWall = false ∧ (g (node.y + 1) node.x).hasCar = false) ↔
      traversable g ⟨node.x, node.y + 1⟩ := by
    unfold traversable inBounds; tauto
  have hE : (0 ≤ node.x + 1 ∧ node.x + 1 < (GRID_COLS : Int) ∧ 0 ≤ node.y ∧ node.y < (GRID_ROWS : Int) ∧
      (g node.y (node.x + 1)).isWall = false ∧ (g node.y (node.x + 1)).hasCar = false) ↔
      traversable g ⟨node.x + 1, node.y⟩ := by
    unfold traversable inBounds; tauto
  have hN : (0 ≤ node.x ∧ node.x < (GRID_COLS : Int) ∧ 0 ≤ node.y - 1 ∧ node.y - 1 < (GRID_ROWS : Int) ∧
      (g (node.y - 1) node.x).isWall = false ∧ (g (node.y - 1) node.x).hasCar = false) ↔
      traversable g ⟨node.x, node.y - 1⟩ := by
    unfold traversable inBounds; tauto
  have hW : (0 ≤ node.x - 1 ∧ node.x - 1 < (GRID_COLS : Int) ∧ 0 ≤ node.y ∧ node.y < (GRID_ROWS : Int) ∧
      (g node.y (node.x - 1)).isWall = false ∧ (g node.y (node.x - 1)).hasCar = false) ↔
      traversable g ⟨node.x - 1, node.y⟩ := by
    unfold traversable inBounds; tauto
  simp only [hS, hE, hN, hW, candidateNeighbors, List.filter_cons, List.filter_nil,
    decide_eq_true_eq]
  by_cases t1 : traversable g ⟨node.x, node.y + 1⟩ <;>
    by_cases t2 : traversable g ⟨node.x + 1, node.y⟩ <;>
      by_cases t3 : traversable g ⟨node.x, node.y - 1⟩ <;>
        by_cases t4 : traversable g ⟨node.x - 1, node.y⟩ <;>
          simp [t1, t2, t3, t4]

/-- Every generated neighbor is traversable. -/
theorem getNeighbors_traversable {node p : Point} {g : Grid}
    (hp : p ∈ getNeighbors node g) : traversable g p := by
  rw [getNeighbors_eq] at hp
  simpa using (List.of_mem_filter hp)

/-- The candidate neighbors of a node are pairwise distinct. -/
theorem candidateNeighbors_nodup (node : Point) : (candidateNeighbors node).Nodup := by
  simp [candidateNeighbors, Point.mk.injEq]
  omega

/-- The generated neighbor list has no duplicates. -/
theorem getNeighbors_nodup (node : Point) (g : Grid) : (getNeighbors node g).Nodup := by
  rw [getNeighbors_eq]
  exact (candidateNeighbors_nodup node).filter _

/-- At most four neighbors are generated. -/
theorem getNeighbors_length_le (node : Point) (g : Grid) :
    (getNeighbors node g).length ≤ 4 := by
  rw [getNeighbors_eq]
  exact le_trans (List.length_filter_le _ _) (by simp [candidateNeighbors])

/-- Neighbors are adjacent: the Manhattan heuristic changes by at most one
per step (consistency of the A* heuristic). -/
theorem heuristic_consistent {node p : Point} {g : Grid} (goal : Point)
    (hp : p ∈ getNeighbors node g) :
    heuristic node goal ≤ heuristic p goal + 1 ∧ heuristic p goal ≤ heuristic node goal + 1 := by
  rw [getNeighbors_eq] at hp
  have hmem := List.mem_of_mem_filter hp
  simp only [candidateNeighbors, List.mem_cons, List.not_mem_nil, or_false] at hmem
  rcases hmem with h | h | h | h <;> subst h <;> simp [heuristic] <;> omega

/-! ## One-step characterization of the BFS and DFS frontier updates -/

/-- The neighbor-processing fold of bfsLoop appends the not-yet-visited
neighbors to the queue in generation order and records them as visited with
parent entries. -/
theorem bfs_fold_eq (current : Point) (nbrs : List Point) (hnd : nbrs.Nodup) :
    ∀ q v p, nbrs.foldl
      (fun (st : List Point × List Point × List (Point × Point)) neighbor =>
        if neighbor ∈ st.2.1 then st
        else (st.1 ++ [neighbor], neighbor :: st.2.1, (neighbor, current) :: st.2.2))
      (q, v, p) =
      (q ++ nbrs.filter (fun n => decide (n ∉ v)),
       (nbrs.filter (fun n => decide (n ∉ v))).reverse ++ v,
       ((nbrs.filter (fun n => decide (n ∉ v))).map (fun n => (n, current))).reverse ++ p) := by
  induction nbrs with
  | nil => intro q v p; simp
  | cons a t ih =>
    intro q v p
    have hat : a ∉ t := (List.nodup_cons.mp hnd).1
    have htn : t.Nodup := (List.nodup_cons.mp hnd).2
    by_cases ha : a ∈ v
    · have H := ih htn q v p
      simp only [decide_not] at H
      have hdv : (decide (a ∈ v)) = true := by simpa using ha
      simp only [List.foldl_cons, if_pos ha, List.filter_cons, decide_not, hdv,
        Bool.not_true, Bool.false_eq_true, if_false]
      exact H
    · simp only [List.foldl_cons, if_neg ha, List.filter_cons]
      have hda : (!decide (a ∈ v)) = true := by simpa using ha
      rw [ih htn (q ++ [a]) (a :: v) ((a, current) :: p)]
      have hfc : t.filter (fun n => decide (n ∉ a :: v)) = t.filter (fun n => decide (n ∉ v)) := by
        apply List.filter_congr
        intro n hn
        have hna : n ≠ a := by rintro rfl; exact hat hn
        simp [hna]
      simp only [decide_not] at hfc ⊢
      rw [hfc]
      simp [hda]

/-- The neighbor-processing fold of dfsLoop pushes the not-yet-visited
neighbors onto the stack top in generation order (so the last generated sits
topmost), recording visited and parent entries like BFS. -/
theorem dfs_fold_eq (current : Point) (nbrs : List Point) (hnd : nbrs.Nodup) :
    ∀ s v p, nbrs.foldl
      (fun (st : List Point × List Point × List (Point × Point)) neighbor =>
        if neighbor ∈ st.2.1 then st
        else (neighbor :: st.1, neighbor :: st.2.1, (neighbor, current) :: st.2.2))
      (s, v, p) =
      ((nbrs.filter (fun n => decide (n ∉ v))).reverse ++ s,
       (nbrs.filter (fun n => decide (n ∉ v))).reverse ++ v,
       ((nbrs.filter (fun n => decide (n ∉ v))).map (fun n => (n, current))).reverse ++ p) := by
  induction nbrs with
  | nil => intro s v p; simp
  | cons a t ih =>
    intro s v p
    have hat : a ∉ t := (List.nodup_cons.mp hnd).1
    have htn : t.Nodup := (List.nodup_cons.mp hnd).2
    by_cases ha : a ∈ v
    · have H := ih htn s v p
      simp only [decide_not] at H
      have hdv : (decide (a ∈ v)) = true := by simpa using ha
      simp only [List.foldl_cons, if_pos ha, List.filter_cons, decide_not, hdv,
        Bool.not_true, Bool.false_eq_true, if_false]
      exact H
    · simp only [List.foldl_cons, if_neg ha, List.filter_cons]
      have hda : (!decide (a ∈ v)) = true := by simpa using ha
      rw [ih htn (a :: s) (a :: v) ((a, current) :: p)]
      have hfc : t.filter (fun n => decide (n ∉ a :: v)) = t.filter (fun n => decide (n ∉ v)) := by
        apply List.filter_congr
        intro n hn
        have hna : n ≠ a := by rintro rfl; exact hat hn
        simp [hna]
      simp only [decide_not] at hfc ⊢
      rw [hfc]
      simp [hda]

/-- Unfolding bfsLoop with no fuel. -/
theorem bfsLoop_zero (g : Grid) (endP : Point) (q v : List Point)
    (p : List (Point × Point)) (c : Nat) : bfsLoop g endP 0 q v p c = none := rfl

/-- Unfolding bfsLoop on the empty queue. -/
theorem bfsLoop_nil (g : Grid) (endP : Point) (fuel : Nat) (v : List Point)
    (p : List (Point × Point)) (c : Nat) :
    bfsLoop g endP (fuel + 1) [] v p c = some ⟨[], c⟩ := rfl

/-- Unfolding bfsLoop when the dequeued node is the goal. -/
theorem bfsLoop_goal (g : Grid) (endP : Point) (fuel : Nat) (current : Point)
    (rest v : List Point) (p : List (Point × Point)) (c : Nat) (h : current = endP) :
    bfsLoop g endP (fuel + 1) (current :: rest) v p c =
      (reconstructPath p (p.length + 1) current).map (fun l => ⟨l, c + 1⟩) := by
  rw [bfsLoop]
  simp [h]

/-- Unfolding bfsLoop on a non-goal dequeue: the new neighbors go to the back
of the queue in generation order. -/
theorem bfsLoop_expand (g : Grid) (endP : Point) (fuel : Nat) (current : Point)
    (rest v : List Point) (p : List (Point × Point)) (c : Nat) (h : current ≠ endP) :
    bfsLoop g endP (fuel + 1) (current :: rest) v p c =
      bfsLoop g endP fuel
        (rest ++ (getNeighbors current g).filter (fun n => decide (n ∉ v)))
        (((getNeighbors current g).filter (fun n => decide (n ∉ v))).reverse ++ v)
        ((((getNeighbors current g).filter (fun n => decide (n ∉ v))).map
            (fun n => (n, current))).reverse ++ p)
        (c + 1) := by
  rw [bfsLoop]
  simp only [if_neg h]
  rw [bfs_fold_eq current _ (getNeighbors_nodup current g)]

/-- Unfolding dfsLoop with no fuel. -/
theorem dfsLoop_zero (g : Grid) (endP : Point) (q v : List Point)
    (p : List (Point × Point)) (c : Nat) : dfsLoop g endP 0 q v p c = none := rfl

/-- Unfolding dfsLoop on the empty stack. -/
theorem dfsLoop_nil (g : Grid) (endP : Point) (fuel : Nat) (v : List Point)
    (p : List (Point × Point)) (c : Nat) :
    dfsLoop g endP (fuel + 1) [] v p c = some ⟨[], c⟩ := rfl

/-- Unfolding dfsLoop when the popped node is the goal. -/
theorem dfsLoop_goal (g : Grid) (endP : Point) (fuel : Nat) (current : Point)
    (rest v : List Point) (p : List (Point × Point)) (c : Nat) (h : current = endP) :
    dfsLoop g endP (fuel + 1) (current :: rest) v p c =
      (reconstructPath p (p.length + 1) current).map (fun l => ⟨l, c + 1⟩) := by
  rw [dfsLoop]
  simp [h]

/-- Unfolding dfsLoop on a non-goal pop: the new neighbors are pushed on the
stack top, reversing generation order. -/
theorem dfsLoop_expand (g : Grid) (endP : Point) (fuel : Nat) (current : Point)
    (rest v : List Point) (p : List (Point × Point)) (c : Nat) (h : current ≠ endP) :
    dfsLoop g endP (fuel + 1) (current :: rest) v p c =
      dfsLoop g endP fuel
        (((getNeighbors current g).filter (fun n => decide (n ∉ v))).reverse ++ rest)
        (((getNeighbors current g).filter (fun n => decide (n ∉ v))).reverse ++ v)
        ((((getNeighbors current g).filter (fun n => decide (n ∉ v))).map
            (fun n => (n, current))).reverse ++ p)
        (c + 1) := by
  rw [dfsLoop]
  simp only [if_neg h]
  rw [dfs_fold_eq current _ (getNeighbors_nodup current g)]

/-! ## Claim C2: neighbor generation order, membership and frontier insertion -/

/-- C2 (amended).  Neighbor generation walks the four axis directions in the
order South (x, y+1), East (x+1, y), North (x, y-1), West (x-1, y) — not
East, South, West, North — and includes a candidate iff it is in bounds and
satisfies not isWall and not hasCar.  The generation order is the frontier
insertion order of the searches: BFS appends the fresh neighbors to its FIFO
queue in exactly this order (its equal-distance tie-break order), and DFS
pushes them so the stack holds them in reversed generation order. -/
theorem neighbor_generation_order (node : Point) (g : Grid) :
    getNeighbors node g = (candidateNeighbors node).filter (fun p => decide (traversable g p)) ∧
    (∀ p, p ∈ getNeighbors node g ↔ p ∈ candidateNeighbors node ∧ traversable g p) ∧
    (∀ endP fuel rest visited parent c, node ≠ endP →
      ∃ v2 p2, bfsLoop g endP (fuel + 1) (node :: rest) visited parent c =
        bfsLoop g endP fuel
          (rest ++ (getNeighbors node g).filter (fun n => decide (n ∉ visited))) v2 p2 (c + 1)) ∧
    (∀ endP fuel rest visited parent c, node ≠ endP →
      ∃ v2 p2, dfsLoop g endP (fuel + 1) (node :: rest) visited parent c =
        dfsLoop g endP fuel
          (((getNeighbors node g).filter (fun n => decide (n ∉ visited))).reverse ++ rest)
          v2 p2 (c + 1)) := by
  refine ⟨getNeighbors_eq node g, fun p => ?_, ?_, ?_⟩
  · rw [getNeighbors_eq]
    simp [List.mem_filter]
  · intro endP fuel rest visited parent c h
    exact ⟨_, _, bfsLoop_expand g endP fuel node rest visited parent c h⟩
  · intro endP fuel rest visited parent c h
    exact ⟨_, _, dfsLoop_expand g endP fuel node rest visited parent c h⟩

/-- C2 counterexample: on an all-road snapshot the neighbors of (5, 5) come
out in the order South, East, North, West, which is not the claimed order
East, South, West, North. -/
theorem neighbor_generation_order_cex :
    getNeighbors ⟨5, 5⟩ openGrid = [⟨5, 6⟩, ⟨6, 5⟩, ⟨5, 4⟩, ⟨4, 5⟩] ∧
    getNeighbors ⟨5, 5⟩ openGrid ≠ [⟨6, 5⟩, ⟨5, 6⟩, ⟨4, 5⟩, ⟨5, 4⟩] := by
  constructor <;> decide

/-- Witness for C2 at a concrete input. -/
theorem neighbor_generation_order_witness :
    ((⟨5, 5⟩ : Point) ≠ (⟨9, 9⟩ : Point)) ∧
    (∃ v2 p2, bfsLoop openGrid ⟨9, 9⟩ (2 + 1) [⟨5, 5⟩] [⟨5, 5⟩] [] 0 =
      bfsLoop openGrid ⟨9, 9⟩ 2
        ([] ++ (getNeighbors ⟨5, 5⟩ openGrid).filter
          (fun n => decide (n ∉ ([⟨5, 5⟩] : List Point)))) v2 p2 (0 + 1)) :=
  ⟨by decide,
    (neighbor_generation_order ⟨5, 5⟩ openGrid).2.2.1 ⟨9, 9⟩ 2 [] [⟨5, 5⟩] [] 0 (by decide)⟩

/-! ## Claim C3: start equal to end -/

/-- C3 (amended).  With start = end = p every algorithm immediately returns
the one-element path [p]; BFS, DFS and Dijkstra report exploredCount 1, but
A* reports exploredCount 0, because its goal test precedes the closed-set
insertion that increments its counter. -/
theorem same_point_search (g : Grid) (p : Point) (hp : traversable g p) :
    runBFS g p p = some ⟨[p], 1⟩ ∧ runDFS g p p = some ⟨[p], 1⟩ ∧
    runDijkstra g p p = some ⟨[p], 1⟩ ∧ runAStar g p p = some ⟨[p], 0⟩ := by
  refine ⟨?_, ?_, ?_, ?_⟩
  · show bfsLoop g p searchFuel [p] [p] [] 0 = _
    rw [show searchFuel = 7201 + 1 from rfl,
      bfsLoop_goal g p 7201 p [] [p] [] 0 rfl]
    simp [reconstructPath, mapGet]
  · show dfsLoop g p searchFuel [p] [p] [] 0 = _
    rw [show searchFuel = 7201 + 1 from rfl,
      dfsLoop_goal g p 7201 p [] [p] [] 0 rfl]
    simp [reconstructPath, mapGet]
  · show dijkstraLoop g p dijkstraFuel [(p, 0)]
      (setDist (fun _ _ => none) p.y p.x 0) [] [] 0 = _
    rw [show dijkstraFuel = 36006 + 1 from rfl, dijkstraLoop]
    simp [List.mergeSort_singleton, reconstructPath, mapGet]
  · show aStarLoop g p aStarFuel [⟨p.x, p.y, 0, 0, heuristic p p⟩] [] [] 0 = _
    rw [show aStarFuel = 7202 + 1 from rfl, aStarLoop]
    simp [List.mergeSort_singleton, ANode.pos, reconstructPath, mapGet]

/-- C3 counterexample: at start = end = (0, 0) on the all-road snapshot, A*
returns exploredCount 0, not the claimed 1. -/
theorem same_point_search_cex :
    runAStar openGrid ⟨0, 0⟩ ⟨0, 0⟩ = some ⟨[⟨0, 0⟩], 0⟩ ∧
    ¬ (runAStar openGrid ⟨0, 0⟩ ⟨0, 0⟩ = some ⟨[⟨0, 0⟩], 1⟩) := by
  have e : runAStar openGrid ⟨0, 0⟩ ⟨0, 0⟩ = some ⟨[⟨0, 0⟩], 0⟩ := by
    show aStarLoop openGrid ⟨0, 0⟩ aStarFuel
      [⟨(⟨0, 0⟩ : Point).x, (⟨0, 0⟩ : Point).y, 0, 0, heuristic ⟨0, 0⟩ ⟨0, 0⟩⟩] [] [] 0 = _
    rw [show aStarFuel = 7202 + 1 from rfl, aStarLoop]
    simp [List.mergeSort_singleton, ANode.pos, reconstructPath, mapGet]
  exact ⟨e, by rw [e]; decide⟩

/-- Witness for C3 at a concrete input. -/
theorem same_point_search_witness :
    traversable openGrid ⟨2, 3⟩ ∧
    (runBFS openGrid ⟨2, 3⟩ ⟨2, 3⟩ = some ⟨[⟨2, 3⟩], 1⟩ ∧
     runDFS openGrid ⟨2, 3⟩ ⟨2, 3⟩ = some ⟨[⟨2, 3⟩], 1⟩ ∧
     runDijkstra openGrid ⟨2, 3⟩ ⟨2, 3⟩ = some ⟨[⟨2, 3⟩], 1⟩ ∧
     runAStar openGrid ⟨2, 3⟩ ⟨2, 3⟩ = some ⟨[⟨2, 3⟩], 0⟩) :=
  ⟨by decide, same_point_search openGrid ⟨2, 3⟩ (by decide)⟩

/-! ## The tick update: per-branch behavior of moveCar -/

/-- Rat.floor agrees with the floor of the FloorRing instance. -/
theorem ratFloor_eq_intFloor (q : ℚ) : Rat.floor q = ⌊q⌋ :=
  (Rat.floor_def' q).trans Rat.floor_def.symm

/-- The collision scan of moveCars succeeds exactly when some other
previous-tick car is within 0.8 of the candidate position on both axes. -/
theorem carBlocked_iff (prevCars : List Car) (car : Car) (newX newY : ℚ) :
    (prevCars.any (fun otherCar =>
      decide (otherCar.id ≠ car.id ∧
        |otherCar.x - newX| < (0.8 : ℚ) ∧ |otherCar.y - newY| < (0.8 : ℚ))) = true) ↔
    carBlocked prevCars car newX newY := by
  simp [carBlocked, List.any_eq_true]

/-- moveCar when the candidate cell is out of bounds or a wall: fresh random
direction, stuckTime reset, position unchanged. -/
theorem moveCar_wall {grid : Grid} {prevCars : List Car} {r : CarRand} {car : Car}
    (h : candidateBlockedByWall grid (candidatePos car).1 (candidatePos car).2) :
    moveCar grid prevCars r car = { car with direction := r.wallDir, stuckTime := 0 } := by
  unfold candidateBlockedByWall candidatePos at h
  unfold moveCar
  rw [if_pos (by exact_mod_cast h)]

/-- moveCar when the candidate cell is fine but another car blocks it and the
car has been stuck for at most 20 ticks: only stuckTime increments. -/
theorem moveCar_coll_stuck {grid : Grid} {prevCars : List Car} {r : CarRand} {car : Car}
    (hw : ¬ candidateBlockedByWall grid (candidatePos car).1 (candidatePos car).2)
    (hc : carBlocked prevCars car (candidatePos car).1 (candidatePos car).2)
    (hs : car.stuckTime ≤ 20) :
    moveCar grid prevCars r car = { car with stuckTime := car.stuckTime + 1 } := by
  unfold candidateBlockedByWall candidatePos at hw
  unfold candidatePos at hc
  unfold moveCar
  rw [if_neg (by exact_mod_cast hw), if_pos ((carBlocked_iff _ _ _ _).mpr hc),
    if_neg (by omega : ¬ car.stuckTime > 20)]

/-- moveCar when blocked with stuckTime above 20: anti-deadlock escalation
turns the direction by 1 plus the random draw (mod 4), resets stuckTime and
keeps the position. -/
theorem moveCar_coll_esc {grid : Grid} {prevCars : List Car} {r : CarRand} {car : Car}
    (hw : ¬ candidateBlockedByWall grid (candidatePos car).1 (candidatePos car).2)
    (hc : carBlocked prevCars car (candidatePos car).1 (candidatePos car).2)
    (hs : car.stuckTime > 20) :
    moveCar grid prevCars r car =
      { car with
          direction := ⟨(car.direction.val + 1 + r.escRand.val) % 4, Nat.mod_lt _ (by decide)⟩,
          stuckTime := 0 } := by
  unfold candidateBlockedByWall candidatePos at hw
  unfold candidatePos at hc
  unfold moveCar
  rw [if_neg (by exact_mod_cast hw), if_pos ((carBlocked_iff _ _ _ _).mpr hc), if_pos hs]

/-- moveCar when the way is clear: the car advances to the candidate
position (possibly with a perturbed direction) and resets stuckTime. -/
theorem moveCar_move {grid : Grid} {prevCars : List Car} {r : CarRand} {car : Car}
    (hw : ¬ candidateBlockedByWall grid (candidatePos car).1 (candidatePos car).2)
    (hc : ¬ carBlocked prevCars car (candidatePos car).1 (candidatePos car).2) :
    moveCar grid prevCars r car =
      if r.perturbHit then
        { car with direction := r.perturbDir, x := (candidatePos car).1, y := (candidatePos car).2, stuckTime := 0 }
      else { car with x := (candidatePos car).1, y := (candidatePos car).2, stuckTime := 0 } := by
  unfold candidateBlockedByWall candidatePos at hw
  unfold candidatePos at hc
  unfold candidatePos
  unfold moveCar
  rw [if_neg (by exact_mod_cast hw),
    if_neg (fun hh => hc ((carBlocked_iff _ _ _ _).mp hh))]

/-- moveCar never changes id, color or speed. -/
theorem moveCar_frame (grid : Grid) (prevCars : List Car) (r : CarRand) (car : Car) :
    (moveCar grid prevCars r car).id = car.id ∧
    (moveCar grid prevCars r car).color = car.color ∧
    (moveCar grid prevCars r car).speed = car.speed := by
  simp only [moveCar]
  split_ifs <;> simp

/-- mapWithIndex preserves length. -/
theorem mapWithIndex_length (f : Nat → Car → Car) :
    ∀ (j : Nat) (l : List Car), (mapWithIndex f j l).length = l.length := by
  intro j l
  induction l generalizing j with
  | nil => rfl
  | cons c t ih => simp [mapWithIndex, ih]

/-- mapWithIndex acts elementwise. -/
theorem mapWithIndex_get? (f : Nat → Car → Car) :
    ∀ (j : Nat) (l : List Car) (i : Nat),
      (mapWithIndex f j l).get? i = (l.get? i).map (f (j + i)) := by
  intro j l
  induction l generalizing j with
  | nil => intro i; cases i <;> rfl
  | cons c t ih =>
    intro i
    cases i with
    | zero => rfl
    | succ i =>
      simp only [mapWithIndex, List.get?_cons_succ]
      rw [ih (j + 1) i]
      ring_nf

/-- Members of mapWithIndex come from members of the input list. -/
theorem mapWithIndex_mem {f : Nat → Car → Car} {c' : Car} :
    ∀ {j : Nat} {l : List Car}, c' ∈ mapWithIndex f j l → ∃ c ∈ l, ∃ i, c' = f i c := by
  intro j l
  induction l generalizing j with
  | nil => intro h; cases h
  | cons c t ih =>
    intro h
    simp only [mapWithIndex] at h
    rcases List.mem_cons.mp h with h | h
    · exact ⟨c, List.mem_cons_self c t, j, h⟩
    · rcases ih h with ⟨c0, hc0, i, rfl⟩
      exact ⟨c0, List.mem_cons_of_mem _ hc0, i, rfl⟩

/-! ## Claim C10: frame property of the tick update -/

/-- C10.  tickAgents returns a same-length list, in the same order, and each
car keeps its id, color and speed (only x, y, direction and stuckTime may
change).  The grid is not touched: in this embedding moveCars takes the grid
read-only and returns only the new car list. -/
theorem tick_frame (grid : Grid) (prevCars : List Car) (rnd : Nat → CarRand) :
    (moveCars grid prevCars rnd).length = prevCars.length ∧
    ∀ i, ((moveCars grid prevCars rnd).get? i).map Car.id = (prevCars.get? i).map Car.id ∧
      ((moveCars grid prevCars rnd).get? i).map Car.color = (prevCars.get? i).map Car.color ∧
      ((moveCars grid prevCars rnd).get? i).map Car.speed = (prevCars.get? i).map Car.speed := by
  constructor
  · exact mapWithIndex_length _ 0 prevCars
  · intro i
    unfold moveCars
    rw [mapWithIndex_get?]
    cases hv : prevCars.get? i with
    | none => simp
    | some c =>
      rcases moveCar_frame grid prevCars (rnd i) c with ⟨h1, h2, h3⟩
      simp [h1, h2, h3]

/-! ## Claim C6: the tick keeps cars in bounds and off walls -/

/-- Each branch of moveCar keeps a car whose floored position is in bounds
and on a non-wall cell in that state: blocked branches do not move it, and
the moving branches first checked the candidate cell. -/
theorem moveCar_preserves_carOnRoad {g : Grid} {prevCars : List Car} {r : CarRand}
    {car : Car} (h : carOnRoad g car) : carOnRoad g (moveCar g prevCars r car) := by
  by_cases hw : candidateBlockedByWall g (candidatePos car).1 (candidatePos car).2
  · rw [moveCar_wall hw]; exact h
  · by_cases hc : carBlocked prevCars car (candidatePos car).1 (candidatePos car).2
    · by_cases hs : car.stuckTime > 20
      · rw [moveCar_coll_esc hw hc hs]; exact h
      · rw [moveCar_coll_stuck hw hc (by omega)]; exact h
    · rw [moveCar_move hw hc]
      unfold candidateBlockedByWall at hw
      push_neg at hw
      rcases hw with ⟨h1, h2, h3, h4, h5⟩
      have h5' : (g (Rat.floor (candidatePos car).2) (Rat.floor (candidatePos car).1)).isWall = false := by
        simpa using h5
      by_cases hp : r.perturbHit <;>
        simp only [hp, if_true, if_false, Bool.false_eq_true] <;>
        exact ⟨h1, h2, h3, h4, h5'⟩

/-- C6.  If every car's floored position is inside the generated city grid
and on a non-wall cell, the same holds for every car after one tick. -/
theorem tick_preserves_car_invariant (prevCars : List Car) (rnd : Nat → CarRand)
    (h : ∀ car ∈ prevCars, carOnRoad initializeCityGrid car) :
    ∀ car ∈ moveCars initializeCityGrid prevCars rnd, carOnRoad initializeCityGrid car := by
  intro car' hm
  rcases mapWithIndex_mem hm with ⟨c, hc, i, rfl⟩
  exact moveCar_preserves_carOnRoad (h c hc)

/-! ## Claim C7: collision semantics of the tick -/

/-- C7.  The tick is a simultaneous update: the i-th output car is moveCar
applied to the i-th input car with the whole previous-tick list as the
collision environment.  Given the candidate cell is in bounds and not a
wall, a car is blocked iff some other previous-tick car lies within 0.8 of
the candidate on both axes; a blocked car with stuckTime at most 20 keeps
its position and increments stuckTime; a blocked car with stuckTime above 20
keeps its position, turns to (direction + 1 + r) mod 4 with r in \x7b0, 1\x7d,
and resets stuckTime; an unblocked car advances to the candidate position. -/
theorem tick_collision_check (grid : Grid) (prevCars : List Car) (rnd : Nat → CarRand) :
    (∀ i, (moveCars grid prevCars rnd).get? i =
      (prevCars.get? i).map (fun car => moveCar grid prevCars (rnd (0 + i)) car)) ∧
    (∀ (car : Car) (r : CarRand),
      ¬ candidateBlockedByWall grid (candidatePos car).1 (candidatePos car).2 →
      (carBlocked prevCars car (candidatePos car).1 (candidatePos car).2 →
        (car.stuckTime ≤ 20 →
          moveCar grid prevCars r car = { car with stuckTime := car.stuckTime + 1 }) ∧
        (car.stuckTime > 20 →
          moveCar grid prevCars r car =
            { car with
                direction := ⟨(car.direction.val + 1 + r.escRand.val) % 4,
                  Nat.mod_lt _ (by decide)⟩,
                stuckTime := 0 })) ∧
      (¬ carBlocked prevCars car (candidatePos car).1 (candidatePos car).2 →
        moveCar grid prevCars r car =
          if r.perturbHit then
            { car with direction := r.perturbDir, x := (candidatePos car).1, y := (candidatePos car).2, stuckTime := 0 }
          else
            { car with x := (candidatePos car).1, y := (candidatePos car).2, stuckTime := 0 })) := by
  refine ⟨fun i => ?_, fun car r hw => ⟨fun hc => ⟨fun hs => ?_, fun hs => ?_⟩, fun hc => ?_⟩⟩
  · unfold moveCars
    rw [mapWithIndex_get?]
  · exact moveCar_coll_stuck hw hc hs
  · exact moveCar_coll_esc hw hc hs
  · exact moveCar_move hw hc

/-! ## Claim C9: point selection by clicks -/

/-- C9.  Clicking a wall cell or a cell occupied by a car is a silent no-op;
otherwise the first click sets the start point, the second sets the end
point, and a third click resets start to the clicked cell, clears the end
point, and clears the current path. -/
theorem click_selection (g : Grid) (cars : List Car) (x y : Int) (st : SelectionState)
    (hx0 : 0 ≤ x) (hx1 : x < (GRID_COLS : Int)) (hy0 : 0 ≤ y) (hy1 : y < (GRID_ROWS : Int)) :
    (((g y x).isWall = true ∨ ∃ car ∈ cars, Rat.floor car.x = x ∧ Rat.floor car.y = y) →
      handleCanvasClick g cars x y st = st) ∧
    ((g y x).isWall = false →
      (∀ car ∈ cars, ¬ (Rat.floor car.x = x ∧ Rat.floor car.y = y)) →
      (st.startPoint = none →
        handleCanvasClick g cars x y st = { st with startPoint := some ⟨x, y⟩ }) ∧
      (∀ s0, st.startPoint = some s0 → st.endPoint = none →
        handleCanvasClick g cars x y st = { st with endPoint := some ⟨x, y⟩ }) ∧
      (∀ s0 e0, st.startPoint = some s0 → st.endPoint = some e0 →
        handleCanvasClick g cars x y st =
          { startPoint := some ⟨x, y⟩, endPoint := none, currentPath := [] })) := by
  have hb : ¬ (x < 0 ∨ (GRID_COLS : Int) ≤ x ∨ y < 0 ∨ (GRID_ROWS : Int) ≤ y) := by
    push_neg
    exact ⟨hx0, hx1, hy0, hy1⟩
  constructor
  · intro hbad
    unfold handleCanvasClick
    rw [if_neg hb, if_neg]
    rintro ⟨hwall, hany⟩
    rcases hbad with hbad | ⟨c, hcm, hcx, hcy⟩
    · rw [hwall] at hbad; cases hbad
    · exact hany (by simp only [List.any_eq_true, decide_eq_true_eq]; exact ⟨c, hcm, hcx, hcy⟩)
  · intro hwall hfree
    have hcond : (g y x).isWall = false ∧
        ¬ cars.any (fun car => decide (Rat.floor car.x = x ∧ Rat.floor car.y = y)) = true := by
      refine ⟨hwall, fun hany => ?_⟩
      simp only [List.any_eq_true, decide_eq_true_eq] at hany
      rcases hany with ⟨c, hcm, hcc⟩
      exact hfree c hcm hcc
    refine ⟨fun hs => ?_, fun s0 hs he => ?_, fun s0 e0 hs he => ?_⟩
    · unfold handleCanvasClick
      rw [if_neg hb, if_pos hcond, hs]
    · unfold handleCanvasClick
      rw [if_neg hb, if_pos hcond, hs, he]
    · unfold handleCanvasClick
      rw [if_neg hb, if_pos hcond, hs, he]

/-- Witness for C7 at a concrete input. -/
theorem tick_collision_check_witness :
    (¬ candidateBlockedByWall openGrid (candidatePos carA).1 (candidatePos carA).2) ∧
    carBlocked [carA, carB] carA (candidatePos carA).1 (candidatePos carA).2 ∧
    carA.stuckTime ≤ 20 ∧
    moveCar openGrid [carA, carB] rand0 carA = { carA with stuckTime := carA.stuckTime + 1 } := by
  have hw : ¬ candidateBlockedByWall openGrid (candidatePos carA).1 (candidatePos carA).2 := by
    unfold candidateBlockedByWall candidatePos carA dirVec openGrid baseCell
    norm_num [ratFloor_eq_intFloor, GRID_COLS, GRID_ROWS]
  have hc : carBlocked [carA, carB] carA (candidatePos carA).1 (candidatePos carA).2 := by
    refine ⟨carB, by simp, by decide, ?_, ?_⟩
    · unfold candidatePos carA carB dirVec
      rw [show |(6 : ℚ) - (5 + (((1 : Int) : ℚ)) * (1/2))| = 1/2 by norm_num]
      norm_num
    · unfold candidatePos carA carB dirVec
      norm_num
  have hs : carA.stuckTime ≤ 20 := by decide
  exact ⟨hw, hc, hs,
    ((tick_collision_check openGrid [carA, carB] (fun _ => rand0)).2 carA rand0 hw).1 hc |>.1 hs⟩

/-- Witness for C9 at a concrete input. -/
theorem click_selection_witness :
    (0 ≤ (3 : Int)) ∧ ((3 : Int) < (GRID_COLS : Int)) ∧ (0 ≤ (4 : Int)) ∧
    ((4 : Int) < (GRID_ROWS : Int)) ∧
    ((((openGrid 4 3).isWall = true ∨
        ∃ car ∈ ([] : List Car), Rat.floor car.x = 3 ∧ Rat.floor car.y = 4) →
      handleCanvasClick openGrid [] 3 4 ⟨none, none, []⟩ = ⟨none, none, []⟩) ∧
    ((openGrid 4 3).isWall = false →
      (∀ car ∈ ([] : List Car), ¬ (Rat.floor car.x = 3 ∧ Rat.floor car.y = 4)) →
      ((⟨none, none, []⟩ : SelectionState).startPoint = none →
        handleCanvasClick openGrid [] 3 4 ⟨none, none, []⟩ =
          { (⟨none, none, []⟩ : SelectionState) with startPoint := some ⟨3, 4⟩ }) ∧
      (∀ s0, (⟨none, none, []⟩ : SelectionState).startPoint = some s0 →
        (⟨none, none, []⟩ : SelectionState).endPoint = none →
        handleCanvasClick openGrid [] 3 4 ⟨none, none, []⟩ =
          { (⟨none, none, []⟩ : SelectionState) with endPoint := some ⟨3, 4⟩ }) ∧
      (∀ s0 e0, (⟨none, none, []⟩ : SelectionState).startPoint = some s0 →
        (⟨none, none, []⟩ : SelectionState).endPoint = some e0 →
        handleCanvasClick openGrid [] 3 4 ⟨none, none, []⟩ =
          { startPoint := some ⟨3, 4⟩, endPoint := none, currentPath := [] }))) :=
  ⟨by decide, by decide, by decide, by decide,
    click_selection openGrid [] 3 4 ⟨none, none, []⟩ (by decide) (by decide) (by decide) (by decide)⟩

/-! ## Claim C4: characterization of the generated city grid -/

/-- Effect of one carve on the isRoad flag. -/
theorem setRoad_isRoad (g : Grid) (y x y' x' : Int) :
    ((setRoad g y x) y' x').isRoad = true ↔ (y' = y ∧ x' = x) ∨ (g y' x').isRoad = true := by
  unfold setRoad
  split_ifs with h <;> simp [h]

/-- Effect of one carve on the isWall flag. -/
theorem setRoad_isWall (g : Grid) (y x y' x' : Int) :
    ((setRoad g y x) y' x').isWall = true ↔ ¬ (y' = y ∧ x' = x) ∧ (g y' x').isWall = true := by
  unfold setRoad
  split_ifs with h <;> simp [h]

/-- A carve pass makes a cell road iff the pass touches it or it already was
road. -/
theorem carve_isRoad (pts : List (Int × Int)) :
    ∀ (g : Grid) (y x : Int),
      ((carve g pts) y x).isRoad = true ↔ (y, x) ∈ pts ∨ (g y x).isRoad = true := by
  induction pts with
  | nil => intro g y x; simp [carve]
  | cons p t ih =>
    intro g y x
    have : carve g (p :: t) = carve (setRoad g p.1 p.2) t := rfl
    rw [this, ih, setRoad_isRoad]
    constructor
    · rintro (h | ⟨h1, h2⟩ | h)
      · exact Or.inl (List.mem_cons_of_mem _ h)
      · refine Or.inl ?_
        rw [List.mem_cons]
        left
        rw [Prod.ext_iff]
        exact ⟨h1, h2⟩
      · exact Or.inr h
    · rintro (h | h)
      · rcases List.mem_cons.mp h with h | h
        · subst h; right; left; exact ⟨rfl, rfl⟩
        · left; exact h
      · right; right; exact h

/-- A carve pass leaves a cell a wall iff the pass misses it and it already
was a wall. -/
theorem carve_isWall (pts : List (Int × Int)) :
    ∀ (g : Grid) (y x : Int),
      ((carve g pts) y x).isWall = true ↔ (y, x) ∉ pts ∧ (g y x).isWall = true := by
  induction pts with
  | nil => intro g y x; simp [carve]
  | cons p t ih =>
    intro g y x
    have : carve g (p :: t) = carve (setRoad g p.1 p.2) t := rfl
    rw [this, ih, setRoad_isWall]
    constructor
    · rintro ⟨h1, h2, h3⟩
      refine ⟨fun hm => ?_, h3⟩
      rcases List.mem_cons.mp hm with hm | hm
      · exact h2 ⟨congrArg Prod.fst hm, congrArg Prod.snd hm⟩
      · exact h1 hm
    · rintro ⟨h1, h2⟩
      refine ⟨fun hm => h1 (List.mem_cons_of_mem _ hm), fun he => ?_, h2⟩
      exact h1 (by rw [show p = (y, x) from by rw [Prod.ext_iff]; exact ⟨he.1.symm, he.2.symm⟩] ; exact List.mem_cons_self _ _)

/-- Cells of the horizontal main-road pass: rows y0 and y0 + 1 for
y0 in 8, 20, 32, 44, 56 (any in-bounds column). -/
theorem hRoadPts_mem_iff {x y : Int} (hx0 : 0 ≤ x) (hx1 : x < (GRID_COLS : Int)) :
    (y, x) ∈ hRoadPts ↔ ∃ y0 ∈ ([8, 20, 32, 44, 56] : List Int), y = y0 ∨ y = y0 + 1 := by
  have hsr : stepRange 8 GRID_ROWS 12 = [8, 20, 32, 44, 56] := by decide
  have hc : (GRID_COLS : Int) = 120 := rfl
  unfold hRoadPts
  rw [hsr]
  simp only [List.mem_flatMap, List.mem_map, List.mem_filter, List.mem_range,
    decide_eq_true_eq, List.mem_cons, List.not_mem_nil, or_false, Prod.mk.injEq]
  constructor
  · rintro ⟨y0, hy0, x0, hx0r, r, ⟨hr2, hguard⟩, heq1, heq2⟩
    refine ⟨(y0 : Int), ?_, ?_⟩
    · rcases hy0 with rfl | rfl | rfl | rfl | rfl <;> norm_num
    · have hR : GRID_ROWS = 60 := rfl
      omega
  · rintro ⟨y0, hy0, hcase⟩
    have hy0n : ∃ y0n : Nat, (y0n = 8 ∨ y0n = 20 ∨ y0n = 32 ∨ y0n = 44 ∨ y0n = 56) ∧
        y0 = (y0n : Int) := by
      rcases hy0 with rfl | rfl | rfl | rfl | rfl
      · exact ⟨8, by norm_num⟩
      · exact ⟨20, by norm_num⟩
      · exact ⟨32, by norm_num⟩
      · exact ⟨44, by norm_num⟩
      · exact ⟨56, by norm_num⟩
    rcases hy0n with ⟨y0n, hy0n, rfl⟩
    have hR : GRID_ROWS = 60 := rfl
    have hC : GRID_COLS = 120 := rfl
    refine ⟨y0n, by tauto, x.toNat, by omega, ?_⟩
    rcases hcase with h | h
    · exact ⟨0, ⟨by omega, by omega⟩, by omega, by omega⟩
    · exact ⟨1, ⟨by omega, by omega⟩, by omega, by omega⟩

/-- Cells of the vertical main-road pass: columns x0 and x0 + 1 for
x0 in 8, 24, ..., 104 (any in-bounds row). -/
theorem vRoadPts_mem_iff {x y : Int} (hy0 : 0 ≤ y) (hy1 : y < (GRID_ROWS : Int)) :
    (y, x) ∈ vRoadPts ↔ ∃ x0 ∈ ([8, 24, 40, 56, 72, 88, 104] : List Int), x = x0 ∨ x = x0 + 1 := by
  have hsr : stepRange 8 GRID_COLS 16 = [8, 24, 40, 56, 72, 88, 104] := by decide
  have hr : (GRID_ROWS : Int) = 60 := rfl
  unfold vRoadPts
  rw [hsr]
  simp only [List.mem_flatMap, List.mem_map, List.mem_filter, List.mem_range,
    decide_eq_true_eq, List.mem_cons, List.not_mem_nil, or_false, Prod.mk.injEq]
  constructor
  · rintro ⟨x0, hx0, y0, hy0r, r, ⟨hr2, hguard⟩, heq1, heq2⟩
    refine ⟨(x0 : Int), ?_, ?_⟩
    · rcases hx0 with rfl | rfl | rfl | rfl | rfl | rfl | rfl <;> norm_num
    · have hC : GRID_COLS = 120 := rfl
      omega
  · rintro ⟨x0, hx0, hcase⟩
    have hx0n : ∃ x0n : Nat, (x0n = 8 ∨ x0n = 24 ∨ x0n = 40 ∨ x0n = 56 ∨ x0n = 72 ∨
        x0n = 88 ∨ x0n = 104) ∧ x0 = (x0n : Int) := by
      rcases hx0 with rfl | rfl | rfl | rfl | rfl | rfl | rfl
      · exact ⟨8, by norm_num⟩
      · exact ⟨24, by norm_num⟩
      · exact ⟨40, by norm_num⟩
      · exact ⟨56, by norm_num⟩
      · exact ⟨72, by norm_num⟩
      · exact ⟨88, by norm_num⟩
      · exact ⟨104, by norm_num⟩
    rcases hx0n with ⟨x0n, hx0n, rfl⟩
    have hR : GRID_ROWS = 60 := rfl
    have hC : GRID_COLS = 120 := rfl
    refine ⟨x0n, by tauto, y.toNat, by omega, ?_⟩
    rcases hcase with h | h
    · exact ⟨0, ⟨by omega, by omega⟩, by omega, by omega⟩
    · exact ⟨1, ⟨by omega, by omega⟩, by omega, by omega⟩

/-- Cells of the horizontal connector pass: rows 4, 28, 52. -/
theorem hConnPts_mem_iff {x y : Int} (hx0 : 0 ≤ x) (hx1 : x < (GRID_COLS : Int)) :
    (y, x) ∈ hConnPts ↔ y ∈ ([4, 28, 52] : List Int) := by
  have hsr : stepRange 4 GRID_ROWS 24 = [4, 28, 52] := by decide
  have hc : (GRID_COLS : Int) = 120 := rfl
  unfold hConnPts
  rw [hsr]
  simp only [List.mem_flatMap, List.mem_map, List.mem_range, List.mem_cons,
    List.not_mem_nil, or_false, Prod.mk.injEq]
  constructor
  · rintro ⟨y0, hy0, x0, hx0r, heq1, heq2⟩
    rcases hy0 with rfl | rfl | rfl <;> rw [← heq1] <;> norm_num
  · intro hy
    have hy0n : ∃ y0n : Nat, (y0n = 4 ∨ y0n = 28 ∨ y0n = 52) ∧ y = (y0n : Int) := by
      rcases hy with rfl | rfl | rfl
      · exact ⟨4, by norm_num⟩
      · exact ⟨28, by norm_num⟩
      · exact ⟨52, by norm_num⟩
    rcases hy0n with ⟨y0n, hy0n, rfl⟩
    exact ⟨y0n, by tauto, x.toNat, by omega, by omega, by omega⟩

/-- Cells of the vertical connector pass: columns 4, 36, 68, 100. -/
theorem vConnPts_mem_iff {x y : Int} (hy0 : 0 ≤ y) (hy1 : y < (GRID_ROWS : Int)) :
    (y, x) ∈ vConnPts ↔ x ∈ ([4, 36, 68, 100] : List Int) := by
  have hsr : stepRange 4 GRID_COLS 32 = [4, 36, 68, 100] := by decide
  have hr : (GRID_ROWS : Int) = 60 := rfl
  unfold vConnPts
  rw [hsr]
  simp only [List.mem_flatMap, List.mem_map, List.mem_range, List.mem_cons,
    List.not_mem_nil, or_false, Prod.mk.injEq]
  constructor
  · rintro ⟨x0, hx0, y0, hy0r, heq1, heq2⟩
    rcases hx0 with rfl | rfl | rfl | rfl <;> rw [← heq2] <;> norm_num
  · intro hx
    have hx0n : ∃ x0n : Nat, (x0n = 4 ∨ x0n = 36 ∨ x0n = 68 ∨ x0n = 100) ∧ x = (x0n : Int) := by
      rcases hx with rfl | rfl | rfl | rfl
      · exact ⟨4, by norm_num⟩
      · exact ⟨36, by norm_num⟩
      · exact ⟨68, by norm_num⟩
      · exact ⟨100, by norm_num⟩
    rcases hx0n with ⟨x0n, hx0n, rfl⟩
    exact ⟨x0n, by tauto, y.toNat, by omega, by omega, by omega⟩

/-- In-bounds road characterization of the generated city grid. -/
theorem city_isRoad_iff {x y : Int} (hx0 : 0 ≤ x) (hx1 : x < (GRID_COLS : Int))
    (hy0 : 0 ≤ y) (hy1 : y < (GRID_ROWS : Int)) :
    (initializeCityGrid y x).isRoad = true ↔ specRoadRule x y := by
  unfold initializeCityGrid
  rw [carve_isRoad, carve_isRoad, carve_isRoad, carve_isRoad,
    hRoadPts_mem_iff hx0 hx1, vRoadPts_mem_iff hy0 hy1,
    hConnPts_mem_iff hx0 hx1, vConnPts_mem_iff hy0 hy1]
  unfold specRoadRule
  simp only [baseCell, Bool.false_eq_true]
  itauto

/-- In-bounds wall characterization of the generated city grid. -/
theorem city_isWall_iff {x y : Int} (hx0 : 0 ≤ x) (hx1 : x < (GRID_COLS : Int))
    (hy0 : 0 ≤ y) (hy1 : y < (GRID_ROWS : Int)) :
    (initializeCityGrid y x).isWall = true ↔ ¬ specRoadRule x y := by
  unfold initializeCityGrid
  rw [carve_isWall, carve_isWall, carve_isWall, carve_isWall,
    hRoadPts_mem_iff hx0 hx1, vRoadPts_mem_iff hy0 hy1,
    hConnPts_mem_iff hx0 hx1, vConnPts_mem_iff hy0 hy1]
  unfold specRoadRule
  simp only [baseCell, Bool.false_eq_true]
  itauto

/-- C4.  In bounds, the generated grid marks a cell road (isRoad true,
isWall false) iff some carving rule covers it, and leaves it a wall
(isWall true, isRoad false) otherwise, so no cell is both road and wall or
neither.  Determinism is inherent: the source body contains no randomness,
so its translation initializeCityGrid is a fixed constant. -/
theorem city_grid_characterization (x y : Int) (hx0 : 0 ≤ x) (hx1 : x < (GRID_COLS : Int))
    (hy0 : 0 ≤ y) (hy1 : y < (GRID_ROWS : Int)) :
    ((initializeCityGrid y x).isRoad = true ∧ (initializeCityGrid y x).isWall = false ↔
      specRoadRule x y) ∧
    ((initializeCityGrid y x).isWall = true ∧ (initializeCityGrid y x).isRoad = false ↔
      ¬ specRoadRule x y) := by
  have hr := city_isRoad_iff hx0 hx1 hy0 hy1
  have hw := city_isWall_iff hx0 hx1 hy0 hy1
  have hwf : (initializeCityGrid y x).isWall = false ↔ specRoadRule x y := by
    constructor
    · intro h
      by_contra hn
      rw [hw.mpr hn] at h
      cases h
    · intro h
      cases hb : (initializeCityGrid y x).isWall
      · rfl
      · exact absurd (hw.mp hb) (not_not.mpr h)
  have hrf : (initializeCityGrid y x).isRoad = false ↔ ¬ specRoadRule x y := by
    constructor
    · intro h
      intro hn
      rw [hr.mpr hn] at h
      cases h
    · intro h
      cases hb : (initializeCityGrid y x).isRoad
      · rfl
      · exact absurd (hr.mp hb) h
  exact ⟨⟨fun h => hr.mp h.1, fun h => ⟨hr.mpr h, hwf.mpr h⟩⟩,
    ⟨fun h => hw.mp h.1, fun h => ⟨hw.mpr h, hrf.mpr h⟩⟩⟩

/-- Witness for C4 at a concrete input. -/
theorem city_grid_characterization_witness :
    (0 ≤ (9 : Int)) ∧ ((9 : Int) < (GRID_COLS : Int)) ∧ (0 ≤ (21 : Int)) ∧
    ((21 : Int) < (GRID_ROWS : Int)) ∧
    (((initializeCityGrid 21 9).isRoad = true ∧ (initializeCityGrid 21 9).isWall = false ↔
        specRoadRule 9 21) ∧
     ((initializeCityGrid 21 9).isWall = true ∧ (initializeCityGrid 21 9).isRoad = false ↔
        ¬ specRoadRule 9 21)) :=
  ⟨by decide, by decide, by decide, by decide,
    city_grid_characterization 9 21 (by decide) (by decide) (by decide) (by decide)⟩

/-- Witness for C6 at a concrete input. -/
theorem tick_preserves_car_invariant_witness :
    (∀ car ∈ [(⟨0, 8, 8, 0, 1/2, "c", 0⟩ : Car)], carOnRoad initializeCityGrid car) ∧
    (∀ car ∈ moveCars initializeCityGrid [(⟨0, 8, 8, 0, 1/2, "c", 0⟩ : Car)] (fun _ => rand0),
      carOnRoad initializeCityGrid car) := by
  have hf : Rat.floor ((8 : ℚ)) = 8 := by
    rw [ratFloor_eq_intFloor]; norm_num
  have hwall : (initializeCityGrid 8 8).isWall = false := by
    have h := @city_isWall_iff 8 8 (by decide) (by decide) (by decide) (by decide)
    cases hb : (initializeCityGrid 8 8).isWall
    · rfl
    · exact absurd (h.mp hb) (by decide)
  have hcar : ∀ car ∈ [(⟨0, 8, 8, 0, 1/2, "c", 0⟩ : Car)], carOnRoad initializeCityGrid car := by
    intro car hc
    rcases List.mem_singleton.mp hc with rfl
    refine ⟨?_, ?_, ?_, ?_, ?_⟩
    · show 0 ≤ Rat.floor (8 : ℚ)
      rw [hf]; norm_num
    · show Rat.floor (8 : ℚ) < (GRID_COLS : Int)
      rw [hf]
      norm_num [GRID_COLS]
    · show 0 ≤ Rat.floor (8 : ℚ)
      rw [hf]; norm_num
    · show Rat.floor (8 : ℚ) < (GRID_ROWS : Int)
      rw [hf]
      norm_num [GRID_ROWS]
    · show (initializeCityGrid (Rat.floor (8 : ℚ)) (Rat.floor (8 : ℚ))).isWall = false
      rw [hf]; exact hwall
  exact ⟨hcar, tick_preserves_car_invariant _ _ hcar⟩

/-! ## Paths, chains and reconstruction: shared infrastructure -/

/-- The one-node path. -/
theorem validPath_singleton (g : Grid) (p : Point) : validPath g p p [p] :=
  ⟨by simp, by simp, by simp, trivial⟩

/-- A valid path is nonempty. -/
theorem validPath_length_pos {g : Grid} {s v : Point} {l : List Point}
    (h : validPath g s v l) : 1 ≤ l.length := by
  rcases h with ⟨hne, _, _, _⟩
  cases l with
  | nil => exact absurd rfl hne
  | cons a t => simp

/-- Chains survive appending a step at the end. -/
theorem chainOk_snoc {g : Grid} : ∀ {l : List Point} {v w : Point},
    chainOk g l → l.getLast? = some v → w ∈ getNeighbors v g → chainOk g (l ++ [w]) := by
  intro l
  induction l with
  | nil => intro v w _ hlast _; cases hlast
  | cons a t ih =>
    intro v w hc hlast hw
    cases t with
    | nil =>
      simp only [List.getLast?_singleton, Option.some.injEq] at hlast
      subst hlast
      exact ⟨hw, trivial⟩
    | cons b t2 =>
      rcases hc with ⟨hab, hrest⟩
      have hlast2 : (b :: t2).getLast? = some v := by
        rw [← hlast, List.getLast?_cons_cons]
      exact ⟨hab, ih hrest hlast2 hw⟩

/-- A valid path extends by one traversable neighbor. -/
theorem validPath_snoc {g : Grid} {s v w : Point} {l : List Point}
    (hl : validPath g s v l) (hw : w ∈ getNeighbors v g) :
    validPath g s w (l ++ [w]) := by
  rcases hl with ⟨hne, hhead, hlast, hchain⟩
  refine ⟨by simp, ?_, ?_, chainOk_snoc hchain hlast hw⟩
  · cases l with
    | nil => exact absurd rfl hne
    | cons a t => simpa using hhead
  · simp [List.getLast?_concat]

/-- Reachability extends along edges. -/
theorem reach_snoc {g : Grid} {s v w : Point} (h : reach g s v)
    (hw : w ∈ getNeighbors v g) : reach g s w := by
  rcases h with ⟨l, hl⟩
  exact ⟨l ++ [w], validPath_snoc hl hw⟩

/-- Any valid path from a member of a neighbor-closed set ends in that set. -/
theorem path_in_closed {g : Grid} {V : List Point} :
    ∀ {l : List Point} {s v : Point}, validPath g s v l → s ∈ V →
      (∀ u ∈ V, ∀ w ∈ getNeighbors u g, w ∈ V) → v ∈ V := by
  intro l
  induction l with
  | nil => intro s v h _ _; exact absurd rfl h.1
  | cons a t ih =>
    intro s v h hs hcl
    have ha : a = s := by simpa using h.2.1
    subst ha
    cases t with
    | nil =>
      have : v = a := by simpa using h.2.2.1.symm
      subst this; exact hs
    | cons b t2 =>
      rcases h.2.2.2 with ⟨hab, hrest⟩
      have hb : b ∈ V := hcl a hs b hab
      have hv : validPath g b v (b :: t2) :=
        ⟨by simp, by simp, by simpa using h.2.2.1, hrest⟩
      exact ih hv hb hcl

/-- Splitting a valid path at the first node outside a set C containing its
start but not its end. -/
theorem path_cut {g : Grid} {C : List Point} :
    ∀ {l : List Point} {s v : Point}, validPath g s v l → s ∈ C → v ∉ C →
      ∃ l1 u w l2, l = l1 ++ l2 ∧ validPath g s u l1 ∧ validPath g w v l2 ∧
        w ∈ getNeighbors u g ∧ u ∈ C ∧ w ∉ C := by
  intro l
  induction l with
  | nil => intro s v h _ _; exact absurd rfl h.1
  | cons a t ih =>
    intro s v h hs hv
    have ha : a = s := by simpa using h.2.1
    subst ha
    cases t with
    | nil =>
      have : v = a := by simpa using h.2.2.1.symm
      subst this; exact absurd hs hv
    | cons b t2 =>
      rcases h.2.2.2 with ⟨hab, hrest⟩
      have hpb : validPath g b v (b :: t2) :=
        ⟨by simp, by simp, by simpa using h.2.2.1, hrest⟩
      by_cases hbC : b ∈ C
      · rcases ih hpb hbC hv with ⟨l1, u, w, l2, heq, hp1, hp2, hw, huC, hwC⟩
        cases l1 with
        | nil => exact absurd rfl hp1.1
        | cons c l1t =>
          have hcb : c = b := by simpa using hp1.2.1
          subst hcb
          refine ⟨a :: c :: l1t, u, w, l2, by simp [heq], ?_, hp2, hw, huC, hwC⟩
          refine ⟨by simp, by simp, ?_, ?_⟩
          · rw [List.getLast?_cons_cons]
            exact hp1.2.2.1
          · exact ⟨hab, hp1.2.2.2⟩
      · exact ⟨[a], a, b, b :: t2, rfl, validPath_singleton g a, hpb, hab, hs, hbC⟩

/-- Along a valid path the Manhattan heuristic to any goal changes by at most
the number of edges. -/
theorem heuristic_path_bound {g : Grid} (goal : Point) :
    ∀ {l : List Point} {w v : Point}, validPath g w v l →
      heuristic w goal ≤ heuristic v goal + (l.length - 1) := by
  intro l
  induction l with
  | nil => intro w v h; exact absurd rfl h.1
  | cons a t ih =>
    intro w v h
    have ha : a = w := by simpa using h.2.1
    subst ha
    cases t with
    | nil =>
      have : v = a := by simpa using h.2.2.1.symm
      subst this; simp
    | cons b t2 =>
      rcases h.2.2.2 with ⟨hab, hrest⟩
      have hpb : validPath g b v (b :: t2) :=
        ⟨by simp, by simp, by simpa using h.2.2.1, hrest⟩
      have h1 := (heuristic_consistent goal hab).1
      have h2 := ih hpb
      simp only [List.length_cons] at h2 ⊢
      omega

/-- Unfolding mapGet on a cons. -/
theorem mapGet_cons (k v : Point) (m : List (Point × Point)) (q : Point) :
    mapGet ((k, v) :: m) q = if q = k then some v else mapGet m q := rfl

/-- A chain ends at its point. -/
theorem chainTo_last {parent : List (Point × Point)} {q : Point} {l : List Point}
    (h : ChainTo parent q l) : l ≠ [] ∧ l.getLast? = some q := by
  induction h with
  | base q hq => exact ⟨by simp, by simp⟩
  | step q p l0 hq hp ih => exact ⟨by simp, by simp [List.getLast?_concat]⟩

/-- Chains are determined by the parent map. -/
theorem chainTo_unique {parent : List (Point × Point)} :
    ∀ {q : Point} {l1 l2 : List Point},
      ChainTo parent q l1 → ChainTo parent q l2 → l1 = l2 := by
  intro q l1 l2 h1
  induction h1 generalizing l2 with
  | base q hq =>
    intro h2
    cases h2 with
    | base _ _ => rfl
    | step _ p _ hq2 _ => rw [hq] at hq2; cases hq2
  | step q p l0 hq hp ih =>
    intro h2
    cases h2 with
    | base _ hq2 => rw [hq] at hq2; cases hq2
    | step _ p2 l02 hq2 hp2 =>
      rw [hq] at hq2
      have hpp : p2 = p := by injection hq2.symm
      subst hpp
      rw [ih hp2]

/-- Adding a binding for a key outside a chain leaves the chain intact. -/
theorem chainTo_cons_of_not_mem {parent : List (Point × Point)} {k v : Point} :
    ∀ {q : Point} {l : List Point}, k ∉ l → ChainTo parent q l →
      ChainTo ((k, v) :: parent) q l := by
  intro q l hk h
  induction h with
  | base q hq =>
    have hqk : q ≠ k := by
      intro hqe; exact hk (by simp [hqe])
    exact ChainTo.base q (by rw [mapGet_cons, if_neg hqk, hq])
  | step q p l0 hq hp ih =>
    have hqk : q ≠ k := by
      intro hqe; subst hqe; exact hk (by simp)
    have hkl0 : k ∉ l0 := fun hx => hk (by simp [hx])
    exact ChainTo.step q p l0 (by rw [mapGet_cons, if_neg hqk, hq]) (ih hkl0)

/-- Prepending bindings whose keys avoid a chain leaves the chain intact. -/
theorem chainTo_prepend_of_disjoint {parent : List (Point × Point)} {q : Point}
    {l : List Point} :
    ∀ (ps : List (Point × Point)), (∀ e ∈ ps, e.1 ∉ l) → ChainTo parent q l →
      ChainTo (ps ++ parent) q l := by
  intro ps
  induction ps with
  | nil => intro _ h; exact h
  | cons e t ih =>
    intro hdis h
    have := ih (fun e2 he2 => hdis e2 (List.mem_cons_of_mem _ he2)) h
    have hk := hdis e (List.mem_cons_self _ _)
    cases e with
    | mk k v => exact chainTo_cons_of_not_mem hk this

/-- The reconstruction loop returns exactly the chain when the fuel covers
its length. -/
theorem chainTo_reconstruct {parent : List (Point × Point)} :
    ∀ {q : Point} {l : List Point}, ChainTo parent q l →
      ∀ fuel, l.length ≤ fuel → reconstructPath parent fuel q = some l := by
  intro q l h
  induction h with
  | base q hq =>
    intro fuel hf
    cases fuel with
    | zero => simp at hf
    | succ f => simp [reconstructPath, hq]
  | step q p l0 hq hp ih =>
    intro fuel hf
    cases fuel with
    | zero => simp at hf
    | succ f =>
      have hl0 : l0.length ≤ f := by
        simp only [List.length_append, List.length_singleton] at hf
        omega
      simp [reconstructPath, hq, ih f hl0]

/-- Lookup in a block of bindings that all carry the same value. -/
theorem mapGet_const_block (cur : Point) :
    ∀ (entries : List (Point × Point)) (parent : List (Point × Point)) (w : Point),
      (∀ e ∈ entries, e.2 = cur) → w ∈ entries.map Prod.fst →
      mapGet (entries ++ parent) w = some cur := by
  intro entries
  induction entries with
  | nil => intro parent w _ hw; simp at hw
  | cons e t ih =>
    intro parent w hval hw
    cases e with
    | mk k v =>
      rw [List.cons_append, mapGet_cons]
      by_cases hwk : w = k
      · rw [if_pos hwk]
        have := hval (k, v) (List.mem_cons_self _ _)
        simp at this
        rw [this]
      · rw [if_neg hwk]
        refine ih parent w (fun e2 he2 => hval e2 (List.mem_cons_of_mem _ he2)) ?_
        simp only [List.map_cons, List.mem_cons] at hw
        rcases hw with hw | hw
        · exact absurd hw hwk
        · exact hw

/-- Lookup skips a block of bindings whose keys do not include the query. -/
theorem mapGet_append_of_not_mem_keys :
    ∀ (entries : List (Point × Point)) (parent : List (Point × Point)) (w : Point),
      w ∉ entries.map Prod.fst →
      mapGet (entries ++ parent) w = mapGet parent w := by
  intro entries
  induction entries with
  | nil => intro parent w _; rfl
  | cons e t ih =>
    intro parent w hw
    cases e with
    | mk k v =>
      rw [List.cons_append, mapGet_cons]
      simp only [List.map_cons, List.mem_cons] at hw
      push_neg at hw
      rw [if_neg hw.1]
      exact ih parent w hw.2

/-- A duplicate-free list of points, each in bounds or equal to a fixed
start, has at most GRID_ROWS * GRID_COLS + 1 members. -/
theorem nodup_length_le_cells {l : List Point} {s : Point} (hnd : l.Nodup)
    (hsub : ∀ p ∈ l, inBounds p ∨ p = s) :
    l.length ≤ GRID_ROWS * GRID_COLS + 1 := by
  rw [show GRID_ROWS * GRID_COLS + 1 = 7201 from rfl]
  have hCI : ((GRID_COLS : Nat) : Int) = 120 := rfl
  have hRI : ((GRID_ROWS : Nat) : Int) = 60 := rfl
  have hsub2 : ∀ p ∈ l, (0 ≤ p.x ∧ p.x < 120 ∧ 0 ≤ p.y ∧ p.y < 60) ∨ p = s := by
    intro p hp
    rcases hsub p hp with ⟨h1, h2, h3, h4⟩ | h
    · rw [hCI] at h2
      rw [hRI] at h4
      exact Or.inl ⟨h1, h2, h3, h4⟩
    · exact Or.inr h
  set f : Point → Nat :=
    fun p => if p = s then 7200 else p.y.toNat * 120 + p.x.toNat with hf
  have hbound : ∀ p ∈ l, f p < 7201 := by
    intro p hp
    rw [hf]
    by_cases hps : p = s
    · simp [hps]
    · rcases hsub2 p hp with ⟨h1, h2, h3, h4⟩ | hin
      · simp only [if_neg hps]
        have hx : p.x.toNat < 120 := by omega
        have hy : p.y.toNat < 60 := by omega
        omega
      · exact absurd hin hps
  have hinj : ∀ p ∈ l, ∀ q ∈ l, f p = f q → p = q := by
    intro p hp q hq hfe
    rw [hf] at hfe
    by_cases hps : p = s <;> by_cases hqs : q = s
    · rw [hps, hqs]
    · exfalso
      rcases hsub2 q hq with ⟨h1, h2, h3, h4⟩ | hin
      · simp only [if_pos hps, if_neg hqs] at hfe
        have hx : q.x.toNat < 120 := by omega
        have hy : q.y.toNat < 60 := by omega
        omega
      · exact hqs hin
    · exfalso
      rcases hsub2 p hp with ⟨h1, h2, h3, h4⟩ | hin
      · simp only [if_neg hps, if_pos hqs] at hfe
        have hx : p.x.toNat < 120 := by omega
        have hy : p.y.toNat < 60 := by omega
        omega
      · exact hps hin
    · rcases hsub2 p hp with hinp | hinp
      · rcases hsub2 q hq with hinq | hinq
        · rcases hinp with ⟨h1, h2, h3, h4⟩
          rcases hinq with ⟨h5, h6, h7, h8⟩
          simp only [if_neg hps, if_neg hqs] at hfe
          have hx : p.x.toNat < 120 := by omega
          have hqx : q.x.toNat < 120 := by omega
          have hxy : p.x = q.x ∧ p.y = q.y := by constructor <;> omega
          cases p; cases q
          simp_all
        · exact absurd hinq hqs
      · exact absurd hinp hps
  have hmapnd : (l.map f).Nodup := List.Nodup.map_on hinj hnd
  have hsubs : (l.map f).toFinset ⊆ Finset.range 7201 := by
    intro n hn
    rw [List.mem_toFinset] at hn
    rcases List.mem_map.mp hn with ⟨p, hp, rfl⟩
    rw [Finset.mem_range]
    exact hbound p hp
  have := Finset.card_le_card hsubs
  rw [List.toFinset_card_of_nodup hmapnd, Finset.card_range, List.length_map] at this
  exact this

/-! ## BFS correctness -/

/-- Minimality of the popped node's chain: the front of the queue carries a
smallest level among the queue, and any valid path to it must leave the
processed region along an edge into the queue. -/
theorem bfs_popped_min {g : Grid} {start goal current : Point}
    {rest visited : List Point} {parent : List (Point × Point)} {lc : List Point}
    (inv : BFSInv g start goal (current :: rest) visited parent)
    (hlcChain : ChainTo parent current lc) :
    ∀ l2, validPath g start current l2 → lc.length ≤ l2.length := by
  intro l2 hl2
  have hcur_q : current ∈ current :: rest := List.mem_cons_self _ _
  have hcs : current ≠ start := by
    intro h; exact inv.snq (h ▸ hcur_q)
  set C := visited.filter (fun p => decide (p ∉ current :: rest)) with hC
  have hstartC : start ∈ C := by
    rw [hC, List.mem_filter]
    exact ⟨inv.sv, by simpa using inv.snq⟩
  have hcurC : current ∉ C := by
    rw [hC, List.mem_filter]
    rintro ⟨-, hdec⟩
    simp at hdec
  rcases path_cut hl2 hstartC hcurC with ⟨l1, u, w, l2b, heq, hp1, hp2, hw, huC, hwC⟩
  have huP : u ∈ visited ∧ u ∉ current :: rest := by
    rw [hC, List.mem_filter] at huC
    exact ⟨huC.1, by simpa using huC.2⟩
  have hw_v : w ∈ visited := inv.procClosed u huP.1 huP.2 w hw
  have hw_q : w ∈ current :: rest := by
    by_contra hwq
    exact hwC (by rw [hC, List.mem_filter]; exact ⟨hw_v, by simpa using hwq⟩)
  obtain ⟨lu, hluC, -, -, -⟩ := inv.chains u huP.1
  obtain ⟨lw, hlwC, -, -, -⟩ := inv.chains w hw_v
  have h1 : lu.length ≤ l1.length := inv.procMin u huP.1 huP.2 lu hluC l1 hp1
  have h2 : lw.length ≤ lu.length + 1 := inv.procEdge u huP.1 huP.2 w hw lu lw hluC hlwC
  obtain ⟨a, Q1, Q2, hsplit, hQ1, hQ2, hproc⟩ := inv.level
  have hlc_le : lc.length ≤ lw.length := by
    cases Q1 with
    | nil =>
      simp only [List.nil_append] at hsplit
      have hcQ2 : current ∈ Q2 := hsplit ▸ hcur_q
      have hwQ2 : w ∈ Q2 := hsplit ▸ hw_q
      rw [hQ2 current hcQ2 lc hlcChain, hQ2 w hwQ2 lw hlwC]
    | cons q1 Q1t =>
      have hcq1 : current = q1 := by
        have h := hsplit
        simp only [List.cons_append] at h
        injection h with h1 h2
      have hlca : lc.length = a + 1 := by
        rw [hcq1] at hlcChain
        have := hQ1 q1 (List.mem_cons_self _ _) lc hlcChain
        omega
      have hwQ : w ∈ (q1 :: Q1t) ++ Q2 := hsplit ▸ hw_q
      rcases List.mem_append.mp hwQ with hmem | hmem
      · rw [hQ1 w hmem lw hlwC]; omega
      · rw [hQ2 w hmem lw hlwC]; omega
  have hl2b : 1 ≤ l2b.length := validPath_length_pos hp2
  have : l2.length = l1.length + l2b.length := by rw [heq, List.length_append]
  omega

/-- Expanding a non-goal node preserves the BFS invariant. -/
theorem bfs_step_inv {g : Grid} {start goal current : Point}
    {rest visited : List Point} {parent : List (Point × Point)}
    (inv : BFSInv g start goal (current :: rest) visited parent)
    (hcg : current ≠ goal) :
    BFSInv g start goal
      (rest ++ (getNeighbors current g).filter (fun n => decide (n ∉ visited)))
      (((getNeighbors current g).filter (fun n => decide (n ∉ visited))).reverse ++ visited)
      ((((getNeighbors current g).filter (fun n => decide (n ∉ visited))).map
        (fun n => (n, current))).reverse ++ parent) := by
  set nbrs := getNeighbors current g with hnbrs
  set enq := nbrs.filter (fun n => decide (n ∉ visited)) with henqdef
  set block := enq.map (fun n => (n, current)) with hblockdef
  have henq : ∀ w, w ∈ enq ↔ (w ∈ nbrs ∧ w ∉ visited) := by
    intro w
    rw [henqdef, List.mem_filter]
    simp
  have hcur_q : current ∈ current :: rest := List.mem_cons_self _ _
  have hcur_v : current ∈ visited := inv.qsub current hcur_q
  have hcnr : current ∉ rest := (List.nodup_cons.mp inv.qnd).1
  have hrest_nd : rest.Nodup := (List.nodup_cons.mp inv.qnd).2
  have henq_nd : enq.Nodup := (getNeighbors_nodup current g).filter _
  have hpar_len :
      (block.reverse ++ parent).length = enq.length + parent.length := by
    simp [hblockdef]
  obtain ⟨lc, hlcChain, hlcPath, hlcBound, hlcMem⟩ := inv.chains current hcur_v
  have hdisj : ∀ (l : List Point), (∀ u ∈ l, u ∈ visited) →
      ∀ e ∈ block.reverse, e.1 ∉ l := by
    intro l hl e he hel
    rw [List.mem_reverse, hblockdef] at he
    rcases List.mem_map.mp he with ⟨n, hn, rfl⟩
    exact ((henq n).mp hn).2 (hl _ hel)
  have hchains_old : ∀ v ∈ visited, ∃ l, ChainTo parent v l ∧
      ChainTo (block.reverse ++ parent) v l ∧ validPath g start v l ∧
      l.length ≤ parent.length + 1 ∧ ∀ u ∈ l, u ∈ visited := by
    intro v hv
    obtain ⟨l, h1, h2, h3, h4⟩ := inv.chains v hv
    exact ⟨l, h1, chainTo_prepend_of_disjoint _ (hdisj l h4) h1, h2, h3, h4⟩
  have hchain_new : ∀ w ∈ enq,
      ChainTo (block.reverse ++ parent) w (lc ++ [w]) ∧
      validPath g start w (lc ++ [w]) := by
    intro w hw
    have hlook : mapGet (block.reverse ++ parent) w = some current := by
      apply mapGet_const_block current
      · intro e he
        rw [List.mem_reverse, hblockdef] at he
        rcases List.mem_map.mp he with ⟨n, hn, rfl⟩
        rfl
      · rw [hblockdef]
        simp only [List.map_reverse, List.map_map]
        rw [List.mem_reverse]
        simpa using hw
    refine ⟨ChainTo.step w current lc hlook
        (chainTo_prepend_of_disjoint _ (hdisj lc hlcMem) hlcChain),
      validPath_snoc hlcPath ((henq w).mp hw).1⟩
  have henq_sub_q : ∀ w ∈ enq, w ∈ rest ++ enq := fun w hw =>
    List.mem_append.mpr (Or.inr hw)
  refine ⟨?_, ?_, ?_, ?_, ?_, ?_, ?_, ?_, ?_, ?_, ?_, ?_⟩
  · -- visited' nodup
    refine List.Nodup.append (List.nodup_reverse.mpr henq_nd) inv.vnd ?_
    intro w hw1 hw2
    rw [List.mem_reverse] at hw1
    exact ((henq w).mp hw1).2 hw2
  · -- queue' nodup
    refine List.Nodup.append hrest_nd henq_nd ?_
    intro w hw1 hw2
    exact ((henq w).mp hw2).2 (inv.qsub w (List.mem_cons_of_mem _ hw1))
  · -- queue' ⊆ visited'
    intro p hp
    rcases List.mem_append.mp hp with hp | hp
    · exact List.mem_append.mpr (Or.inr (inv.qsub p (List.mem_cons_of_mem _ hp)))
    · exact List.mem_append.mpr (Or.inl (List.mem_reverse.mpr hp))
  · -- visited' in bounds
    intro p hp
    rcases List.mem_append.mp hp with hp | hp
    · rw [List.mem_reverse] at hp
      exact Or.inl (getNeighbors_traversable ((henq p).mp hp).1).1
    · exact inv.vsub p hp
  · -- start visited
    exact List.mem_append.mpr (Or.inr inv.sv)
  · -- start not in queue'
    intro hs
    rcases List.mem_append.mp hs with hs | hs
    · exact inv.snq (List.mem_cons_of_mem _ hs)
    · exact ((henq start).mp hs).2 inv.sv
  · -- chains
    intro v hv
    rcases List.mem_append.mp hv with hv | hv
    · rw [List.mem_reverse] at hv
      obtain ⟨hch, hvp⟩ := hchain_new v hv
      refine ⟨lc ++ [v], hch, hvp, ?_, ?_⟩
      · rw [hpar_len]
        have h1 : 1 ≤ enq.length := List.length_pos_of_mem hv
        simp only [List.length_append, List.length_singleton]
        omega
      · intro u hu
        rcases List.mem_append.mp hu with hu | hu
        · exact List.mem_append.mpr (Or.inr (hlcMem u hu))
        · simp only [List.mem_singleton] at hu
          subst hu
          exact List.mem_append.mpr (Or.inl (List.mem_reverse.mpr hv))
    · obtain ⟨l, h0, h1, h2, h3, h4⟩ := hchains_old v hv
      refine ⟨l, h1, h2, ?_, fun u hu => List.mem_append.mpr (Or.inr (h4 u hu))⟩
      rw [hpar_len]
      omega
  · -- procClosed
    intro u hu hunq w hwn
    rcases List.mem_append.mp hu with hu | hu
    · -- u freshly enqueued: but then u ∈ queue', contradiction
      rw [List.mem_reverse] at hu
      exact absurd (henq_sub_q u hu) hunq
    · by_cases huc : u = current
      · subst huc
        by_cases hwv : w ∈ visited
        · exact List.mem_append.mpr (Or.inr hwv)
        · refine List.mem_append.mpr (Or.inl (List.mem_reverse.mpr ?_))
          exact (henq w).mpr ⟨hwn, hwv⟩
      · have hunq_old : u ∉ current :: rest := by
          intro hx
          rcases List.mem_cons.mp hx with hx | hx
          · exact huc hx
          · exact hunq (List.mem_append.mpr (Or.inl hx))
        exact List.mem_append.mpr
          (Or.inr (inv.procClosed u hu hunq_old w hwn))
  · -- procEdge
    intro u hu hunq w hwn lu lw hluC hlwC
    rcases List.mem_append.mp hu with hu | hu
    · rw [List.mem_reverse] at hu
      exact absurd (henq_sub_q u hu) hunq
    · obtain ⟨a, Q1, Q2, hsplit, hQ1, hQ2, hproc⟩ := inv.level
      have hlevel_all : ∀ v ∈ visited, ∀ lv, ChainTo parent v lv → lv.length ≤ a + 2 := by
        intro v hv lv hlvC
        by_cases hvq : v ∈ current :: rest
        · have hvq2 : v ∈ Q1 ++ Q2 := hsplit ▸ hvq
          rcases List.mem_append.mp hvq2 with hm | hm
          · rw [hQ1 v hm lv hlvC]; omega
          · rw [hQ2 v hm lv hlvC]
        · have := hproc v hv hvq lv hlvC
          omega
      by_cases huc : u = current
      · subst huc
        obtain ⟨l, h0, h1, -, -, -⟩ := hchains_old u hcur_v
        have e1 : lu = lc := (chainTo_unique hluC h1).trans (chainTo_unique h0 hlcChain)
        have hlc_lb : a + 1 ≤ lc.length := by
          have hcq : u ∈ Q1 ++ Q2 := hsplit ▸ hcur_q
          rcases List.mem_append.mp hcq with hm | hm
          · rw [hQ1 u hm lc hlcChain]
          · rw [hQ2 u hm lc hlcChain]; omega
        by_cases hwv : w ∈ visited
        · obtain ⟨l2, h20, h21, -, -, -⟩ := hchains_old w hwv
          have e2 : lw = l2 := chainTo_unique hlwC h21
          have h3 := hlevel_all w hwv l2 h20
          rw [e1, e2]
          omega
        · have hwe : w ∈ enq := (henq w).mpr ⟨hwn, hwv⟩
          obtain ⟨hch, -⟩ := hchain_new w hwe
          have e2 : lw = lc ++ [w] := chainTo_unique hlwC hch
          rw [e1, e2]
          simp
      · have hunq_old : u ∉ current :: rest := by
          intro hx
          rcases List.mem_cons.mp hx with hx | hx
          · exact huc hx
          · exact hunq (List.mem_append.mpr (Or.inl hx))
        have hwv : w ∈ visited := inv.procClosed u hu hunq_old w hwn
        obtain ⟨lu0, hu0, hu1, -, -, -⟩ := hchains_old u hu
        obtain ⟨lw0, hw0, hw1, -, -, -⟩ := hchains_old w hwv
        have e1 : lu = lu0 := chainTo_unique hluC hu1
        have e2 : lw = lw0 := chainTo_unique hlwC hw1
        subst e1
        subst e2
        exact inv.procEdge u hu hunq_old w hwn lu lw hu0 hw0
  · -- procMin
    intro u hu hunq lu hluC l2 hl2
    rcases List.mem_append.mp hu with hu | hu
    · rw [List.mem_reverse] at hu
      exact absurd (henq_sub_q u hu) hunq
    · by_cases huc : u = current
      · subst huc
        obtain ⟨l, h0, h1, -, -, -⟩ := hchains_old u hcur_v
        have e1 : lu = l := chainTo_unique hluC h1
        have e2 : l = lc := chainTo_unique h0 hlcChain
        subst e1
        subst e2
        exact bfs_popped_min inv hlcChain l2 hl2
      · have hunq_old : u ∉ current :: rest := by
          intro hx
          rcases List.mem_cons.mp hx with hx | hx
          · exact huc hx
          · exact hunq (List.mem_append.mpr (Or.inl hx))
        obtain ⟨lu0, hu0, hu1, -, -, -⟩ := hchains_old u hu
        have e1 : lu = lu0 := chainTo_unique hluC hu1
        subst e1
        exact inv.procMin u hu hunq_old lu hu0 l2 hl2
  · -- level
    obtain ⟨a, Q1, Q2, hsplit, hQ1, hQ2, hproc⟩ := inv.level
    have hnewlen : ∀ w ∈ enq, ∀ lw, ChainTo (block.reverse ++ parent) w lw →
        lw.length = lc.length + 1 := by
      intro w hw lw hlwC
      obtain ⟨hch, -⟩ := hchain_new w hw
      have : lw = lc ++ [w] := chainTo_unique hlwC hch
      subst this
      simp
    have hold_eq : ∀ v ∈ visited, ∀ lv lv2, ChainTo parent v lv →
        ChainTo (block.reverse ++ parent) v lv2 → lv2 = lv := by
      intro v hv lv lv2 h1 h2
      obtain ⟨l, k0, k1, -, -, -⟩ := hchains_old v hv
      have e1 : lv2 = l := chainTo_unique h2 k1
      have e2 : l = lv := chainTo_unique k0 h1
      rw [e1, e2]
    cases Q1 with
    | nil =>
      simp only [List.nil_append] at hsplit
      -- queue = Q2, current its head: level advances
      have hlc_len2 : lc.length = a + 2 := by
        have : current ∈ Q2 := hsplit ▸ hcur_q
        exact hQ2 current this lc hlcChain
      refine ⟨a + 1, rest, enq, rfl, ?_, ?_, ?_⟩
      · intro q hq lq hlqC
        have hqv : q ∈ visited := inv.qsub q (List.mem_cons_of_mem _ hq)
        obtain ⟨lq0, k0, k1, -, -, -⟩ := hchains_old q hqv
        have e1 : lq = lq0 := chainTo_unique hlqC k1
        subst e1
        have hqQ2 : q ∈ Q2 := hsplit ▸ List.mem_cons_of_mem _ hq
        have := hQ2 q hqQ2 lq k0
        omega
      · intro q hq lq hlqC
        rw [hnewlen q hq lq hlqC, hlc_len2]
      · intro u hu hunq lu hluC
        rcases List.mem_append.mp hu with hu | hu
        · rw [List.mem_reverse] at hu
          exact absurd (henq_sub_q u hu) hunq
        · by_cases huc : u = current
          · subst huc
            obtain ⟨l, k0, k1, -, -, -⟩ := hchains_old u hcur_v
            have e1 : lu = l := chainTo_unique hluC k1
            have e2 : l = lc := chainTo_unique k0 hlcChain
            subst e1
            subst e2
            omega
          · have hunq_old : u ∉ current :: rest := by
              intro hx
              rcases List.mem_cons.mp hx with hx | hx
              · exact huc hx
              · exact hunq (List.mem_append.mpr (Or.inl hx))
            obtain ⟨lu0, k0, k1, -, -, -⟩ := hchains_old u hu
            have e1 : lu = lu0 := chainTo_unique hluC k1
            subst e1
            have := hproc u hu hunq_old lu k0
            omega
    | cons q1 Q1t =>
      have hcq1 : current = q1 := by
        have h := hsplit
        simp only [List.cons_append] at h
        injection h with h1 h2
      have hrest_eq : rest = Q1t ++ Q2 := by
        have h := hsplit
        simp only [List.cons_append] at h
        injection h with h1 h2
      have hlc_len1 : lc.length = a + 1 := by
        rw [hcq1] at hlcChain
        exact hQ1 q1 (List.mem_cons_self _ _) lc hlcChain
      refine ⟨a, Q1t, Q2 ++ enq, by rw [hrest_eq, List.append_assoc], ?_, ?_, ?_⟩
      · intro q hq lq hlqC
        have hqr : q ∈ rest := by rw [hrest_eq]; exact List.mem_append.mpr (Or.inl hq)
        have hqv : q ∈ visited := inv.qsub q (List.mem_cons_of_mem _ hqr)
        obtain ⟨lq0, k0, k1, -, -, -⟩ := hchains_old q hqv
        have e1 : lq = lq0 := chainTo_unique hlqC k1
        subst e1
        exact hQ1 q (List.mem_cons_of_mem _ hq) lq k0
      · intro q hq lq hlqC
        rcases List.mem_append.mp hq with hq | hq
        · have hqr : q ∈ rest := by rw [hrest_eq]; exact List.mem_append.mpr (Or.inr hq)
          have hqv : q ∈ visited := inv.qsub q (List.mem_cons_of_mem _ hqr)
          obtain ⟨lq0, k0, k1, -, -, -⟩ := hchains_old q hqv
          have e1 : lq = lq0 := chainTo_unique hlqC k1
          subst e1
          exact hQ2 q hq lq k0
        · rw [hnewlen q hq lq hlqC, hlc_len1]
      · intro u hu hunq lu hluC
        rcases List.mem_append.mp hu with hu | hu
        · rw [List.mem_reverse] at hu
          exact absurd (henq_sub_q u hu) hunq
        · by_cases huc : u = current
          · subst huc
            obtain ⟨l, k0, k1, -, -, -⟩ := hchains_old u hcur_v
            have e1 : lu = l := chainTo_unique hluC k1
            have e2 : l = lc := chainTo_unique k0 hlcChain
            subst e1
            subst e2
            omega
          · have hunq_old : u ∉ current :: rest := by
              intro hx
              rcases List.mem_cons.mp hx with hx | hx
              · exact huc hx
              · exact hunq (List.mem_append.mpr (Or.inl hx))
            obtain ⟨lu0, k0, k1, -, -, -⟩ := hchains_old u hu
            have e1 : lu = lu0 := chainTo_unique hluC k1
            subst e1
            exact hproc u hu hunq_old lu k0
  · -- goal still unprocessed
    intro hgv
    rcases List.mem_append.mp hgv with hgv | hgv
    · rw [List.mem_reverse] at hgv
      exact henq_sub_q goal hgv
    · have := inv.goalq hgv
      rcases List.mem_cons.mp this with h | h
      · exact absurd h.symm hcg
      · exact List.mem_append.mpr (Or.inl h)

/-- The BFS loop, run with fuel exceeding its measure from any state
satisfying the invariant, terminates with either a certified no-route answer
or a shortest valid path. -/
theorem bfs_master (g : Grid) (start goal : Point) :
    ∀ (fuel : Nat) (queue visited : List Point) (parent : List (Point × Point)) (count : Nat),
      BFSInv g start goal queue visited parent →
      queue.length + (GRID_ROWS * GRID_COLS + 1 - visited.length) < fuel →
      ∃ r, bfsLoop g goal fuel queue visited parent count = some r ∧
        ((r.path = [] ∧ ¬ reach g start goal) ∨
         (validPath g start goal r.path ∧
          ∀ l2, validPath g start goal l2 → r.path.length ≤ l2.length)) := by
  intro fuel
  induction fuel with
  | zero =>
    intro queue visited parent count inv hM
    exact absurd hM (Nat.not_lt_zero _)
  | succ fuel ih =>
    intro queue visited parent count inv hM
    cases queue with
    | nil =>
      refine ⟨⟨[], count⟩, bfsLoop_nil g goal fuel visited parent count, Or.inl ⟨rfl, ?_⟩⟩
      rintro ⟨l2, hl2⟩
      have hgv : goal ∈ visited :=
        path_in_closed hl2 inv.sv (fun u hu w hw => inv.procClosed u hu (by simp) w hw)
      exact absurd (inv.goalq hgv) (by simp)
    | cons current rest =>
      obtain ⟨lc, hlcChain, hlcPath, hlcBound, hlcMem⟩ :=
        inv.chains current (inv.qsub _ (List.mem_cons_self _ _))
      by_cases hcg : current = goal
      · refine ⟨⟨lc, count + 1⟩, ?_, Or.inr ⟨hcg ▸ hlcPath, ?_⟩⟩
        · rw [bfsLoop_goal g goal fuel current rest visited parent count hcg,
            chainTo_reconstruct hlcChain (parent.length + 1) hlcBound]
          rfl
        · intro l2 hl2
          exact bfs_popped_min inv hlcChain l2 (hcg ▸ hl2)
      · rw [bfsLoop_expand g goal fuel current rest visited parent count hcg]
        have inv2 := bfs_step_inv inv hcg
        have hvis2 :
            ((((getNeighbors current g).filter (fun n => decide (n ∉ visited))).reverse ++
              visited)).length ≤ GRID_ROWS * GRID_COLS + 1 :=
          nodup_length_le_cells inv2.vnd inv2.vsub
        apply ih _ _ _ _ inv2
        have h7 : GRID_ROWS * GRID_COLS + 1 = 7201 := rfl
        rw [h7] at hvis2 hM ⊢
        simp only [List.length_append, List.length_reverse, List.length_cons] at hvis2 hM ⊢
        omega

/-- The BFS invariant holds after popping and expanding the start node. -/
theorem bfs_init_inv (g : Grid) (start goal : Point) (hsg : start ≠ goal) :
    BFSInv g start goal
      ([] ++ (getNeighbors start g).filter (fun n => decide (n ∉ [start])))
      (((getNeighbors start g).filter (fun n => decide (n ∉ [start]))).reverse ++ [start])
      ((((getNeighbors start g).filter (fun n => decide (n ∉ [start]))).map
        (fun n => (n, start))).reverse ++ []) := by
  set nbrs := getNeighbors start g with hnbrs
  set enq := nbrs.filter (fun n => decide (n ∉ [start])) with henqdef
  set block := enq.map (fun n => (n, start)) with hblockdef
  have henq : ∀ w, w ∈ enq ↔ (w ∈ nbrs ∧ w ≠ start) := by
    intro w
    rw [henqdef, List.mem_filter]
    simp
  have henq_nd : enq.Nodup := (getNeighbors_nodup start g).filter _
  have hsenq : start ∉ enq := fun h => ((henq start).mp h).2 rfl
  have hnotkeys : ∀ w, w ∉ enq → w ∉ (block.reverse).map Prod.fst := by
    intro w hwe
    rw [hblockdef]
    simp only [List.map_reverse, List.map_map]
    rw [List.mem_reverse]
    intro hmem
    exact hwe (by simpa [Function.comp] using hmem)
  have hstart_chain : ChainTo (block.reverse ++ []) start [start] := by
    refine ChainTo.base start ?_
    rw [mapGet_append_of_not_mem_keys _ _ _ (hnotkeys start hsenq)]
    rfl
  have hnew_chain : ∀ w ∈ enq, ChainTo (block.reverse ++ []) w [start, w] := by
    intro w hw
    have hlook : mapGet (block.reverse ++ []) w = some start := by
      apply mapGet_const_block start
      · intro e he
        rw [List.mem_reverse, hblockdef] at he
        rcases List.mem_map.mp he with ⟨n, hn, rfl⟩
        rfl
      · rw [hblockdef]
        simp only [List.map_reverse, List.map_map]
        rw [List.mem_reverse]
        simpa [Function.comp] using hw
    exact ChainTo.step w start [start] hlook hstart_chain
  have hchain_char : ∀ w lw, ChainTo (block.reverse ++ []) w lw →
      (w ∈ enq ∧ lw = [start, w]) ∨ lw = [w] := by
    intro w lw hlw
    by_cases hwe : w ∈ enq
    · exact Or.inl ⟨hwe, chainTo_unique hlw (hnew_chain w hwe)⟩
    · right
      cases hlw with
      | base _ _ => rfl
      | step _ p l0 hq hp =>
        exfalso
        rw [mapGet_append_of_not_mem_keys _ _ _ (hnotkeys w hwe)] at hq
        cases hq
  refine ⟨?_, ?_, ?_, ?_, ?_, ?_, ?_, ?_, ?_, ?_, ?_, ?_⟩
  · refine List.Nodup.append (List.nodup_reverse.mpr henq_nd) (by simp) ?_
    intro w hw1 hw2
    rw [List.mem_reverse] at hw1
    rcases List.mem_singleton.mp hw2 with rfl
    exact hsenq hw1
  · simpa using henq_nd
  · intro p hp
    simp only [List.nil_append] at hp
    exact List.mem_append.mpr (Or.inl (List.mem_reverse.mpr hp))
  · intro p hp
    rcases List.mem_append.mp hp with hp | hp
    · rw [List.mem_reverse] at hp
      exact Or.inl (getNeighbors_traversable ((henq p).mp hp).1).1
    · exact Or.inr (List.mem_singleton.mp hp)
  · exact List.mem_append.mpr (Or.inr (List.mem_singleton.mpr rfl))
  · simpa using hsenq
  · intro v hv
    rcases List.mem_append.mp hv with hv | hv
    · rw [List.mem_reverse] at hv
      refine ⟨[start, v], hnew_chain v hv, ?_, ?_, ?_⟩
      · refine ⟨by simp, by simp, by simp, ?_, trivial⟩
        exact ((henq v).mp hv).1
      · have h1 : 1 ≤ enq.length := List.length_pos_of_mem hv
        simp only [List.append_nil, List.length_reverse, hblockdef, List.length_map,
          List.length_cons, List.length_nil]
        omega
      · intro u hu
        rcases List.mem_cons.mp hu with rfl | hu
        · exact List.mem_append.mpr (Or.inr (by simp))
        · rcases List.mem_singleton.mp (by simpa using hu) with rfl
          exact List.mem_append.mpr (Or.inl (List.mem_reverse.mpr hv))
    · rcases List.mem_singleton.mp hv with rfl
      refine ⟨[v], hstart_chain, validPath_singleton g v, by simp, ?_⟩
      intro u hu
      rcases List.mem_singleton.mp hu with rfl
      exact List.mem_append.mpr (Or.inr (by simp))
  · intro u hu hunq w hwn
    rcases List.mem_append.mp hu with hu | hu
    · rw [List.mem_reverse] at hu
      exact absurd (by simpa using hu) hunq
    · rcases List.mem_singleton.mp hu with rfl
      by_cases hws : w = u
      · exact List.mem_append.mpr (Or.inr (by simp [hws]))
      · refine List.mem_append.mpr (Or.inl (List.mem_reverse.mpr ?_))
        exact (henq w).mpr ⟨hwn, hws⟩
  · intro u hu hunq w hwn lu lw hluC hlwC
    rcases List.mem_append.mp hu with hu | hu
    · rw [List.mem_reverse] at hu
      exact absurd (by simpa using hu) hunq
    · rcases List.mem_singleton.mp hu with rfl
      have hlu1 : lu = [u] := by
        rcases hchain_char u lu hluC with ⟨hue, -⟩ | h
        · exact absurd hue hsenq
        · exact h
      rcases hchain_char w lw hlwC with ⟨-, rfl⟩ | rfl <;> simp [hlu1]
  · intro u hu hunq lu hluC l2 hl2
    rcases List.mem_append.mp hu with hu | hu
    · rw [List.mem_reverse] at hu
      exact absurd (by simpa using hu) hunq
    · rcases List.mem_singleton.mp hu with rfl
      have hlu1 : lu = [u] := by
        rcases hchain_char u lu hluC with ⟨hue, -⟩ | h
        · exact absurd hue hsenq
        · exact h
      rw [hlu1]
      simpa using validPath_length_pos hl2
  · refine ⟨1, enq, [], by simp, ?_, by simp, ?_⟩
    · intro q hq lq hlqC
      rcases hchain_char q lq hlqC with ⟨-, rfl⟩ | rfl
      · rfl
      · have heq2 := chainTo_unique hlqC (hnew_chain q hq)
        simp at heq2
    · intro u hu hunq lu hluC
      rcases List.mem_append.mp hu with hu | hu
      · rw [List.mem_reverse] at hu
        exact absurd (by simpa using hu) hunq
      · rcases List.mem_singleton.mp hu with rfl
        have hlu1 : lu = [u] := by
          rcases hchain_char u lu hluC with ⟨hue, -⟩ | h
          · exact absurd hue hsenq
          · exact h
        rw [hlu1]
        simp
  · intro hgv
    rcases List.mem_append.mp hgv with hgv | hgv
    · rw [List.mem_reverse] at hgv
      simpa using hgv
    · exact absurd (List.mem_singleton.mp hgv).symm hsg

/-- runBFS terminates with either a certified no-route answer or a shortest
valid path. -/
theorem bfs_run_spec (g : Grid) (start goal : Point) :
    ∃ r, runBFS g start goal = some r ∧
      ((r.path = [] ∧ ¬ reach g start goal) ∨
       (validPath g start goal r.path ∧
        ∀ l2, validPath g start goal l2 → r.path.length ≤ l2.length)) := by
  by_cases hsg : start = goal
  · subst hsg
    refine ⟨⟨[start], 1⟩, ?_, Or.inr ⟨validPath_singleton g start, ?_⟩⟩
    · show bfsLoop g start searchFuel [start] [start] [] 0 = _
      rw [show searchFuel = 7201 + 1 from rfl,
        bfsLoop_goal g start 7201 start [] [start] [] 0 rfl]
      simp [reconstructPath, mapGet]
    · intro l2 hl2
      simpa using validPath_length_pos hl2
  · show ∃ r, bfsLoop g goal searchFuel [start] [start] [] 0 = some r ∧ _
    rw [show searchFuel = 7201 + 1 from rfl,
      bfsLoop_expand g goal 7201 start [] [start] [] 0 hsg]
    refine bfs_master g start goal 7201 _ _ _ (0 + 1) (bfs_init_inv g start goal hsg) ?_
    have hle := getNeighbors_length_le start g
    have hfl : ((getNeighbors start g).filter (fun n => decide (n ∉ [start]))).length ≤ 4 :=
      le_trans (List.length_filter_le _ _) hle
    simp only [List.nil_append, List.length_append, List.length_reverse, List.length_cons,
      List.length_nil]
    rw [show GRID_ROWS * GRID_COLS + 1 = 7201 from rfl]
    omega

/-! ## DFS correctness -/

/-- Expanding a non-goal node preserves the DFS invariant. -/
theorem dfs_step_inv {g : Grid} {start goal current : Point}
    {rest visited : List Point} {parent : List (Point × Point)}
    (inv : DFSInv g start goal (current :: rest) visited parent)
    (hcg : current ≠ goal) :
    DFSInv g start goal
      (((getNeighbors current g).filter (fun n => decide (n ∉ visited))).reverse ++ rest)
      (((getNeighbors current g).filter (fun n => decide (n ∉ visited))).reverse ++ visited)
      ((((getNeighbors current g).filter (fun n => decide (n ∉ visited))).map
        (fun n => (n, current))).reverse ++ parent) := by
  set nbrs := getNeighbors current g with hnbrs
  set enq := nbrs.filter (fun n => decide (n ∉ visited)) with henqdef
  set block := enq.map (fun n => (n, current)) with hblockdef
  have henq : ∀ w, w ∈ enq ↔ (w ∈ nbrs ∧ w ∉ visited) := by
    intro w
    rw [henqdef, List.mem_filter]
    simp
  have hcur_v : current ∈ visited := inv.qsub current (List.mem_cons_self _ _)
  have henq_nd : enq.Nodup := (getNeighbors_nodup current g).filter _
  have hpar_len :
      (block.reverse ++ parent).length = enq.length + parent.length := by
    simp [hblockdef]
  obtain ⟨lc, hlcChain, hlcPath, hlcBound, hlcMem⟩ := inv.chains current hcur_v
  have hdisj : ∀ (l : List Point), (∀ u ∈ l, u ∈ visited) →
      ∀ e ∈ block.reverse, e.1 ∉ l := by
    intro l hl e he hel
    rw [List.mem_reverse, hblockdef] at he
    rcases List.mem_map.mp he with ⟨n, hn, rfl⟩
    exact ((henq n).mp hn).2 (hl _ hel)
  have hchains_old : ∀ v ∈ visited, ∃ l, ChainTo parent v l ∧
      ChainTo (block.reverse ++ parent) v l ∧ validPath g start v l ∧
      l.length ≤ parent.length + 1 ∧ ∀ u ∈ l, u ∈ visited := by
    intro v hv
    obtain ⟨l, h1, h2, h3, h4⟩ := inv.chains v hv
    exact ⟨l, h1, chainTo_prepend_of_disjoint _ (hdisj l h4) h1, h2, h3, h4⟩
  have hchain_new : ∀ w ∈ enq,
      ChainTo (block.reverse ++ parent) w (lc ++ [w]) ∧
      validPath g start w (lc ++ [w]) := by
    intro w hw
    have hlook : mapGet (block.reverse ++ parent) w = some current := by
      apply mapGet_const_block current
      · intro e he
        rw [List.mem_reverse, hblockdef] at he
        rcases List.mem_map.mp he with ⟨n, hn, rfl⟩
        rfl
      · rw [hblockdef]
        simp only [List.map_reverse, List.map_map]
        rw [List.mem_reverse]
        simpa [Function.comp] using hw
    refine ⟨ChainTo.step w current lc hlook
        (chainTo_prepend_of_disjoint _ (hdisj lc hlcMem) hlcChain),
      validPath_snoc hlcPath ((henq w).mp hw).1⟩
  refine ⟨?_, ?_, ?_, ?_, ?_, ?_, ?_⟩
  · refine List.Nodup.append (List.nodup_reverse.mpr henq_nd) inv.vnd ?_
    intro w hw1 hw2
    rw [List.mem_reverse] at hw1
    exact ((henq w).mp hw1).2 hw2
  · intro p hp
    rcases List.mem_append.mp hp with hp | hp
    · exact List.mem_append.mpr (Or.inl hp)
    · exact List.mem_append.mpr (Or.inr (inv.qsub p (List.mem_cons_of_mem _ hp)))
  · intro p hp
    rcases List.mem_append.mp hp with hp | hp
    · rw [List.mem_reverse] at hp
      exact Or.inl (getNeighbors_traversable ((henq p).mp hp).1).1
    · exact inv.vsub p hp
  · exact List.mem_append.mpr (Or.inr inv.sv)
  · intro v hv
    rcases List.mem_append.mp hv with hv | hv
    · rw [List.mem_reverse] at hv
      obtain ⟨hch, hvp⟩ := hchain_new v hv
      refine ⟨lc ++ [v], hch, hvp, ?_, ?_⟩
      · rw [hpar_len]
        have h1 : 1 ≤ enq.length := List.length_pos_of_mem hv
        simp only [List.length_append, List.length_singleton]
        omega
      · intro u hu
        rcases List.mem_append.mp hu with hu | hu
        · exact List.mem_append.mpr (Or.inr (hlcMem u hu))
        · simp only [List.mem_singleton] at hu
          subst hu
          exact List.mem_append.mpr (Or.inl (List.mem_reverse.mpr hv))
    · obtain ⟨l, h0, h1, h2, h3, h4⟩ := hchains_old v hv
      refine ⟨l, h1, h2, ?_, fun u hu => List.mem_append.mpr (Or.inr (h4 u hu))⟩
      rw [hpar_len]
      omega
  · intro u hu hunq w hwn
    rcases List.mem_append.mp hu with hu | hu
    · exact absurd (List.mem_append.mpr (Or.inl hu)) hunq
    · by_cases huc : u = current
      · subst huc
        by_cases hwv : w ∈ visited
        · exact List.mem_append.mpr (Or.inr hwv)
        · refine List.mem_append.mpr (Or.inl (List.mem_reverse.mpr ?_))
          exact (henq w).mpr ⟨hwn, hwv⟩
      · have hunq_old : u ∉ current :: rest := by
          intro hx
          rcases List.mem_cons.mp hx with hx | hx
          · exact huc hx
          · exact hunq (List.mem_append.mpr (Or.inr hx))
        exact List.mem_append.mpr (Or.inr (inv.procClosed u hu hunq_old w hwn))
  · intro hgv
    rcases List.mem_append.mp hgv with hgv | hgv
    · exact List.mem_append.mpr (Or.inl hgv)
    · have := inv.goalq hgv
      rcases List.mem_cons.mp this with h | h
      · exact absurd h.symm hcg
      · exact List.mem_append.mpr (Or.inr h)

/-- The DFS loop, run with fuel exceeding its measure from any state
satisfying the invariant, terminates with either a certified no-route answer
or a valid path. -/
theorem dfs_master (g : Grid) (start goal : Point) :
    ∀ (fuel : Nat) (stack visited : List Point) (parent : List (Point × Point)) (count : Nat),
      DFSInv g start goal stack visited parent →
      stack.length + (GRID_ROWS * GRID_COLS + 1 - visited.length) < fuel →
      ∃ r, dfsLoop g goal fuel stack visited parent count = some r ∧
        ((r.path = [] ∧ ¬ reach g start goal) ∨ validPath g start goal r.path) := by
  intro fuel
  induction fuel with
  | zero =>
    intro stack visited parent count inv hM
    exact absurd hM (Nat.not_lt_zero _)
  | succ fuel ih =>
    intro stack visited parent count inv hM
    cases stack with
    | nil =>
      refine ⟨⟨[], count⟩, dfsLoop_nil g goal fuel visited parent count, Or.inl ⟨rfl, ?_⟩⟩
      rintro ⟨l2, hl2⟩
      have hgv : goal ∈ visited :=
        path_in_closed hl2 inv.sv (fun u hu w hw => inv.procClosed u hu (by simp) w hw)
      exact absurd (inv.goalq hgv) (by simp)
    | cons current rest =>
      obtain ⟨lc, hlcChain, hlcPath, hlcBound, hlcMem⟩ :=
        inv.chains current (inv.qsub _ (List.mem_cons_self _ _))
      by_cases hcg : current = goal
      · refine ⟨⟨lc, count + 1⟩, ?_, Or.inr (hcg ▸ hlcPath)⟩
        rw [dfsLoop_goal g goal fuel current rest visited parent count hcg,
          chainTo_reconstruct hlcChain (parent.length + 1) hlcBound]
        rfl
      · rw [dfsLoop_expand g goal fuel current rest visited parent count hcg]
        have inv2 := dfs_step_inv inv hcg
        have hvis2 :
            ((((getNeighbors current g).filter (fun n => decide (n ∉ visited))).reverse ++
              visited)).length ≤ GRID_ROWS * GRID_COLS + 1 :=
          nodup_length_le_cells inv2.vnd inv2.vsub
        apply ih _ _ _ _ inv2
        have h7 : GRID_ROWS * GRID_COLS + 1 = 7201 := rfl
        rw [h7] at hvis2 hM ⊢
        simp only [List.length_append, List.length_reverse, List.length_cons] at hvis2 hM ⊢
        omega

/-- runDFS terminates with either a certified no-route answer or a valid
path. -/
theorem dfs_run_spec (g : Grid) (start goal : Point) :
    ∃ r, runDFS g start goal = some r ∧
      ((r.path = [] ∧ ¬ reach g start goal) ∨ validPath g start goal r.path) := by
  show ∃ r, dfsLoop g goal searchFuel [start] [start] [] 0 = some r ∧ _
  have inv0 : DFSInv g start goal [start] [start] [] := by
    refine ⟨by simp, by simp, ?_, by simp, ?_, ?_, ?_⟩
    · intro p hp
      exact Or.inr (List.mem_singleton.mp hp)
    · intro v hv
      rcases List.mem_singleton.mp hv with rfl
      exact ⟨[v], ChainTo.base v rfl, validPath_singleton g v, by simp, by simp⟩
    · intro u hu hus
      exact absurd (List.mem_singleton.mp hu ▸ List.mem_singleton.mpr rfl) hus
    · intro hgv
      rcases List.mem_singleton.mp hgv with rfl
      simp
  refine dfs_master g start goal searchFuel [start] [start] [] 0 inv0 ?_
  rw [show searchFuel = 7202 from rfl, show GRID_ROWS * GRID_COLS + 1 = 7201 from rfl]
  simp

/-! ## Dijkstra correctness -/

/-- The JS Infinity comparison succeeds iff the slot is unset or strictly
larger. -/
theorem distLtInf_true {a : Nat} {o : Option Nat} :
    distLtInf a o = true ↔ (o = none ∨ ∃ b, o = some b ∧ a < b) := by
  cases o with
  | none => simp [distLtInf]
  | some b => simp [distLtInf]

/-- The JS Infinity comparison fails iff the slot holds a value at most a. -/
theorem distLtInf_false {a : Nat} {o : Option Nat} :
    distLtInf a o = false ↔ (∃ b, o = some b ∧ b ≤ a) := by
  cases o with
  | none => simp [distLtInf]
  | some b =>
    simp only [distLtInf, decide_eq_false_iff_not, not_lt, Option.some.injEq]
    constructor
    · intro h; exact ⟨b, rfl, h⟩
    · rintro ⟨b2, rfl, h⟩; exact h

/-- Reading a point after a setDist write at another point. -/
theorem setDist_point (dst : DistArr) (n : Point) (k : Nat) (w : Point) :
    setDist dst n.y n.x k w.y w.x = if w = n then some k else dst w.y w.x := by
  unfold setDist
  by_cases h : w = n
  · subst h; simp
  · rw [if_neg h, if_neg]
    intro hc
    apply h
    cases w with
    | mk wx wy =>
      cases n with
      | mk nx ny =>
        simp only [Point.mk.injEq]
        exact ⟨hc.2, hc.1⟩

/-- dstLe is reflexive. -/
theorem dstLe_refl (dst : DistArr) : dstLe dst dst := by
  intro y x k h
  exact ⟨k, le_refl k, h⟩

/-- dstLe is transitive. -/
theorem dstLe_trans {d1 d2 d3 : DistArr} (h12 : dstLe d1 d2) (h23 : dstLe d2 d3) :
    dstLe d1 d3 := by
  intro y x k h
  obtain ⟨k2, hk2, he2⟩ := h23 y x k h
  obtain ⟨k1, hk1, he1⟩ := h12 y x k2 he2
  exact ⟨k1, le_trans hk1 hk2, he1⟩

/-- A generated neighbor differs from its node. -/
theorem getNeighbors_ne {node p : Point} {g : Grid} (hp : p ∈ getNeighbors node g) :
    p ≠ node := by
  rw [getNeighbors_eq] at hp
  have hmem := List.mem_of_mem_filter hp
  cases node with
  | mk nx ny =>
    simp only [candidateNeighbors, List.mem_cons, List.not_mem_nil, or_false] at hmem
    rcases hmem with h | h | h | h <;> subst h <;>
      simp only [ne_eq, Point.mk.injEq, not_and] <;> intro h1 <;> omega

/-- Members of a chain are in its dropLast or are its endpoint. -/
theorem chainTo_mem_split {parent : List (Point × Point)} {q : Point} {l : List Point}
    (h : ChainTo parent q l) {u : Point} (hu : u ∈ l) : u ∈ l.dropLast ∨ u = q := by
  cases h with
  | base q hq =>
    rcases List.mem_singleton.mp hu with rfl
    exact Or.inr rfl
  | step q p l0 hq hp =>
    rw [List.dropLast_concat]
    rcases List.mem_append.mp hu with hu | hu
    · exact Or.inl hu
    · exact Or.inr (List.mem_singleton.mp hu)

/-- The endpoint of a valid path is in bounds or is the start. -/
theorem validPath_last_bounds {g : Grid} :
    ∀ {l : List Point} {s v : Point}, validPath g s v l → inBounds v ∨ v = s := by
  intro l
  induction l with
  | nil => intro s v h; exact absurd rfl h.1
  | cons a t ih =>
    intro s v h
    have ha : a = s := by simpa using h.2.1
    subst ha
    cases t with
    | nil =>
      have : v = a := by simpa using h.2.2.1.symm
      exact Or.inr this
    | cons b t2 =>
      rcases h.2.2.2 with ⟨hab, hrest⟩
      have hpb : validPath g b v (b :: t2) :=
        ⟨by simp, by simp, by simpa using h.2.2.1, hrest⟩
      rcases ih hpb with h1 | h1
      · exact Or.inl h1
      · subst h1
        exact Or.inl (getNeighbors_traversable hab).1

/-- Unfolding dijkstraLoop with no fuel. -/
theorem dijkstraLoop_zero (g : Grid) (endP : Point) (pq : List (Point × Nat))
    (dst : DistArr) (vis : List Point) (par : List (Point × Point)) (c : Nat) :
    dijkstraLoop g endP 0 pq dst vis par c = none := rfl

/-- Unfolding dijkstraLoop when the sorted queue is empty. -/
theorem dijkstraLoop_nil (g : Grid) (endP : Point) (fuel : Nat)
    (pq : List (Point × Nat)) (dst : DistArr) (vis : List Point)
    (par : List (Point × Point)) (c : Nat)
    (hs : pq.mergeSort (fun a b => a.2 ≤ b.2) = []) :
    dijkstraLoop g endP (fuel + 1) pq dst vis par c = some ⟨[], c⟩ := by
  rw [dijkstraLoop, hs]

/-- Unfolding dijkstraLoop when the popped node is already finalized. -/
theorem dijkstraLoop_skip (g : Grid) (endP : Point) (fuel : Nat)
    (pq : List (Point × Nat)) (dst : DistArr) (vis : List Point)
    (par : List (Point × Point)) (c : Nat) (current : Point × Nat)
    (rest : List (Point × Nat))
    (hs : pq.mergeSort (fun a b => a.2 ≤ b.2) = current :: rest)
    (hv : current.1 ∈ vis) :
    dijkstraLoop g endP (fuel + 1) pq dst vis par c =
      dijkstraLoop g endP fuel rest dst vis par c := by
  rw [dijkstraLoop, hs]
  simp [hv]

/-- Unfolding dijkstraLoop when the popped node is the goal. -/
theorem dijkstraLoop_goal (g : Grid) (endP : Point) (fuel : Nat)
    (pq : List (Point × Nat)) (dst : DistArr) (vis : List Point)
    (par : List (Point × Point)) (c : Nat) (current : Point × Nat)
    (rest : List (Point × Nat))
    (hs : pq.mergeSort (fun a b => a.2 ≤ b.2) = current :: rest)
    (hv : current.1 ∉ vis) (hg : current.1 = endP) :
    dijkstraLoop g endP (fuel + 1) pq dst vis par c =
      (reconstructPath par (par.length + 1) endP).map (fun p => ⟨p, c + 1⟩) := by
  rw [dijkstraLoop, hs]
  simp only [if_neg hv, if_pos hg]

/-- Unfolding dijkstraLoop on a non-goal fresh pop: the relaxation fold runs
over the popped node's neighbors. -/
theorem dijkstraLoop_expand (g : Grid) (endP : Point) (fuel : Nat)
    (pq : List (Point × Nat)) (dst : DistArr) (vis : List Point)
    (par : List (Point × Point)) (c : Nat) (current : Point × Nat)
    (rest : List (Point × Nat))
    (hs : pq.mergeSort (fun a b => a.2 ≤ b.2) = current :: rest)
    (hv : current.1 ∉ vis) (hg : current.1 ≠ endP) :
    dijkstraLoop g endP (fuel + 1) pq dst vis par c =
      dijkstraLoop g endP fuel
        ((getNeighbors current.1 g).foldl (dijkRelax g current.1 (current.1 :: vis))
          (rest, dst, par)).1
        ((getNeighbors current.1 g).foldl (dijkRelax g current.1 (current.1 :: vis))
          (rest, dst, par)).2.1
        (current.1 :: vis)
        ((getNeighbors current.1 g).foldl (dijkRelax g current.1 (current.1 :: vis))
          (rest, dst, par)).2.2
        (c + 1) := by
  rw [dijkstraLoop, hs]
  simp only [if_neg hv, if_neg hg]
  rfl

/-- One relaxation step of the Dijkstra fold preserves the core invariant,
the carried closure over previously finalized cells, the finalized node's
distance, the finalized-distances-at-most-d bound, and it relaxes the
processed neighbor; the queue grows by at most one and distances only
tighten. -/
theorem dijk_relax_step {g : Grid} {start goal v : Point} {V' U : List Point} {d : Nat}
    (hvV : v ∈ V') (hsV : start ∈ V') (hUV : ∀ u ∈ U, u ∈ V')
    {n : Point} (hn : n ∈ getNeighbors v g)
    (q : List (Point × Nat)) (dst : DistArr) (parent : List (Point × Point))
    (core : DijkCore g start goal q dst V' parent)
    (hcl : dijkClosure g dst U)
    (hdv : dst v.y v.x = some d)
    (hled : ∀ u ∈ V', ∀ du, dst u.y u.x = some du → du ≤ d) :
    DijkCore g start goal (dijkRelax g v V' (q, dst, parent) n).1
      (dijkRelax g v V' (q, dst, parent) n).2.1 V'
      (dijkRelax g v V' (q, dst, parent) n).2.2 ∧
    dijkClosure g (dijkRelax g v V' (q, dst, parent) n).2.1 U ∧
    (dijkRelax g v V' (q, dst, parent) n).2.1 v.y v.x = some d ∧
    (∀ u ∈ V', ∀ du, (dijkRelax g v V' (q, dst, parent) n).2.1 u.y u.x = some du → du ≤ d) ∧
    (n ∈ V' ∨ ∃ dw ≤ d + 1, (dijkRelax g v V' (q, dst, parent) n).2.1 n.y n.x = some dw) ∧
    (dijkRelax g v V' (q, dst, parent) n).1.length ≤ q.length + 1 ∧
    dstLe (dijkRelax g v V' (q, dst, parent) n).2.1 dst := by
  by_cases hnV : n ∈ V'
  · have hid : dijkRelax g v V' (q, dst, parent) n = (q, dst, parent) := by
      unfold dijkRelax
      rw [if_pos hnV]
    rw [hid]
    exact ⟨core, hcl, hdv, hled, Or.inl hnV, by simp, dstLe_refl dst⟩
  · have hmatch : dijkRelax g v V' (q, dst, parent) n =
        if distLtInf (d + 1) (dst n.y n.x) then
          (q ++ [(n, d + 1)], setDist dst n.y n.x (d + 1), (n, v) :: parent)
        else (q, dst, parent) := by
      unfold dijkRelax
      rw [if_neg hnV]
      dsimp only
      rw [hdv]
    cases hb : distLtInf (d + 1) (dst n.y n.x) with
    | false =>
      have hid : dijkRelax g v V' (q, dst, parent) n = (q, dst, parent) := by
        rw [hmatch, if_neg (by simp [hb])]
      rw [hid]
      obtain ⟨b, hbeq, hble⟩ := distLtInf_false.mp hb
      exact ⟨core, hcl, hdv, hled, Or.inr ⟨b, hble, hbeq⟩, by simp, dstLe_refl dst⟩
    | true =>
      have hid : dijkRelax g v V' (q, dst, parent) n =
          (q ++ [(n, d + 1)], setDist dst n.y n.x (d + 1), (n, v) :: parent) := by
        rw [hmatch, if_pos hb]
      rw [hid]
      dsimp only
      have hnv : n ≠ v := getNeighbors_ne hn
      have hns : n ≠ start := fun h => hnV (by rw [h]; exact hsV)
      have hchain_lift : ∀ {w : Point} {l : List Point}, w ≠ n → ChainTo parent w l →
          (∀ u ∈ l.dropLast, u ∈ V') → ChainTo ((n, v) :: parent) w l := by
        intro w l hwn hch hdl
        refine chainTo_cons_of_not_mem ?_ hch
        intro hnl
        rcases chainTo_mem_split hch hnl with h1 | h1
        · exact hnV (hdl _ h1)
        · exact hwn h1.symm
      obtain ⟨lv, hlvC, hlvP, hlvLen, hlvB, hlvD⟩ := core.dstv v d hdv
      have hlvMem : ∀ u ∈ lv, u ∈ V' := by
        intro u hu
        rcases chainTo_mem_split hlvC hu with h1 | h1
        · exact hlvD u h1
        · rw [h1]; exact hvV
      have hlvC' : ChainTo ((n, v) :: parent) v lv := hchain_lift (Ne.symm hnv) hlvC hlvD
      have hchainN : ChainTo ((n, v) :: parent) n (lv ++ [n]) :=
        ChainTo.step n v lv (by rw [mapGet_cons, if_pos rfl]) hlvC'
      have hvpN : validPath g start n (lv ++ [n]) := validPath_snoc hlvP hn
      refine ⟨⟨core.vnd, core.vsub, ?_, ?_, ?_, ?_, ?_, ?_, ?_, ?_, core.goalv⟩,
        ?_, ?_, ?_, ?_, by simp, ?_⟩
      · -- dstv
        intro w dw hw
        rw [setDist_point dst n (d + 1) w] at hw
        by_cases hwn : w = n
        · subst hwn
          rw [if_pos rfl] at hw
          have hdw : d + 1 = dw := by injection hw
          subst hdw
          refine ⟨lv ++ [w], hchainN, hvpN, by simp [hlvLen], ?_, ?_⟩
          · simp only [List.length_append, List.length_singleton, List.length_cons,
              List.length_nil]
            omega
          · rw [List.dropLast_concat]
            exact hlvMem
        · rw [if_neg hwn] at hw
          obtain ⟨lw, h1, h2, h3, h4, h5⟩ := core.dstv w dw hw
          refine ⟨lw, hchain_lift hwn h1 h5, h2, h3, ?_, h5⟩
          simp only [List.length_cons]
          omega
      · -- vdst
        intro u hu
        have hun : u ≠ n := fun h => hnV (h ▸ hu)
        rw [setDist_point dst n (d + 1) u, if_neg hun]
        exact core.vdst u hu
      · -- vmin
        intro u hu du hdu l2 hl2
        have hun : u ≠ n := fun h => hnV (h ▸ hu)
        rw [setDist_point dst n (d + 1) u, if_neg hun] at hdu
        exact core.vmin u hu du hdu l2 hl2
      · -- open_entry
        intro w dw hwV hdw
        rw [setDist_point dst n (d + 1) w] at hdw
        by_cases hwn : w = n
        · subst hwn
          rw [if_pos rfl] at hdw
          have hdw2 : d + 1 = dw := by injection hdw
          subst hdw2
          exact List.mem_append.mpr (Or.inr (by simp))
        · rw [if_neg hwn] at hdw
          exact List.mem_append.mpr (Or.inl (core.open_entry w dw hwV hdw))
      · -- pq_dst
        intro e he
        rcases List.mem_append.mp he with he | he
        · obtain ⟨de, hdele, hde⟩ := core.pq_dst e he
          by_cases hen : e.1 = n
          · refine ⟨d + 1, ?_, ?_⟩
            · rw [hen] at hde
              rcases distLtInf_true.mp hb with hnone | ⟨b, hbeq, hblt⟩
              · rw [hde] at hnone; cases hnone
              · rw [hde] at hbeq
                have : de = b := by injection hbeq
                omega
            · rw [setDist_point dst n (d + 1) e.1, if_pos hen]
          · exact ⟨de, hdele, by rw [setDist_point dst n (d + 1) e.1, if_neg hen]; exact hde⟩
        · rcases List.mem_singleton.mp he with rfl
          refine ⟨d + 1, le_refl _, ?_⟩
          show setDist dst n.y n.x (d + 1) n.y n.x = some (d + 1)
          have := setDist_point dst n (d + 1) n
          rw [this, if_pos rfl]
      · -- vbound
        intro u hu du hdu e he
        have hun : u ≠ n := fun h => hnV (h ▸ hu)
        rw [setDist_point dst n (d + 1) u, if_neg hun] at hdu
        rcases List.mem_append.mp he with he | he
        · exact core.vbound u hu du hdu e he
        · rcases List.mem_singleton.mp he with rfl
          show du ≤ d + 1
          have := hled u hu du hdu
          omega
      · -- pq0
        intro e he h0
        rcases List.mem_append.mp he with he | he
        · exact core.pq0 e he h0
        · rcases List.mem_singleton.mp he with rfl
          simp at h0
      · -- start_dst
        rw [setDist_point dst n (d + 1) start, if_neg (Ne.symm hns)]
        exact core.start_dst
      · -- closure over U
        intro u hu w hw du hdu
        have hun : u ≠ n := fun h => hnV (h ▸ hUV u hu)
        rw [setDist_point dst n (d + 1) u, if_neg hun] at hdu
        obtain ⟨dw, hdwle, hdw⟩ := hcl u hu w hw du hdu
        by_cases hwn : w = n
        · refine ⟨d + 1, ?_, ?_⟩
          · rw [hwn] at hdw
            rcases distLtInf_true.mp hb with hnone | ⟨b, hbeq, hblt⟩
            · rw [hdw] at hnone; cases hnone
            · rw [hdw] at hbeq
              have : dw = b := by injection hbeq
              omega
          · rw [setDist_point dst n (d + 1) w, if_pos hwn]
        · exact ⟨dw, hdwle, by rw [setDist_point dst n (d + 1) w, if_neg hwn]; exact hdw⟩
      · -- distance at v unchanged
        rw [setDist_point dst n (d + 1) v, if_neg (Ne.symm hnv)]
        exact hdv
      · -- finalized distances still at most d
        intro u hu du hdu
        have hun : u ≠ n := fun h => hnV (h ▸ hu)
        rw [setDist_point dst n (d + 1) u, if_neg hun] at hdu
        exact hled u hu du hdu
      · -- the processed neighbor is relaxed
        refine Or.inr ⟨d + 1, le_refl _, ?_⟩
        rw [setDist_point dst n (d + 1) n, if_pos rfl]
      · -- distances only tighten
        intro y x k hk
        by_cases hyx : y = n.y ∧ x = n.x
        · refine ⟨d + 1, ?_, ?_⟩
          · rw [hyx.1, hyx.2] at hk
            rcases distLtInf_true.mp hb with hnone | ⟨b, hbeq, hblt⟩
            · rw [hk] at hnone; cases hnone
            · rw [hk] at hbeq
              have : k = b := by injection hbeq
              omega
          · show setDist dst n.y n.x (d + 1) y x = some (d + 1)
            unfold setDist
            rw [if_pos hyx]
        · refine ⟨k, le_refl _, ?_⟩
          show setDist dst n.y n.x (d + 1) y x = some k
          unfold setDist
          rw [if_neg hyx]
          exact hk

/-- The whole relaxation fold of one Dijkstra iteration: the core invariant
and carried facts survive, every processed neighbor ends up relaxed, the
queue grows by at most the number of neighbors, and distances only
tighten. -/
theorem dijk_fold_spec {g : Grid} {start goal v : Point} {V' U : List Point} {d : Nat}
    (hvV : v ∈ V') (hsV : start ∈ V') (hUV : ∀ u ∈ U, u ∈ V') :
    ∀ (ns : List Point), (∀ x ∈ ns, x ∈ getNeighbors v g) →
      ∀ (q : List (Point × Nat)) (dst : DistArr) (parent : List (Point × Point)),
        DijkCore g start goal q dst V' parent →
        dijkClosure g dst U →
        dst v.y v.x = some d →
        (∀ u ∈ V', ∀ du, dst u.y u.x = some du → du ≤ d) →
        DijkCore g start goal (ns.foldl (dijkRelax g v V') (q, dst, parent)).1
          (ns.foldl (dijkRelax g v V') (q, dst, parent)).2.1 V'
          (ns.foldl (dijkRelax g v V') (q, dst, parent)).2.2 ∧
        dijkClosure g (ns.foldl (dijkRelax g v V') (q, dst, parent)).2.1 U ∧
        (ns.foldl (dijkRelax g v V') (q, dst, parent)).2.1 v.y v.x = some d ∧
        (∀ u ∈ V', ∀ du,
          (ns.foldl (dijkRelax g v V') (q, dst, parent)).2.1 u.y u.x = some du → du ≤ d) ∧
        (∀ x ∈ ns, x ∈ V' ∨
          ∃ dw ≤ d + 1, (ns.foldl (dijkRelax g v V') (q, dst, parent)).2.1 x.y x.x = some dw) ∧
        (ns.foldl (dijkRelax g v V') (q, dst, parent)).1.length ≤ q.length + ns.length ∧
        dstLe (ns.foldl (dijkRelax g v V') (q, dst, parent)).2.1 dst := by
  intro ns
  induction ns with
  | nil =>
    intro _ q dst parent core hcl hdv hled
    exact ⟨core, hcl, hdv, hled, by simp, by simp, dstLe_refl dst⟩
  | cons a t ih =>
    intro hns q dst parent core hcl hdv hled
    have ha : a ∈ getNeighbors v g := hns a (List.mem_cons_self _ _)
    obtain ⟨core1, hcl1, hdv1, hled1, hrel1, hlen1, hle1⟩ :=
      dijk_relax_step hvV hsV hUV ha q dst parent core hcl hdv hled
    obtain ⟨core2, hcl2, hdv2, hled2, hrel2, hlen2, hle2⟩ :=
      ih (fun x hx => hns x (List.mem_cons_of_mem _ hx)) _ _ _ core1 hcl1 hdv1 hled1
    rw [List.foldl_cons]
    refine ⟨core2, hcl2, hdv2, hled2, ?_, ?_, dstLe_trans hle2 hle1⟩
    · intro x hx
      rcases List.mem_cons.mp hx with rfl | hx
      · rcases hrel1 with h1 | ⟨dw, hdwle, hdw⟩
        · exact Or.inl h1
        · obtain ⟨k2, hk2le, hk2⟩ := hle2 x.y x.x dw hdw
          exact Or.inr ⟨k2, le_trans hk2le hdwle, hk2⟩
      · exact hrel2 x hx
    · have hlen2b : (t.foldl (dijkRelax g v V')
          (dijkRelax g v V' (q, dst, parent) a)).1.length ≤
          (dijkRelax g v V' (q, dst, parent) a).1.length + t.length := hlen2
      simp only [List.length_cons]
      omega

/-- Skipping an already-finalized pop preserves the Dijkstra core invariant
on the rest of the sorted queue. -/
theorem dijk_skip_core {g : Grid} {start goal : Point} {pq : List (Point × Nat)}
    {dst : DistArr} {V : List Point} {parent : List (Point × Point)}
    (core : DijkCore g start goal pq dst V parent)
    {current : Point × Nat} {rest : List (Point × Nat)}
    (hsort : pq.mergeSort (fun a b => a.2 ≤ b.2) = current :: rest)
    (hcv : current.1 ∈ V) :
    DijkCore g start goal rest dst V parent := by
  have hperm := List.mergeSort_perm pq (fun a b => a.2 ≤ b.2)
  rw [hsort] at hperm
  refine ⟨core.vnd, core.vsub, core.dstv, core.vdst, core.vmin, ?_, ?_, ?_, ?_,
    core.start_dst, core.goalv⟩
  · intro w dw hwV hdw
    have hin := hperm.mem_iff.mpr (core.open_entry w dw hwV hdw)
    rcases List.mem_cons.mp hin with heq | hin
    · exfalso
      apply hwV
      have hw : w = current.1 := congrArg Prod.fst heq
      rw [hw]
      exact hcv
    · exact hin
  · intro e he
    exact core.pq_dst e (hperm.mem_iff.mp (List.mem_cons_of_mem _ he))
  · intro u hu du hdu e he
    exact core.vbound u hu du hdu e (hperm.mem_iff.mp (List.mem_cons_of_mem _ he))
  · intro e he
    exact core.pq0 e (hperm.mem_iff.mp (List.mem_cons_of_mem _ he))

/-- Popping the minimal fresh entry of the sorted queue: its recorded
distance equals the entry key, that distance is globally minimal over valid
paths, the start is finalized afterwards, every finalized distance is at most
the popped key, and the core invariant transfers to the finalized state. -/
theorem dijk_pop {g : Grid} {start goal : Point} {pq : List (Point × Nat)}
    {dst : DistArr} {V : List Point} {parent : List (Point × Point)}
    (core : DijkCore g start goal pq dst V parent)
    (hcl : dijkClosure g dst V)
    {current : Point × Nat} {rest : List (Point × Nat)}
    (hsort : pq.mergeSort (fun a b => a.2 ≤ b.2) = current :: rest)
    (hcv : current.1 ∉ V) :
    dst current.1.y current.1.x = some current.2 ∧
    (∀ l2, validPath g start current.1 l2 → current.2 + 1 ≤ l2.length) ∧
    start ∈ current.1 :: V ∧
    (∀ u ∈ current.1 :: V, ∀ du, dst u.y u.x = some du → du ≤ current.2) ∧
    (goal ≠ current.1 → DijkCore g start goal rest dst (current.1 :: V) parent) := by
  have hperm := List.mergeSort_perm pq (fun a b => a.2 ≤ b.2)
  rw [hsort] at hperm
  have hcur_pq : current ∈ pq := hperm.mem_iff.mp (List.mem_cons_self _ _)
  have hsorted := @List.sorted_mergeSort (Point × Nat) (fun a b => decide (a.2 ≤ b.2))
    (by intro a b c h1 h2; simp at h1 h2 ⊢; omega)
    (by intro a b; simp; omega) pq
  rw [hsort] at hsorted
  have hmin_rest : ∀ e ∈ rest, current.2 ≤ e.2 := by
    intro e he
    have := (List.pairwise_cons.mp hsorted).1 e he
    simpa using this
  have hmin : ∀ e ∈ pq, current.2 ≤ e.2 := by
    intro e he
    rcases List.mem_cons.mp (hperm.mem_iff.mpr he) with rfl | hr
    · exact le_refl _
    · exact hmin_rest e hr
  obtain ⟨dc, hdcle, hdc⟩ := core.pq_dst current hcur_pq
  have hentry : (current.1, dc) ∈ pq := core.open_entry current.1 dc hcv hdc
  have hdce : dc = current.2 := le_antisymm hdcle (hmin _ hentry)
  rw [hdce] at hdc
  have hstart : start ∈ current.1 :: V := by
    by_cases hs : start ∈ V
    · exact List.mem_cons_of_mem _ hs
    · have h0 : (start, 0) ∈ pq := core.open_entry start 0 hs core.start_dst
      have h20 : current.2 = 0 := Nat.le_zero.mp (hmin _ h0)
      have hcs := core.pq0 current hcur_pq h20
      rw [hcs]
      exact List.mem_cons_self _ _
  have hpopmin : ∀ l2, validPath g start current.1 l2 → current.2 + 1 ≤ l2.length := by
    intro l2 hl2
    by_cases hcs : current.1 = start
    · have h0 : dst current.1.y current.1.x = some 0 := by rw [hcs]; exact core.start_dst
      rw [hdc] at h0
      have h20 : current.2 = 0 := by injection h0
      rw [h20]
      simpa using validPath_length_pos hl2
    · have hsV : start ∈ V := by
        rcases List.mem_cons.mp hstart with h | h
        · exact absurd h.symm hcs
        · exact h
      obtain ⟨l1, u, w, l2b, heq, hp1, hp2, hw, huC, hwC⟩ := path_cut hl2 hsV hcv
      obtain ⟨du, hdu⟩ := core.vdst u huC
      have h1 : du + 1 ≤ l1.length := core.vmin u huC du hdu l1 hp1
      obtain ⟨dw, hdwle, hdw⟩ := hcl u huC w hw du hdu
      have h2 : current.2 ≤ dw := hmin _ (core.open_entry w dw hwC hdw)
      have h3 : 1 ≤ l2b.length := validPath_length_pos hp2
      have h4 : l2.length = l1.length + l2b.length := by rw [heq]; simp
      omega
  have hvled : ∀ u ∈ current.1 :: V, ∀ du, dst u.y u.x = some du → du ≤ current.2 := by
    intro u hu du hdu
    rcases List.mem_cons.mp hu with rfl | hu
    · rw [hdc] at hdu
      have : current.2 = du := by injection hdu
      omega
    · exact core.vbound u hu du hdu current hcur_pq
  refine ⟨hdc, hpopmin, hstart, hvled, ?_⟩
  intro hgc
  refine ⟨List.nodup_cons.mpr ⟨hcv, core.vnd⟩, ?_, ?_, ?_, ?_, ?_, ?_, ?_, ?_,
    core.start_dst, ?_⟩
  · intro p hp
    rcases List.mem_cons.mp hp with rfl | hp
    · obtain ⟨lc, hlcC, hlcP, _, _, _⟩ := core.dstv current.1 current.2 hdc
      exact validPath_last_bounds hlcP
    · exact core.vsub p hp
  · intro w dw hw
    obtain ⟨lw, h1, h2, h3, h4, h5⟩ := core.dstv w dw hw
    exact ⟨lw, h1, h2, h3, h4, fun u hu => List.mem_cons_of_mem _ (h5 u hu)⟩
  · intro u hu
    rcases List.mem_cons.mp hu with rfl | hu
    · exact ⟨current.2, hdc⟩
    · exact core.vdst u hu
  · intro u hu du hdu l2 hl2
    rcases List.mem_cons.mp hu with rfl | hu
    · rw [hdc] at hdu
      have h2 : current.2 = du := by injection hdu
      rw [← h2]
      exact hpopmin l2 hl2
    · exact core.vmin u hu du hdu l2 hl2
  · intro w dw hwV hdw
    have hwV2 : w ∉ V := fun h => hwV (List.mem_cons_of_mem _ h)
    have hin := hperm.mem_iff.mpr (core.open_entry w dw hwV2 hdw)
    rcases List.mem_cons.mp hin with heq | hin
    · exfalso
      apply hwV
      have hw : w = current.1 := congrArg Prod.fst heq
      rw [hw]
      exact List.mem_cons_self _ _
    · exact hin
  · intro e he
    exact core.pq_dst e (hperm.mem_iff.mp (List.mem_cons_of_mem _ he))
  · intro u hu du hdu e he
    have h1 : du ≤ current.2 := hvled u hu du hdu
    have h2 : current.2 ≤ e.2 := hmin_rest e he
    omega
  · intro e he
    exact core.pq0 e (hperm.mem_iff.mp (List.mem_cons_of_mem _ he))
  · intro h
    rcases List.mem_cons.mp h with h | h
    · exact hgc h
    · exact core.goalv h

/-- The Dijkstra loop, run with fuel exceeding its measure from any state
satisfying the invariant plus closure, terminates with either a certified
no-route answer or a shortest valid path. -/
theorem dijk_master (g : Grid) (start goal : Point) :
    ∀ (fuel : Nat) (pq : List (Point × Nat)) (dst : DistArr) (V : List Point)
      (parent : List (Point × Point)) (count : Nat),
      DijkCore g start goal pq dst V parent →
      dijkClosure g dst V →
      pq.length + 5 * (GRID_ROWS * GRID_COLS + 1 - V.length) < fuel →
      ∃ r, dijkstraLoop g goal fuel pq dst V parent count = some r ∧
        ((r.path = [] ∧ ¬ reach g start goal) ∨
         (validPath g start goal r.path ∧
          ∀ l2, validPath g start goal l2 → r.path.length ≤ l2.length)) := by
  intro fuel
  induction fuel with
  | zero =>
    intro pq dst V parent count core hcl hM
    exact absurd hM (Nat.not_lt_zero _)
  | succ fuel ih =>
    intro pq dst V parent count core hcl hM
    rcases hS : pq.mergeSort (fun a b => a.2 ≤ b.2) with _ | ⟨current, rest⟩
    · refine ⟨⟨[], count⟩,
        dijkstraLoop_nil g goal fuel pq dst V parent count hS, Or.inl ⟨rfl, ?_⟩⟩
      have hpq : pq = [] := by
        have hperm := List.mergeSort_perm pq (fun a b => a.2 ≤ b.2)
        rw [hS] at hperm
        exact hperm.nil_eq.symm
      rintro ⟨l2, hl2⟩
      have hsV : start ∈ V := by
        by_cases hs : start ∈ V
        · exact hs
        · have h0 := core.open_entry start 0 hs core.start_dst
          rw [hpq] at h0
          simp at h0
      have hclosed : ∀ u ∈ V, ∀ w ∈ getNeighbors u g, w ∈ V := by
        intro u hu w hw
        obtain ⟨du, hdu⟩ := core.vdst u hu
        obtain ⟨dw, _, hdw⟩ := hcl u hu w hw du hdu
        by_cases hwv : w ∈ V
        · exact hwv
        · have h0 := core.open_entry w dw hwv hdw
          rw [hpq] at h0
          simp at h0
      exact core.goalv (path_in_closed hl2 hsV hclosed)
    · have hpqlen : pq.length = rest.length + 1 := by
        have hperm := List.mergeSort_perm pq (fun a b => a.2 ≤ b.2)
        rw [hS] at hperm
        have hL := hperm.length_eq
        simp only [List.length_cons] at hL
        omega
      by_cases hcv : current.1 ∈ V
      · rw [dijkstraLoop_skip g goal fuel pq dst V parent count current rest hS hcv]
        apply ih rest dst V parent count (dijk_skip_core core hS hcv) hcl
        omega
      · obtain ⟨hdc, hpopmin, hstart, hvled, hcore2⟩ := dijk_pop core hcl hS hcv
        by_cases hcg : current.1 = goal
        · obtain ⟨lc, hlcC, hlcP, hlcLen, hlcB, hlcD⟩ := core.dstv current.1 current.2 hdc
          refine ⟨⟨lc, count + 1⟩, ?_, Or.inr ⟨?_, ?_⟩⟩
          · rw [dijkstraLoop_goal g goal fuel pq dst V parent count current rest hS hcv hcg,
              ← hcg, chainTo_reconstruct hlcC (parent.length + 1) hlcB]
            rfl
          · exact hcg ▸ hlcP
          · intro l2 hl2
            have hp := hpopmin l2 (hcg ▸ hl2)
            show lc.length ≤ l2.length
            omega
        · rw [dijkstraLoop_expand g goal fuel pq dst V parent count current rest hS hcv hcg]
          have hgc : goal ≠ current.1 := fun h => hcg h.symm
          have core2 := hcore2 hgc
          have hUV : ∀ u ∈ V, u ∈ current.1 :: V := fun u hu => List.mem_cons_of_mem _ hu
          obtain ⟨core3, hcl3, hdv3, hled3, hrel3, hlen3, hle3⟩ :=
            dijk_fold_spec (List.mem_cons_self _ _) hstart hUV
              (getNeighbors current.1 g) (fun x hx => hx) rest dst parent core2 hcl hdc hvled
          have hclAll : dijkClosure g
              ((getNeighbors current.1 g).foldl (dijkRelax g current.1 (current.1 :: V))
                (rest, dst, parent)).2.1 (current.1 :: V) := by
            intro u hu w hw du hdu
            rcases List.mem_cons.mp hu with rfl | hu
            · rw [hdv3] at hdu
              have hdu2 : current.2 = du := by injection hdu
              rcases hrel3 w hw with hwV | ⟨dw, hdwle, hdw⟩
              · obtain ⟨dw, hdw⟩ := core3.vdst w hwV
                refine ⟨dw, ?_, hdw⟩
                have := hled3 w hwV dw hdw
                omega
              · exact ⟨dw, by omega, hdw⟩
            · exact hcl3 u hu w hw du hdu
          apply ih _ _ _ _ (count + 1) core3 hclAll
          have hV2 : (current.1 :: V).length ≤ GRID_ROWS * GRID_COLS + 1 :=
            nodup_length_le_cells core3.vnd core3.vsub
          have hnb : (getNeighbors current.1 g).length ≤ 4 := getNeighbors_length_le _ g
          rw [show GRID_ROWS * GRID_COLS + 1 = 7201 from rfl] at hV2 hM ⊢
          simp only [List.length_cons] at hV2 hM ⊢
          omega

/-- runDijkstra terminates with either a certified no-route answer or a
shortest valid path. -/
theorem dijkstra_run_spec (g : Grid) (start goal : Point) :
    ∃ r, runDijkstra g start goal = some r ∧
      ((r.path = [] ∧ ¬ reach g start goal) ∨
       (validPath g start goal r.path ∧
        ∀ l2, validPath g start goal l2 → r.path.length ≤ l2.length)) := by
  show ∃ r, dijkstraLoop g goal dijkstraFuel [(start, 0)]
    (setDist (fun _ _ => none) start.y start.x 0) [] [] 0 = some r ∧ _
  have hread : ∀ w : Point, setDist (fun _ _ => none) start.y start.x 0 w.y w.x =
      if w = start then some 0 else none := fun w => setDist_point (fun _ _ => none) start 0 w
  have inv0 : DijkCore g start goal [(start, 0)]
      (setDist (fun _ _ => none) start.y start.x 0) [] [] := by
    refine ⟨by simp, by simp, ?_, by simp, by simp, ?_, ?_, by simp, ?_, ?_, by simp⟩
    · intro w d hw
      rw [hread w] at hw
      by_cases hws : w = start
      · rw [if_pos hws] at hw
        have hd : (0 : Nat) = d := by injection hw
        subst hws
        refine ⟨[w], ChainTo.base w rfl, validPath_singleton g w, by simp [← hd], by simp, ?_⟩
        simp
      · rw [if_neg hws] at hw
        cases hw
    · intro w d hwV hw
      rw [hread w] at hw
      by_cases hws : w = start
      · rw [if_pos hws] at hw
        have hd : (0 : Nat) = d := by injection hw
        rw [hws, ← hd]
        simp
      · rw [if_neg hws] at hw
        cases hw
    · intro e he
      rcases List.mem_singleton.mp he with rfl
      refine ⟨0, le_refl _, ?_⟩
      show setDist (fun _ _ => none) start.y start.x 0 start.y start.x = some 0
      rw [hread start, if_pos rfl]
    · intro e he h0
      rcases List.mem_singleton.mp he with rfl
      rfl
    · rw [hread start, if_pos rfl]
  have hcl0 : dijkClosure g (setDist (fun _ _ => none) start.y start.x 0) [] := by
    intro u hu
    simp at hu
  refine dijk_master g start goal dijkstraFuel [(start, 0)]
    (setDist (fun _ _ => none) start.y start.x 0) [] [] 0 inv0 hcl0 ?_
  rw [show dijkstraFuel = 36007 from rfl, show GRID_ROWS * GRID_COLS + 1 = 7201 from rfl]
  simp only [List.length_singleton, List.length_nil]
  omega

/-! ## A* correctness -/

/-- The open-set position predicate of runAStar matches exactly the entries
at the queried point. -/
theorem aMatch (m : ANode) (n : Point) :
    ((m.x == n.x && m.y == n.y) = true) ↔ m.pos = n := by
  cases n with
  | mk nx ny => simp [ANode.pos, Point.mk.injEq]

/-- updateFirst keeps the list length. -/
theorem updateFirst_length (p : ANode → Bool) (f : ANode → ANode) :
    ∀ os : List ANode, (updateFirst os p f).length = os.length := by
  intro os
  induction os with
  | nil => rfl
  | cons a t ih =>
    show (if p a then f a :: t else a :: updateFirst t p f).length = (a :: t).length
    by_cases hpa : p a
    · rw [if_pos hpa]
      simp
    · rw [if_neg hpa]
      simp [ih]

/-- A successful find? splits the list at the first match, and updateFirst
rewrites exactly that entry. -/
theorem updateFirst_split (p : ANode → Bool) (f : ANode → ANode) :
    ∀ (os : List ANode) (ex : ANode), os.find? p = some ex →
      ∃ os1 os2, os = os1 ++ ex :: os2 ∧ (∀ m ∈ os1, p m = false) ∧ p ex = true ∧
        updateFirst os p f = os1 ++ f ex :: os2 := by
  intro os
  induction os with
  | nil =>
    intro ex h
    simp at h
  | cons a t ih =>
    intro ex h
    by_cases hpa : p a = true
    · rw [List.find?_cons_of_pos _ hpa] at h
      have hae : a = ex := by injection h
      refine ⟨[], t, by rw [hae]; rfl, by simp, by rw [← hae]; exact hpa, ?_⟩
      show (if p a then f a :: t else a :: updateFirst t p f) = [] ++ f ex :: t
      rw [if_pos hpa, hae]
      rfl
    · have hfa : p a = false := by
        cases hpb : p a
        · rfl
        · exact absurd hpb hpa
      rw [List.find?_cons_of_neg _ (by simp [hfa])] at h
      obtain ⟨os1, os2, heq, hos1, hex, hupd⟩ := ih ex h
      refine ⟨a :: os1, os2, by rw [heq]; rfl, ?_, hex, ?_⟩
      · intro m hm
        rcases List.mem_cons.mp hm with rfl | hm
        · exact hfa
        · exact hos1 m hm
      · show (if p a then f a :: t else a :: updateFirst t p f) = (a :: os1) ++ f ex :: os2
        rw [if_neg hpa, hupd]
        rfl

/-- Unfolding aStarLoop with no fuel. -/
theorem aStarLoop_zero (grid : Grid) (endP : Point) (os : List ANode)
    (closed : List Point) (cf : List (Point × Point)) (c : Nat) :
    aStarLoop grid endP 0 os closed cf c = none := rfl

/-- Unfolding aStarLoop when the sorted open set is empty. -/
theorem aStarLoop_nil (grid : Grid) (endP : Point) (fuel : Nat) (os : List ANode)
    (closed : List Point) (cf : List (Point × Point)) (c : Nat)
    (hS : os.mergeSort (fun a b => a.f ≤ b.f) = []) :
    aStarLoop grid endP (fuel + 1) os closed cf c = some ⟨[], c⟩ := by
  rw [aStarLoop, hS]

/-- Unfolding aStarLoop when the popped node is the goal: the count is not
incremented. -/
theorem aStarLoop_goal (grid : Grid) (endP : Point) (fuel : Nat) (os : List ANode)
    (closed : List Point) (cf : List (Point × Point)) (c : Nat) (current : ANode)
    (rest : List ANode)
    (hS : os.mergeSort (fun a b => a.f ≤ b.f) = current :: rest)
    (hg : current.pos = endP) :
    aStarLoop grid endP (fuel + 1) os closed cf c =
      (reconstructPath cf (cf.length + 1) current.pos).map (fun p => ⟨p, c⟩) := by
  rw [aStarLoop, hS]
  simp only [if_pos hg]

/-- Unfolding aStarLoop on a non-goal pop: the node closes and the
relaxation fold runs over its neighbors. -/
theorem aStarLoop_expand (grid : Grid) (endP : Point) (fuel : Nat) (os : List ANode)
    (closed : List Point) (cf : List (Point × Point)) (c : Nat) (current : ANode)
    (rest : List ANode)
    (hS : os.mergeSort (fun a b => a.f ≤ b.f) = current :: rest)
    (hg : current.pos ≠ endP) :
    aStarLoop grid endP (fuel + 1) os closed cf c =
      aStarLoop grid endP fuel
        ((getNeighbors current.pos grid).foldl
          (aStarRelax endP current.g current.pos (current.pos :: closed)) (rest, cf)).1
        (current.pos :: closed)
        ((getNeighbors current.pos grid).foldl
          (aStarRelax endP current.g current.pos (current.pos :: closed)) (rest, cf)).2
        (c + 1) := by
  rw [aStarLoop, hS]
  simp only [if_neg hg]
  rfl

/-- One relaxation step of the A* fold preserves the core invariant, the
carried closure over previously closed cells, and the popped node's chain;
it relaxes the processed neighbor, never loses an open g-value bound, and
grows the open set by at most one. -/
theorem astar_relax_step {g : Grid} {start goal cpos : Point} {cg : Nat}
    {C' U : List Point} {lc : List Point}
    (hvC : cpos ∈ C') (hUC : ∀ u ∈ U, u ∈ C')
    (hlcP : validPath g start cpos lc) (hlcLen : lc.length = cg + 1)
    (hlcSub : ∀ u ∈ lc, u ∈ C')
    {n : Point} (hn : n ∈ getNeighbors cpos g)
    (os : List ANode) (cf : List (Point × Point))
    (core : AStarCore g start goal os C' cf)
    (hcl : aStarClosure g os U C' cf)
    (hlcC : ChainTo cf cpos lc)
    (hlcB : lc.length ≤ cf.length + 1) :
    AStarCore g start goal (aStarRelax goal cg cpos C' (os, cf) n).1 C'
      (aStarRelax goal cg cpos C' (os, cf) n).2 ∧
    aStarClosure g (aStarRelax goal cg cpos C' (os, cf) n).1 U C'
      (aStarRelax goal cg cpos C' (os, cf) n).2 ∧
    ChainTo (aStarRelax goal cg cpos C' (os, cf) n).2 cpos lc ∧
    lc.length ≤ (aStarRelax goal cg cpos C' (os, cf) n).2.length + 1 ∧
    (n ∈ C' ∨ ∃ m ∈ (aStarRelax goal cg cpos C' (os, cf) n).1, m.pos = n ∧ m.g ≤ cg + 1) ∧
    (∀ (w : Point) (B : Nat), (∃ m ∈ os, m.pos = w ∧ m.g ≤ B) →
      ∃ m ∈ (aStarRelax goal cg cpos C' (os, cf) n).1, m.pos = w ∧ m.g ≤ B) ∧
    (aStarRelax goal cg cpos C' (os, cf) n).1.length ≤ os.length + 1 := by
  have hnv : n ≠ cpos := getNeighbors_ne hn
  by_cases hnC : n ∈ C'
  · have hid : aStarRelax goal cg cpos C' (os, cf) n = (os, cf) := by
      unfold aStarRelax
      rw [if_pos hnC]
    rw [hid]
    exact ⟨core, hcl, hlcC, hlcB, Or.inl hnC, fun w B h => h, by simp⟩
  · have hlift : ∀ {w : Point} {l : List Point}, w ≠ n → ChainTo cf w l →
        (∀ u ∈ l.dropLast, u ∈ C') → ChainTo ((n, cpos) :: cf) w l := by
      intro w l hwn hch hdl
      refine chainTo_cons_of_not_mem ?_ hch
      intro hnl
      rcases chainTo_mem_split hch hnl with h1 | h1
      · exact hnC (hdl _ h1)
      · exact hwn h1.symm
    have hlcC2 : ChainTo ((n, cpos) :: cf) cpos lc := by
      refine hlift (Ne.symm hnv) hlcC ?_
      intro u hu
      exact hlcSub u (List.dropLast_subset _ hu)
    have hchainN : ChainTo ((n, cpos) :: cf) n (lc ++ [n]) :=
      ChainTo.step n cpos lc (by rw [mapGet_cons, if_pos rfl]) hlcC2
    have hvpN : validPath g start n (lc ++ [n]) := validPath_snoc hlcP hn
    have hcchain_lift : ∀ p ∈ C', ∃ l, ChainTo ((n, cpos) :: cf) p l ∧
        ChainTo cf p l ∧ validPath g start p l ∧ l.length ≤ cf.length + 1 ∧
        (∀ u ∈ l.dropLast, u ∈ C') ∧
        ∀ l2, validPath g start p l2 → l.length ≤ l2.length := by
      intro p hp
      obtain ⟨l, h1, h2, h3, h4, h5⟩ := core.cchain p hp
      have hpn : p ≠ n := fun h => hnC (h ▸ hp)
      exact ⟨l, hlift hpn h1 h4, h1, h2, h3, h4, h5⟩
    have hclosure_lift : ∀ (os2 : List ANode),
        (∀ (w : Point) (B : Nat), (∃ m ∈ os, m.pos = w ∧ m.g ≤ B) →
          ∃ m ∈ os2, m.pos = w ∧ m.g ≤ B) →
        aStarClosure g os2 U C' ((n, cpos) :: cf) := by
      intro os2 htr u hu w hw lu hlu
      obtain ⟨lu0, h1, h1b, h2, h3, h4, h5⟩ := hcchain_lift u (hUC u hu)
      have hlueq : lu = lu0 := chainTo_unique hlu h1
      rcases hcl u hu w hw lu0 h1b with hwC | ⟨m, hm, hmp, hmg⟩
      · exact Or.inl hwC
      · rcases htr w lu0.length ⟨m, hm, hmp, hmg⟩ with ⟨m2, hm2, hm2p, hm2g⟩
        rw [hlueq]
        exact Or.inr ⟨m2, hm2, hm2p, hm2g⟩
    cases hf : os.find? (fun m => m.x == n.x && m.y == n.y) with
    | none =>
      have hid : aStarRelax goal cg cpos C' (os, cf) n =
          (os ++ [⟨n.x, n.y, cg + 1 + heuristic n goal, cg + 1, heuristic n goal⟩],
           (n, cpos) :: cf) := by
        unfold aStarRelax
        rw [if_neg hnC]
        dsimp only
        rw [hf]
      rw [hid]
      have hnotin : ∀ m ∈ os, m.pos ≠ n := by
        intro m hm hmp
        have := List.find?_eq_none.mp hf m hm
        exact this ((aMatch m n).mpr hmp)
      have hnewpos : (⟨n.x, n.y, cg + 1 + heuristic n goal, cg + 1,
          heuristic n goal⟩ : ANode).pos = n := rfl
      have htr : ∀ (w : Point) (B : Nat), (∃ m ∈ os, m.pos = w ∧ m.g ≤ B) →
          ∃ m ∈ os ++ [⟨n.x, n.y, cg + 1 + heuristic n goal, cg + 1, heuristic n goal⟩],
            m.pos = w ∧ m.g ≤ B := by
        rintro w B ⟨m, hm, hmp, hmg⟩
        exact ⟨m, List.mem_append.mpr (Or.inl hm), hmp, hmg⟩
      refine ⟨⟨core.cnd, core.csub, core.sclosed, ?_, ?_, ?_, ?_,
        fun p hp => ?_, core.goalc⟩, hclosure_lift _ htr, hlcC2, ?_, ?_, htr, by simp⟩
      · rw [List.map_append]
        rw [List.nodup_append]
        refine ⟨core.opos, by simp, ?_⟩
        intro a ha hb
        simp only [List.map_singleton, hnewpos, List.mem_singleton] at hb
        rcases List.mem_map.mp ha with ⟨m, hm, rfl⟩
        exact hnotin m hm hb
      · intro m hm
        rcases List.mem_append.mp hm with hm | hm
        · exact core.odisj m hm
        · rcases List.mem_singleton.mp hm with rfl
          rw [hnewpos]
          exact hnC
      · intro m hm
        rcases List.mem_append.mp hm with hm | hm
        · exact core.ofgh m hm
        · rcases List.mem_singleton.mp hm with rfl
          exact ⟨rfl, by rw [hnewpos]⟩
      · intro m hm
        rcases List.mem_append.mp hm with hm | hm
        · obtain ⟨l, h1, h2, h3, h4, h5⟩ := core.ochain m hm
          refine ⟨l, hlift (hnotin m hm) h1 (fun u hu => h5 u hu), h2, h3, ?_, h5⟩
          simp only [List.length_cons]
          omega
        · rcases List.mem_singleton.mp hm with rfl
          rw [hnewpos]
          refine ⟨lc ++ [n], hchainN, hvpN, ?_, ?_, ?_⟩
          · simp [hlcLen]
          · simp only [List.length_append, List.length_singleton, List.length_cons,
              List.length_nil]
            omega
          · rw [List.dropLast_concat]
            exact hlcSub
      · obtain ⟨l, h1, h1b, h2, h3, h4, h5⟩ := hcchain_lift p hp
        refine ⟨l, h1, h2, ?_, h4, h5⟩
        simp only [List.length_cons]
        omega
      · simp only [List.length_cons]
        omega
      · refine Or.inr ⟨⟨n.x, n.y, cg + 1 + heuristic n goal, cg + 1, heuristic n goal⟩,
          List.mem_append.mpr (Or.inr (by simp)), hnewpos, le_refl _⟩
    | some ex =>
      have hex_mem : ex ∈ os := List.mem_of_find?_eq_some hf
      have hpex := List.find?_some hf
      have hexpos : ex.pos = n := (aMatch ex n).mp hpex
      by_cases hlt : cg + 1 < ex.g
      · have hid : aStarRelax goal cg cpos C' (os, cf) n =
            (updateFirst os (fun m => m.x == n.x && m.y == n.y)
               (fun m => { m with g := cg + 1, f := cg + 1 + heuristic n goal }),
             (n, cpos) :: cf) := by
          unfold aStarRelax
          rw [if_neg hnC]
          dsimp only
          rw [hf]
          dsimp only
          rw [if_pos hlt]
        obtain ⟨os1, os2, hsplit, hos1, hexp, hupd⟩ :=
          updateFirst_split (fun m => m.x == n.x && m.y == n.y)
            (fun m => { m with g := cg + 1, f := cg + 1 + heuristic n goal }) os ex hf
        rw [hid, hupd]
        have hos1ne : ∀ m ∈ os1, m.pos ≠ n := by
          intro m hm hmp
          have := hos1 m hm
          rw [(aMatch m n).mpr hmp] at this
          cases this
        have hpos_eq : ((os1 ++ { ex with g := cg + 1, f := cg + 1 + heuristic n goal } :: os2).map ANode.pos) = os.map ANode.pos := by
          rw [hsplit]
          simp [ANode.pos]
        have hos2ne : ∀ m ∈ os2, m.pos ≠ n := by
          have hnodup := core.opos
          rw [hsplit, List.map_append, List.map_cons] at hnodup
          have h2 := (List.nodup_append.mp hnodup).2.1
          have h3 := (List.nodup_cons.mp h2).1
          intro m hm hmp
          apply h3
          rw [hexpos, ← hmp]
          exact List.mem_map.mpr ⟨m, hm, rfl⟩
        have hmem_of : ∀ m, m ∈ os1 ∨ m ∈ os2 → m ∈ os := by
          intro m hm
          rw [hsplit]
          rcases hm with hm | hm
          · exact List.mem_append.mpr (Or.inl hm)
          · exact List.mem_append.mpr (Or.inr (List.mem_cons_of_mem _ hm))
        have htr : ∀ (w : Point) (B : Nat), (∃ m ∈ os, m.pos = w ∧ m.g ≤ B) →
            ∃ m ∈ os1 ++ { ex with g := cg + 1, f := cg + 1 + heuristic n goal } :: os2, m.pos = w ∧ m.g ≤ B := by
          rintro w B ⟨m, hm, hmp, hmg⟩
          rw [hsplit] at hm
          rcases List.mem_append.mp hm with hm | hm
          · exact ⟨m, List.mem_append.mpr (Or.inl hm), hmp, hmg⟩
          · rcases List.mem_cons.mp hm with rfl | hm
            · refine ⟨{ m with g := cg + 1, f := cg + 1 + heuristic n goal },
                List.mem_append.mpr (Or.inr (List.mem_cons_self _ _)), hmp, ?_⟩
              show cg + 1 ≤ B
              omega
            · exact ⟨m, List.mem_append.mpr (Or.inr (List.mem_cons_of_mem _ hm)), hmp, hmg⟩
        refine ⟨⟨core.cnd, core.csub, core.sclosed, ?_, ?_, ?_, ?_,
          fun p hp => ?_, core.goalc⟩, hclosure_lift _ htr, hlcC2, ?_, ?_, htr, ?_⟩
        · rw [hpos_eq]
          exact core.opos
        · intro m hm
          rcases List.mem_append.mp hm with hm | hm
          · exact core.odisj m (hmem_of m (Or.inl hm))
          · rcases List.mem_cons.mp hm with rfl | hm
            · show ex.pos ∉ C'
              rw [hexpos]
              exact hnC
            · exact core.odisj m (hmem_of m (Or.inr hm))
        · intro m hm
          rcases List.mem_append.mp hm with hm | hm
          · exact core.ofgh m (hmem_of m (Or.inl hm))
          · rcases List.mem_cons.mp hm with rfl | hm
            · have hexh := (core.ofgh ex hex_mem).2
              constructor
              · show cg + 1 + heuristic n goal = cg + 1 + ex.h
                rw [hexh, hexpos]
              · show ex.h = heuristic ex.pos goal
                exact hexh
            · exact core.ofgh m (hmem_of m (Or.inr hm))
        · intro m hm
          rcases List.mem_append.mp hm with hm | hm
          · obtain ⟨l, h1, h2, h3, h4, h5⟩ := core.ochain m (hmem_of m (Or.inl hm))
            refine ⟨l, hlift (hos1ne m hm) h1 (fun u hu => h5 u hu), h2, h3, ?_, h5⟩
            simp only [List.length_cons]
            omega
          · rcases List.mem_cons.mp hm with rfl | hm
            · show ∃ l, ChainTo ((n, cpos) :: cf) ex.pos l ∧ validPath g start ex.pos l ∧
                l.length = (cg + 1) + 1 ∧ l.length ≤ ((n, cpos) :: cf).length + 1 ∧
                ∀ u ∈ l.dropLast, u ∈ C'
              rw [hexpos]
              refine ⟨lc ++ [n], hchainN, hvpN, ?_, ?_, ?_⟩
              · simp [hlcLen]
              · simp only [List.length_append, List.length_singleton, List.length_cons,
                  List.length_nil]
                omega
              · rw [List.dropLast_concat]
                exact hlcSub
            · obtain ⟨l, h1, h2, h3, h4, h5⟩ := core.ochain m (hmem_of m (Or.inr hm))
              refine ⟨l, hlift (hos2ne m hm) h1 (fun u hu => h5 u hu), h2, h3, ?_, h5⟩
              simp only [List.length_cons]
              omega
        · obtain ⟨l, h1, h1b, h2, h3, h4, h5⟩ := hcchain_lift p hp
          refine ⟨l, h1, h2, ?_, h4, h5⟩
          simp only [List.length_cons]
          omega
        · simp only [List.length_cons]
          omega
        · refine Or.inr ⟨{ ex with g := cg + 1, f := cg + 1 + heuristic n goal },
            List.mem_append.mpr (Or.inr (List.mem_cons_self _ _)), ?_, le_refl _⟩
          show ex.pos = n
          exact hexpos
        · have hL : (os1 ++ { ex with g := cg + 1, f := cg + 1 + heuristic n goal } :: os2).length = os.length := by
            rw [hsplit]
            simp
          show (os1 ++ { ex with g := cg + 1, f := cg + 1 + heuristic n goal } :: os2).length ≤ os.length + 1
          omega
      · have hid : aStarRelax goal cg cpos C' (os, cf) n = (os, cf) := by
          unfold aStarRelax
          rw [if_neg hnC]
          dsimp only
          rw [hf]
          dsimp only
          rw [if_neg hlt]
        rw [hid]
        refine ⟨core, hcl, hlcC, hlcB, ?_, fun w B h => h, by simp⟩
        refine Or.inr ⟨ex, hex_mem, hexpos, ?_⟩
        omega

/-- The whole relaxation fold of one A* iteration: the core invariant, the
carried closure and the popped node's chain survive, every processed
neighbor ends up relaxed, g-value witnesses are never lost, and the open set
grows by at most the number of neighbors. -/
theorem astar_fold_spec {g : Grid} {start goal cpos : Point} {cg : Nat}
    {C' U : List Point} {lc : List Point}
    (hvC : cpos ∈ C') (hUC : ∀ u ∈ U, u ∈ C')
    (hlcP : validPath g start cpos lc) (hlcLen : lc.length = cg + 1)
    (hlcSub : ∀ u ∈ lc, u ∈ C') :
    ∀ (ns : List Point), (∀ x ∈ ns, x ∈ getNeighbors cpos g) →
      ∀ (os : List ANode) (cf : List (Point × Point)),
        AStarCore g start goal os C' cf →
        aStarClosure g os U C' cf →
        ChainTo cf cpos lc →
        lc.length ≤ cf.length + 1 →
        AStarCore g start goal (ns.foldl (aStarRelax goal cg cpos C') (os, cf)).1 C'
          (ns.foldl (aStarRelax goal cg cpos C') (os, cf)).2 ∧
        aStarClosure g (ns.foldl (aStarRelax goal cg cpos C') (os, cf)).1 U C'
          (ns.foldl (aStarRelax goal cg cpos C') (os, cf)).2 ∧
        ChainTo (ns.foldl (aStarRelax goal cg cpos C') (os, cf)).2 cpos lc ∧
        (∀ x ∈ ns, x ∈ C' ∨ ∃ m ∈ (ns.foldl (aStarRelax goal cg cpos C') (os, cf)).1,
          m.pos = x ∧ m.g ≤ cg + 1) ∧
        (∀ (w : Point) (B : Nat), (∃ m ∈ os, m.pos = w ∧ m.g ≤ B) →
          ∃ m ∈ (ns.foldl (aStarRelax goal cg cpos C') (os, cf)).1, m.pos = w ∧ m.g ≤ B) ∧
        (ns.foldl (aStarRelax goal cg cpos C') (os, cf)).1.length ≤ os.length + ns.length := by
  intro ns
  induction ns with
  | nil =>
    intro _ os cf core hcl hlcC hlcB
    exact ⟨core, hcl, hlcC, by simp, fun w B h => h, by simp⟩
  | cons a t ih =>
    intro hns os cf core hcl hlcC hlcB
    have ha : a ∈ getNeighbors cpos g := hns a (List.mem_cons_self _ _)
    obtain ⟨core1, hcl1, hlcC1, hlcB1, hrel1, htr1, hlen1⟩ :=
      astar_relax_step hvC hUC hlcP hlcLen hlcSub ha os cf core hcl hlcC hlcB
    obtain ⟨core2, hcl2, hlcC2, hrel2, htr2, hlen2⟩ :=
      ih (fun x hx => hns x (List.mem_cons_of_mem _ hx)) _ _ core1 hcl1 hlcC1 hlcB1
    rw [List.foldl_cons]
    refine ⟨core2, hcl2, hlcC2, ?_, ?_, ?_⟩
    · intro x hx
      rcases List.mem_cons.mp hx with rfl | hx
      · rcases hrel1 with h1 | hwit
        · exact Or.inl h1
        · exact Or.inr (htr2 x (cg + 1) hwit)
      · exact hrel2 x hx
    · intro w B hwit
      exact htr2 w B (htr1 w B hwit)
    · have hlen2b : (t.foldl (aStarRelax goal cg cpos C')
          (aStarRelax goal cg cpos C' (os, cf) a)).1.length ≤
          (aStarRelax goal cg cpos C' (os, cf) a).1.length + t.length := hlen2
      simp only [List.length_cons]
      omega

/-- Assembling the full closure after an A* expansion: the new closed cell's
neighbors are covered by the relaxation results, the older ones by the
carried closure. -/
theorem astar_closure_assemble {g : Grid} {cpos : Point} {cg : Nat}
    {closed : List Point} {lc : List Point} {osF : List ANode}
    {cfF : List (Point × Point)}
    (hrelAll : ∀ x ∈ getNeighbors cpos g, x ∈ cpos :: closed ∨
      ∃ m ∈ osF, m.pos = x ∧ m.g ≤ cg + 1)
    (hlc : ChainTo cfF cpos lc) (hlcLen : lc.length = cg + 1)
    (hclosed : aStarClosure g osF closed (cpos :: closed) cfF) :
    aStarClosure g osF (cpos :: closed) (cpos :: closed) cfF := by
  intro u hu w hw lu hlu
  rcases List.mem_cons.mp hu with rfl | hu
  · have hlueq : lu = lc := chainTo_unique hlu hlc
    rcases hrelAll w hw with h1 | ⟨m, hm, hmp, hmg⟩
    · exact Or.inl h1
    · refine Or.inr ⟨m, hm, hmp, ?_⟩
      rw [hlueq, hlcLen]
      exact hmg
  · exact hclosed u hu w hw lu hlu

/-- The A* loop, run with fuel exceeding its measure from any state
satisfying the invariant plus closure, terminates with either a certified
no-route answer or a shortest valid path. -/
theorem astar_master (g : Grid) (start goal : Point) :
    ∀ (fuel : Nat) (os : List ANode) (closed : List Point)
      (cf : List (Point × Point)) (count : Nat),
      AStarCore g start goal os closed cf →
      aStarClosure g os closed closed cf →
      GRID_ROWS * GRID_COLS + 1 - closed.length < fuel →
      ∃ r, aStarLoop g goal fuel os closed cf count = some r ∧
        ((r.path = [] ∧ ¬ reach g start goal) ∨
         (validPath g start goal r.path ∧
          ∀ l2, validPath g start goal l2 → r.path.length ≤ l2.length)) := by
  intro fuel
  induction fuel with
  | zero =>
    intro os closed cf count core hcl hM
    exact absurd hM (Nat.not_lt_zero _)
  | succ fuel ih =>
    intro os closed cf count core hcl hM
    rcases hS : os.mergeSort (fun a b => a.f ≤ b.f) with _ | ⟨current, rest⟩
    · refine ⟨⟨[], count⟩, aStarLoop_nil g goal fuel os closed cf count hS,
        Or.inl ⟨rfl, ?_⟩⟩
      have hos : os = [] := by
        have hperm := List.mergeSort_perm os (fun a b => a.f ≤ b.f)
        rw [hS] at hperm
        exact hperm.nil_eq.symm
      rintro ⟨l2, hl2⟩
      have hclosed : ∀ u ∈ closed, ∀ w ∈ getNeighbors u g, w ∈ closed := by
        intro u hu w hw
        obtain ⟨lu, hluC, _, _, _, _⟩ := core.cchain u hu
        rcases hcl u hu w hw lu hluC with h1 | ⟨m, hm, _, _⟩
        · exact h1
        · rw [hos] at hm
          simp at hm
      exact core.goalc (path_in_closed hl2 core.sclosed hclosed)
    · have hperm := List.mergeSort_perm os (fun a b => a.f ≤ b.f)
      rw [hS] at hperm
      have hcur : current ∈ os := hperm.mem_iff.mp (List.mem_cons_self _ _)
      have hsorted := @List.sorted_mergeSort ANode (fun a b => decide (a.f ≤ b.f))
        (by intro a b c h1 h2; simp at h1 h2 ⊢; omega)
        (by intro a b; simp; omega) os
      rw [hS] at hsorted
      have hmin : ∀ e ∈ os, current.f ≤ e.f := by
        intro e he
        rcases List.mem_cons.mp (hperm.mem_iff.mpr he) with rfl | hr
        · exact le_refl _
        · have := (List.pairwise_cons.mp hsorted).1 e hr
          simpa using this
      have hcpC : current.pos ∉ closed := core.odisj current hcur
      obtain ⟨lc, hlcC, hlcP, hlcLen, hlcB, hlcD⟩ := core.ochain current hcur
      have hpopmin : ∀ l2, validPath g start current.pos l2 →
          current.g + 1 ≤ l2.length := by
        intro l2 hl2
        obtain ⟨l1, u, w, l2b, heq, hp1, hp2, hw, huC, hwC⟩ :=
          path_cut hl2 core.sclosed hcpC
        obtain ⟨lu, hluC, hluP, hluB, hluD, hluMin⟩ := core.cchain u huC
        have h1 : lu.length ≤ l1.length := hluMin l1 hp1
        rcases hcl u huC w hw lu hluC with hwcl | ⟨nw, hnw, hnwp, hnwg⟩
        · exact absurd hwcl hwC
        · have h2 : current.f ≤ nw.f := hmin nw hnw
          have h3 := core.ofgh current hcur
          have h4 := core.ofgh nw hnw
          have h5 : heuristic w goal ≤ heuristic current.pos goal + (l2b.length - 1) :=
            heuristic_path_bound goal hp2
          have h6 : 1 ≤ l2b.length := validPath_length_pos hp2
          have h7 : l2.length = l1.length + l2b.length := by rw [heq]; simp
          have h8 : nw.h = heuristic w goal := by rw [h4.2, hnwp]
          have h9 := h3.1
          have h10 := h3.2
          have h11 := h4.1
          omega
      by_cases hcg : current.pos = goal
      · refine ⟨⟨lc, count⟩, ?_, Or.inr ⟨hcg ▸ hlcP, ?_⟩⟩
        · rw [aStarLoop_goal g goal fuel os closed cf count current rest hS hcg,
            chainTo_reconstruct hlcC (cf.length + 1) hlcB]
          rfl
        · intro l2 hl2
          have hp := hpopmin l2 (hcg ▸ hl2)
          show lc.length ≤ l2.length
          omega
      · rw [aStarLoop_expand g goal fuel os closed cf count current rest hS hcg]
        have hpos_nodup : ((current :: rest).map ANode.pos).Nodup :=
          ((hperm.map ANode.pos).nodup_iff).mpr core.opos
        have hrest_nodup : (rest.map ANode.pos).Nodup :=
          (List.nodup_cons.mp (by simpa using hpos_nodup)).2
        have hcur_notin : current.pos ∉ rest.map ANode.pos :=
          (List.nodup_cons.mp (by simpa using hpos_nodup)).1
        have hrest_mem : ∀ n ∈ rest, n ∈ os := fun n hn =>
          hperm.mem_iff.mp (List.mem_cons_of_mem _ hn)
        have hlcSub : ∀ u ∈ lc, u ∈ current.pos :: closed := by
          intro u hu
          rcases chainTo_mem_split hlcC hu with h1 | h1
          · exact List.mem_cons_of_mem _ (hlcD u h1)
          · rw [h1]
            exact List.mem_cons_self _ _
        have core2 : AStarCore g start goal rest (current.pos :: closed) cf := by
          refine ⟨List.nodup_cons.mpr ⟨hcpC, core.cnd⟩, ?_, List.mem_cons_of_mem _ core.sclosed,
            hrest_nodup, ?_, fun n hn => core.ofgh n (hrest_mem n hn), ?_, ?_, ?_⟩
          · intro p hp
            rcases List.mem_cons.mp hp with rfl | hp
            · exact validPath_last_bounds hlcP
            · exact core.csub p hp
          · intro n hn
            intro hmem
            rcases List.mem_cons.mp hmem with heq | hmem
            · apply hcur_notin
              rw [← heq]
              exact List.mem_map.mpr ⟨n, hn, rfl⟩
            · exact core.odisj n (hrest_mem n hn) hmem
          · intro n hn
            obtain ⟨l, h1, h2, h3, h4, h5⟩ := core.ochain n (hrest_mem n hn)
            exact ⟨l, h1, h2, h3, h4, fun u hu => List.mem_cons_of_mem _ (h5 u hu)⟩
          · intro p hp
            rcases List.mem_cons.mp hp with rfl | hp
            · refine ⟨lc, hlcC, hlcP, hlcB,
                fun u hu => List.mem_cons_of_mem _ (hlcD u hu), ?_⟩
              intro l2 hl2
              have := hpopmin l2 hl2
              omega
            · obtain ⟨l, h1, h2, h3, h4, h5⟩ := core.cchain p hp
              exact ⟨l, h1, h2, h3, fun u hu => List.mem_cons_of_mem _ (h4 u hu), h5⟩
          · intro hmem
            rcases List.mem_cons.mp hmem with heq | hmem
            · exact hcg heq.symm
            · exact core.goalc hmem
        have hcl2 : aStarClosure g rest closed (current.pos :: closed) cf := by
          intro u hu w hw lu hlu
          rcases hcl u hu w hw lu hlu with h1 | ⟨m, hm, hmp, hmg⟩
          · exact Or.inl (List.mem_cons_of_mem _ h1)
          · rcases List.mem_cons.mp (hperm.mem_iff.mpr hm) with rfl | hmr
            · left
              rw [← hmp]
              exact List.mem_cons_self _ _
            · exact Or.inr ⟨m, hmr, hmp, hmg⟩
        obtain ⟨core3, hcl3, hlcC3, hrel3, htr3, hlen3⟩ :=
          astar_fold_spec (List.mem_cons_self _ _) (fun u hu => List.mem_cons_of_mem _ hu)
            hlcP hlcLen hlcSub (getNeighbors current.pos g) (fun x hx => hx)
            rest cf core2 hcl2 hlcC hlcB
        have hclAll := astar_closure_assemble hrel3 hlcC3 hlcLen hcl3
        apply ih _ _ _ (count + 1) core3 hclAll
        have hC2 : (current.pos :: closed).length ≤ GRID_ROWS * GRID_COLS + 1 :=
          nodup_length_le_cells core3.cnd core3.csub
        rw [show GRID_ROWS * GRID_COLS + 1 = 7201 from rfl] at hC2 hM ⊢
        simp only [List.length_cons] at hC2 hM ⊢
        omega

/-- runAStar terminates with either a certified no-route answer or a
shortest valid path.  The initial open entry carries f = 0, so the first
iteration (which always pops the start) is discharged separately before the
loop invariant takes over. -/
theorem astar_run_spec (g : Grid) (start goal : Point) :
    ∃ r, runAStar g start goal = some r ∧
      ((r.path = [] ∧ ¬ reach g start goal) ∨
       (validPath g start goal r.path ∧
        ∀ l2, validPath g start goal l2 → r.path.length ≤ l2.length)) := by
  show ∃ r, aStarLoop g goal aStarFuel
    [⟨start.x, start.y, 0, 0, heuristic start goal⟩] [] [] 0 = some r ∧ _
  have he0 : (⟨start.x, start.y, 0, 0, heuristic start goal⟩ : ANode).pos = start := rfl
  have hS : ([⟨start.x, start.y, 0, 0, heuristic start goal⟩] : List ANode).mergeSort
      (fun a b => a.f ≤ b.f) = [⟨start.x, start.y, 0, 0, heuristic start goal⟩] := by
    simp
  by_cases hsg : start = goal
  · have hg : (⟨start.x, start.y, 0, 0, heuristic start goal⟩ : ANode).pos = goal :=
      he0.trans hsg
    rw [show aStarFuel = 7202 + 1 from rfl,
      aStarLoop_goal g goal 7202 _ [] [] 0 _ [] hS hg]
    refine ⟨⟨[start], 0⟩, ?_, Or.inr ⟨?_, ?_⟩⟩
    · rw [he0]
      simp [reconstructPath, mapGet]
    · rw [← hsg]
      exact validPath_singleton g start
    · intro l2 hl2
      simpa using validPath_length_pos hl2
  · have hg0 : (⟨start.x, start.y, 0, 0, heuristic start goal⟩ : ANode).pos ≠ goal := by
      rw [he0]
      exact hsg
    rw [show aStarFuel = 7202 + 1 from rfl,
      aStarLoop_expand g goal 7202 _ [] [] 0 _ [] hS hg0, he0,
      show (⟨start.x, start.y, 0, 0, heuristic start goal⟩ : ANode).g = 0 from rfl]
    have core2 : AStarCore g start goal [] [start] [] := by
      refine ⟨by simp, ?_, by simp, by simp, by simp, by simp, by simp, ?_, ?_⟩
      · intro p hp
        exact Or.inr (List.mem_singleton.mp hp)
      · intro p hp
        rcases List.mem_singleton.mp hp with rfl
        refine ⟨[p], ChainTo.base p rfl, validPath_singleton g p, by simp, by simp, ?_⟩
        intro l2 hl2
        simpa using validPath_length_pos hl2
      · intro h
        exact hsg (List.mem_singleton.mp h).symm
    have hcl2 : aStarClosure g [] [] [start] [] := by
      intro u hu
      simp at hu
    obtain ⟨core3, hcl3, hlcC3, hrel3, htr3, hlen3⟩ :=
      @astar_fold_spec g start goal start 0 [start] [] [start]
        (List.mem_singleton.mpr rfl) (by simp) (validPath_singleton g start) (by simp)
        (fun u hu => hu) (getNeighbors start g) (fun x hx => hx) [] []
        core2 hcl2 (ChainTo.base start rfl) (by simp)
    have hclAll := astar_closure_assemble hrel3 hlcC3 (by simp) hcl3
    apply astar_master g start goal 7202 _ _ _ (0 + 1) core3 hclAll
    rw [show GRID_ROWS * GRID_COLS + 1 = 7201 from rfl]
    simp only [List.length_cons, List.length_nil]
    omega

/-! ## Claims C1, C5, C8: cross-algorithm guarantees -/

/-- C1.  For every snapshot grid, start and end between which a traversable
route exists, runBFS, runDijkstra and runAStar each return a valid path of
equal, minimal length (fewest cells), and runDFS returns a valid path whose
length is at least that minimum. -/
theorem equal_minimal_lengths (g : Grid) (start goal : Point)
    (hr : reach g start goal) :
    ∃ rB rD rA rF,
      runBFS g start goal = some rB ∧
      runDijkstra g start goal = some rD ∧
      runAStar g start goal = some rA ∧
      runDFS g start goal = some rF ∧
      validPath g start goal rB.path ∧ validPath g start goal rD.path ∧
      validPath g start goal rA.path ∧ validPath g start goal rF.path ∧
      rB.path.length = rD.path.length ∧ rB.path.length = rA.path.length ∧
      (∀ l2, validPath g start goal l2 → rB.path.length ≤ l2.length) ∧
      rB.path.length ≤ rF.path.length := by
  obtain ⟨rB, hB, hBspec⟩ := bfs_run_spec g start goal
  obtain ⟨rD, hD, hDspec⟩ := dijkstra_run_spec g start goal
  obtain ⟨rA, hA, hAspec⟩ := astar_run_spec g start goal
  obtain ⟨rF, hF, hFspec⟩ := dfs_run_spec g start goal
  rcases hBspec with ⟨-, hno⟩ | ⟨hBv, hBm⟩
  · exact absurd hr hno
  rcases hDspec with ⟨-, hno⟩ | ⟨hDv, hDm⟩
  · exact absurd hr hno
  rcases hAspec with ⟨-, hno⟩ | ⟨hAv, hAm⟩
  · exact absurd hr hno
  rcases hFspec with ⟨-, hno⟩ | hFv
  · exact absurd hr hno
  refine ⟨rB, rD, rA, rF, hB, hD, hA, hF, hBv, hDv, hAv, hFv, ?_, ?_, hBm, hBm _ hFv⟩
  · exact le_antisymm (hBm _ hDv) (hDm _ hBv)
  · exact le_antisymm (hBm _ hAv) (hAm _ hBv)

/-- Witness for C1 at a concrete input: the all-road snapshot with start
(0, 0) and end (1, 0), reachable by one step east. -/
theorem equal_minimal_lengths_witness :
    reach openGrid ⟨0, 0⟩ ⟨1, 0⟩ ∧
    ∃ rB rD rA rF,
      runBFS openGrid ⟨0, 0⟩ ⟨1, 0⟩ = some rB ∧
      runDijkstra openGrid ⟨0, 0⟩ ⟨1, 0⟩ = some rD ∧
      runAStar openGrid ⟨0, 0⟩ ⟨1, 0⟩ = some rA ∧
      runDFS openGrid ⟨0, 0⟩ ⟨1, 0⟩ = some rF ∧
      validPath openGrid ⟨0, 0⟩ ⟨1, 0⟩ rB.path ∧ validPath openGrid ⟨0, 0⟩ ⟨1, 0⟩ rD.path ∧
      validPath openGrid ⟨0, 0⟩ ⟨1, 0⟩ rA.path ∧ validPath openGrid ⟨0, 0⟩ ⟨1, 0⟩ rF.path ∧
      rB.path.length = rD.path.length ∧ rB.path.length = rA.path.length ∧
      (∀ l2, validPath openGrid ⟨0, 0⟩ ⟨1, 0⟩ l2 → rB.path.length ≤ l2.length) ∧
      rB.path.length ≤ rF.path.length :=
  have hr : reach openGrid ⟨0, 0⟩ ⟨1, 0⟩ :=
    ⟨[⟨0, 0⟩] ++ [⟨1, 0⟩],
      validPath_snoc (validPath_singleton openGrid ⟨0, 0⟩) (by decide)⟩
  ⟨hr, equal_minimal_lengths openGrid ⟨0, 0⟩ ⟨1, 0⟩ hr⟩

/-- C5.  When no traversable route exists between start and end in the
snapshot grid, every one of the four algorithms terminates by exhausting its
frontier and returns an empty path together with its (nonnegative, being a
Nat) exploredCount. -/
theorem no_route_empty_path (g : Grid) (start goal : Point)
    (hnr : ¬ reach g start goal) :
    ∃ cB cF cD cA,
      runBFS g start goal = some ⟨[], cB⟩ ∧
      runDFS g start goal = some ⟨[], cF⟩ ∧
      runDijkstra g start goal = some ⟨[], cD⟩ ∧
      runAStar g start goal = some ⟨[], cA⟩ := by
  obtain ⟨rB, hB, hBspec⟩ := bfs_run_spec g start goal
  obtain ⟨rF, hF, hFspec⟩ := dfs_run_spec g start goal
  obtain ⟨rD, hD, hDspec⟩ := dijkstra_run_spec g start goal
  obtain ⟨rA, hA, hAspec⟩ := astar_run_spec g start goal
  rcases hBspec with ⟨hBe, -⟩ | ⟨hBv, -⟩
  · rcases hFspec with ⟨hFe, -⟩ | hFv
    · rcases hDspec with ⟨hDe, -⟩ | ⟨hDv, -⟩
      · rcases hAspec with ⟨hAe, -⟩ | ⟨hAv, -⟩
        · cases rB with
          | mk pB cB =>
            cases rF with
            | mk pF cF =>
              cases rD with
              | mk pD cD =>
                cases rA with
                | mk pA cA =>
                  simp only at hBe hFe hDe hAe
                  subst hBe; subst hFe; subst hDe; subst hAe
                  exact ⟨cB, cF, cD, cA, hB, hF, hD, hA⟩
        · exact absurd ⟨rA.path, hAv⟩ hnr
      · exact absurd ⟨rD.path, hDv⟩ hnr
    · exact absurd ⟨rF.path, hFv⟩ hnr
  · exact absurd ⟨rB.path, hBv⟩ hnr

/-- Witness for C5 at a concrete input: the all-wall snapshot, where (1, 0)
is unreachable from (0, 0). -/
theorem no_route_empty_path_witness :
    ¬ reach wallGrid ⟨0, 0⟩ ⟨1, 0⟩ ∧
    ∃ cB cF cD cA,
      runBFS wallGrid ⟨0, 0⟩ ⟨1, 0⟩ = some ⟨[], cB⟩ ∧
      runDFS wallGrid ⟨0, 0⟩ ⟨1, 0⟩ = some ⟨[], cF⟩ ∧
      runDijkstra wallGrid ⟨0, 0⟩ ⟨1, 0⟩ = some ⟨[], cD⟩ ∧
      runAStar wallGrid ⟨0, 0⟩ ⟨1, 0⟩ = some ⟨[], cA⟩ := by
  have hng : getNeighbors ⟨0, 0⟩ wallGrid = [] := by decide
  have hnr : ¬ reach wallGrid ⟨0, 0⟩ ⟨1, 0⟩ := by
    rintro ⟨l, hl⟩
    have hmem : (⟨1, 0⟩ : Point) ∈ [(⟨0, 0⟩ : Point)] := by
      refine path_in_closed hl (by simp) ?_
      intro u hu w hw
      rcases List.mem_singleton.mp hu with rfl
      rw [hng] at hw
      exact absurd hw (List.not_mem_nil w)
    exact absurd (List.mem_singleton.mp hmem) (by decide)
  exact ⟨hnr, no_route_empty_path wallGrid ⟨0, 0⟩ ⟨1, 0⟩ hnr⟩

/-- C8.  On any snapshot grid each of the four search functions terminates
(the fuelled loops never run out: each cell is enqueued or finalized at most
once), returning either an empty path or a parent-link-reconstructed path
that starts at start and ends at end, along with its explored count. -/
theorem search_termination (g : Grid) (start goal : Point) :
    (∃ r, runBFS g start goal = some r ∧
      (r.path = [] ∨ (r.path.head? = some start ∧ r.path.getLast? = some goal))) ∧
    (∃ r, runDFS g start goal = some r ∧
      (r.path = [] ∨ (r.path.head? = some start ∧ r.path.getLast? = some goal))) ∧
    (∃ r, runDijkstra g start goal = some r ∧
      (r.path = [] ∨ (r.path.head? = some start ∧ r.path.getLast? = some goal))) ∧
    (∃ r, runAStar g start goal = some r ∧
      (r.path = [] ∨ (r.path.head? = some start ∧ r.path.getLast? = some goal))) := by
  obtain ⟨rB, hB, hBspec⟩ := bfs_run_spec g start goal
  obtain ⟨rF, hF, hFspec⟩ := dfs_run_spec g start goal
  obtain ⟨rD, hD, hDspec⟩ := dijkstra_run_spec g start goal
  obtain ⟨rA, hA, hAspec⟩ := astar_run_spec g start goal
  refine ⟨⟨rB, hB, ?_⟩, ⟨rF, hF, ?_⟩, ⟨rD, hD, ?_⟩, ⟨rA, hA, ?_⟩⟩
  · rcases hBspec with ⟨h, -⟩ | ⟨⟨-, h1, h2, -⟩, -⟩
    · exact Or.inl h
    · exact Or.inr ⟨h1, h2⟩
  · rcases hFspec with ⟨h, -⟩ | ⟨-, h1, h2, -⟩
    · exact Or.inl h
    · exact Or.inr ⟨h1, h2⟩
  · rcases hDspec with ⟨h, -⟩ | ⟨⟨-, h1, h2, -⟩, -⟩
    · exact Or.inl h
    · exact Or.inr ⟨h1, h2⟩
  · rcases hAspec with ⟨h, -⟩ | ⟨⟨-, h1, h2, -⟩, -⟩
    · exact Or.inl h
    · exact Or.inr ⟨h1, h2⟩
